import Mathlib

/-!
Verification development for the `path-unified` library (`src/path.js`), a
copy of Node's `path` module.  Paths are modelled as `List Char`; JavaScript
`charCodeAt` (which yields `NaN` out of range) is modelled as `Option Nat`.
All functions are faithful transcriptions of the JavaScript source; loops
become structural recursions on an explicit countdown argument, with the
loop state threaded as arguments.
-/

namespace PathUnified

/-! ### Character constants (hard-copied Node `internal/constants`, `src/constants.js`;
the file is not shipped under `src/`, the values are the standard ASCII codes
named by the identifiers). -/

def CHAR_UPPERCASE_A : Nat := 65

def CHAR_LOWERCASE_A : Nat := 97

def CHAR_UPPERCASE_Z : Nat := 90

def CHAR_LOWERCASE_Z : Nat := 122

def CHAR_DOT : Nat := 46

def CHAR_FORWARD_SLASH : Nat := 47

def CHAR_BACKWARD_SLASH : Nat := 92

def CHAR_COLON : Nat := 58

def CHAR_QUESTION_MARK : Nat := 63

/-- `path.charCodeAt(i)`: `some` code in range, `none` models JavaScript's
`NaN` (which fails every comparison and every classifier below). -/
def codeAt (p : List Char) (i : Nat) : Option Nat :=
  p[i]?.map Char.toNat

/-- `isPathSeparator` from `src/path.js` (accepts `/` and `\`). -/
def isPathSeparator (code : Nat) : Bool :=
  code == CHAR_FORWARD_SLASH || code == CHAR_BACKWARD_SLASH

/-- `isPosixPathSeparator` from `src/path.js`. -/
def isPosixPathSeparator (code : Nat) : Bool :=
  code == CHAR_FORWARD_SLASH

/-- `isWindowsDeviceRoot` from `src/path.js`. -/
def isWindowsDeviceRoot (code : Nat) : Bool :=
  (CHAR_UPPERCASE_A ≤ code && code ≤ CHAR_UPPERCASE_Z) ||
  (CHAR_LOWERCASE_A ≤ code && code ≤ CHAR_LOWERCASE_Z)

/-- a classifier applied to a possibly-out-of-range char code
(`isPathSeparator(NaN)` is `false` in JavaScript). -/
def isSepO (isSep : Nat → Bool) (c : Option Nat) : Bool :=
  match c with
  | some n => isSep n
  | none => false

/-- `isWindowsDeviceRoot` on a possibly-out-of-range char code. -/
def isWDRO (c : Option Nat) : Bool :=
  match c with
  | some n => isWindowsDeviceRoot n
  | none => false

/-- JavaScript `String.prototype.slice(a, b)` for `0 ≤ a ≤ b`. -/
def sliceNat (l : List Char) (a b : Nat) : List Char :=
  (l.drop a).take (b - a)

/-- JavaScript `String.prototype.lastIndexOf` for a single character
(`-1` when absent): the largest index holding `c`. -/
def lastIndexOf (l : List Char) (c : Char) : Int :=
  match l with
  | [] => -1
  | a :: t =>
    let r := lastIndexOf t c
    if r == -1 then (if a == c then 0 else -1) else r + 1

/-! ### `normalizeString` (src/path.js lines 77-136)

The body of the `for` loop, in the case `isPathSeparator(code)` holds, updates
`res` and `lastSegmentLength` by the inner `if`/`else if`/`else` cascade and
then (on every branch, the `continue`-ing ones included) sets `lastSlash = i`
and `dots = 0`.  `sepResUpdate` is that cascade: `atBoundary` stands for the
source's `lastSlash === i - 1`, and `seg` for `path.slice(lastSlash + 1, i)`
(whose length is the source's `i - lastSlash - 1`). -/

def sepResUpdate (separator : Char) (allowAboveRoot : Bool) (res : List Char)
    (lastSegmentLength : Int) (atBoundary : Bool) (dots : Int) (seg : List Char) :
    List Char × Int :=
  if atBoundary || dots == 1 then
    (res, lastSegmentLength)
  else if dots == 2 then
    if (res.length : Int) < 2 || lastSegmentLength != 2 ||
        codeAt res (res.length - 1) != some CHAR_DOT ||
        codeAt res (res.length - 2) != some CHAR_DOT then
      if (res.length : Int) > 2 then
        let lastSlashIndex := lastIndexOf res separator
        if lastSlashIndex == -1 then
          ([], 0)
        else
          let res2 := res.take lastSlashIndex.toNat
          (res2, (res2.length : Int) - 1 - lastIndexOf res2 separator)
      else if res.length != 0 then
        ([], 0)
      else if allowAboveRoot then
        (if res.length > 0 then res ++ separator :: ['.', '.'] else ['.', '.'], 2)
      else (res, lastSegmentLength)
    else if allowAboveRoot then
      (if res.length > 0 then res ++ separator :: ['.', '.'] else ['.', '.'], 2)
    else (res, lastSegmentLength)
  else
    (if res.length > 0 then res ++ separator :: seg else seg, (seg.length : Int))

/-- the `for (let i = 0; i <= path.length; ++i)` loop of `normalizeString`;
`n` counts the remaining iterations (`i = p.length - n` at entry, so the call
with `n = p.length + 1` starts at `i = 0`; the iteration `n = 1` is the
one-past-the-end flush iteration, where `p.get? i = none`). -/
def normLoop (p : List Char) (allowAboveRoot : Bool) (separator : Char)
    (isSep : Nat → Bool) :
    Nat → List Char → Int → Int → Int → Nat → List Char
  | 0, res, _, _, _, _ => res
  | n + 1, res, lastSegmentLength, lastSlash, dots, code =>
    let i : Nat := p.length - n
    let code? : Option Nat :=
      match p[i]? with
      | some c => some c.toNat
      | none => if isSep code then none else some CHAR_FORWARD_SLASH
    match code? with
    | none => res
    | some code' =>
      if isSep code' then
        let ru := sepResUpdate separator allowAboveRoot res lastSegmentLength
          (lastSlash == (i : Int) - 1) dots (sliceNat p (lastSlash + 1).toNat i)
        normLoop p allowAboveRoot separator isSep n ru.1 ru.2 (i : Int) 0 code'
      else if code' == CHAR_DOT && dots != -1 then
        normLoop p allowAboveRoot separator isSep n res lastSegmentLength lastSlash
          (dots + 1) code'
      else
        normLoop p allowAboveRoot separator isSep n res lastSegmentLength lastSlash
          (-1) code'

/-- `normalizeString(path, allowAboveRoot, separator, isPathSeparator)` from
`src/path.js`; resolves `.` and `..` elements in a path tail. -/
def normalizeString (p : List Char) (allowAboveRoot : Bool) (separator : Char)
    (isSep : Nat → Bool) : List Char :=
  normLoop p allowAboveRoot separator isSep (p.length + 1) [] 0 (-1) 0 0

/-! ### Segment-level specification of `normalizeString`

This is the spec sentence formalised: split the tail into segments at the
classifier's separator characters, drop empty and `.` segments, resolve each
`..` against the preceding real segment of the accumulated result when one
exists (a previously kept literal `..` is not a real segment), otherwise keep
the `..` literally exactly when `allowAboveRoot`, and rejoin with the
separator.  The accumulator `stack` is kept top-first. -/

def splitSegs (isSep : Nat → Bool) : List Char → List (List Char)
  | [] => [[]]
  | c :: cs =>
    match splitSegs isSep cs with
    | [] => [[]]
    | s :: rest => if isSep c.toNat then [] :: s :: rest else (c :: s) :: rest

def pushSeg (allowAboveRoot : Bool) (stack : List (List Char)) (seg : List Char) :
    List (List Char) :=
  if seg = [] ∨ seg = ['.'] then stack
  else if seg = ['.', '.'] then
    match stack with
    | t :: rest =>
      if t = ['.', '.'] then (if allowAboveRoot then seg :: t :: rest else t :: rest)
      else rest
    | [] => if allowAboveRoot then [seg] else []
  else seg :: stack

/-- the normalized tail described by the spec: fold the segments through
`pushSeg` and join with the separator. -/
def normSpec (p : List Char) (allowAboveRoot : Bool) (separator : Char)
    (isSep : Nat → Bool) : List Char :=
  List.intercalate [separator] (((splitSegs isSep p).foldl (pushSeg allowAboveRoot) []).reverse)

/-! ### Machinery for the `normalizeString` equivalence proof

`normLoop`'s state is related to an abstract accumulator `stack` (kept
top-first): `res` is the stack joined bottom-to-top with the separator,
`lastSegmentLength` is the length of the top element, and the characters
since the last separator boundary form `pending`. -/

/-- the result string corresponding to a (top-first) segment stack. -/
def joinT (separator : Char) : List (List Char) → List Char
  | [] => []
  | [t] => t
  | t :: s :: rest => joinT separator (s :: rest) ++ separator :: t

/-- the `lastSegmentLength` corresponding to a (top-first) segment stack. -/
def headLen : List (List Char) → Int
  | [] => 0
  | t :: _ => (t.length : Int)

/-- the `dots` counter corresponding to the pending segment characters. -/
def dotsOf (pending : List Char) : Int :=
  if pending.all (· == '.') then (pending.length : Int) else -1

/-- the segment fold restated as a single scan over the remaining characters,
carrying the pending segment. -/
def specRun (allowAboveRoot : Bool) (isSep : Nat → Bool) :
    List (List Char) → List Char → List Char → List (List Char)
  | stack, pending, [] => pushSeg allowAboveRoot stack pending
  | stack, pending, c :: cs =>
    if isSep c.toNat then
      specRun allowAboveRoot isSep (pushSeg allowAboveRoot stack pending) [] cs
    else specRun allowAboveRoot isSep stack (pending ++ [c]) cs

def SepFree (isSep : Nat → Bool) (s : List Char) : Prop :=
  ∀ c ∈ s, isSep c.toNat = false

def OkStack (isSep : Nat → Bool) (stack : List (List Char)) : Prop :=
  ∀ s ∈ stack, s ≠ [] ∧ SepFree isSep s

/-! ### POSIX engine (src/path.js lines 1035-1437)

The pure transcriptions take the already-validated string arguments
(`validateString` and the JS-value level are modelled separately below) and
`process.cwd()` as an explicit `cwd` parameter. -/

/-- the loop of `posResolve` (lines 1039-1050), walking the arguments from
last to first (the reversed argument list, with `cwd` appended for the
`i = -1` iteration, is passed); returns `(resolvedPath, resolvedAbsolute)`. -/
def posResolveGo : List (List Char) → List Char → List Char × Bool
  | [], acc => (acc, false)
  | path :: rest, acc =>
    if path.length = 0 then posResolveGo rest acc
    else
      let acc' := path ++ '/' :: acc
      if codeAt path 0 == some CHAR_FORWARD_SLASH then (acc', true)
      else posResolveGo rest acc'

/-- `posResolve` (src/path.js lines 1035-1062). -/
def posResolve (cwd : List Char) (args : List (List Char)) : List Char :=
  let r := posResolveGo (args.reverse ++ [cwd]) []
  let resolvedPath := normalizeString r.1 (!r.2) '/' isPosixPathSeparator
  if r.2 then '/' :: resolvedPath
  else if resolvedPath.length > 0 then resolvedPath else ['.']

/-- `posNormalize` (src/path.js lines 1068-1086). -/
def posNormalize (path : List Char) : List Char :=
  if path.length = 0 then ['.']
  else
    let isAbsolute := codeAt path 0 == some CHAR_FORWARD_SLASH
    let trailingSeparator := codeAt path (path.length - 1) == some CHAR_FORWARD_SLASH
    let path1 := normalizeString path (!isAbsolute) '/' isPosixPathSeparator
    if path1.length = 0 then
      if isAbsolute then ['/']
      else if trailingSeparator then ['.', '/'] else ['.']
    else
      let path2 := if trailingSeparator then path1 ++ ['/'] else path1
      if isAbsolute then '/' :: path2 else path2

/-- `posIsAbsolute` (src/path.js lines 1092-1095). -/
def posIsAbsolute (path : List Char) : Bool :=
  path.length > 0 && codeAt path 0 == some CHAR_FORWARD_SLASH

/-- `posToNamespacedPath` (src/path.js lines 1191-1194): identity. -/
def posToNamespacedPath (path : List Char) : List Char :=
  path

/-- the character-compare loop of `posRelative`/`winRelative`
(lines 1143-1147 and 528-532), parameterized by the separator code compared
against; `fuel = length - i`; returns `(i, lastCommonSep)`. -/
def relScanLoop (f t : List Char) (fromStart toStart : Nat) (sepCode : Nat) :
    Nat → Nat → Int → Nat × Int
  | 0, i, lcs => (i, lcs)
  | fuel + 1, i, lcs =>
    let fromCode := codeAt f (fromStart + i)
    if fromCode != codeAt t (toStart + i) then (i, lcs)
    else
      let lcs' := if fromCode == some sepCode then (i : Int) else lcs
      relScanLoop f t fromStart toStart sepCode fuel (i + 1) lcs'

/-- the `..`-emitting loop of `posRelative`/`winRelative` (lines 1176-1180
and 568-572); the iteration index runs from `start` to `fromEnd` inclusive
(`fuel = fromEnd + 1 - start`). -/
def relOutLoop (f : List Char) (fromEnd : Nat) (sepCode : Nat) (sep : Char) :
    Nat → Nat → List Char → List Char
  | 0, _, out => out
  | fuel + 1, i, out =>
    let out' :=
      if i == fromEnd || codeAt f i == some sepCode then
        (if out.length == 0 then ['.', '.'] else out ++ sep :: ['.', '.'])
      else out
    relOutLoop f fromEnd sepCode sep fuel (i + 1) out'

/-- the common tail of `posRelative` (lines 1173-1184). -/
def posRelFinish (fromR toR : List Char) (fromStart fromEnd toStart : Nat)
    (lcs : Int) : List Char :=
  let start := ((fromStart : Int) + lcs + 1).toNat
  let out := relOutLoop fromR fromEnd CHAR_FORWARD_SLASH '/' (fromEnd + 1 - start) start []
  out ++ toR.drop ((toStart : Int) + lcs).toNat

/-- `posRelative` (src/path.js lines 1121-1185). -/
def posRelative (cwd : List Char) (fromP toP : List Char) : List Char :=
  if fromP = toP then []
  else
    let fromR := posResolve cwd [fromP]
    let toR := posResolve cwd [toP]
    if fromR = toR then []
    else
      let fromStart := 1
      let fromEnd := fromR.length
      let fromLen := fromEnd - fromStart
      let toStart := 1
      let toLen := toR.length - toStart
      let length := if fromLen < toLen then fromLen else toLen
      let sc := relScanLoop fromR toR fromStart toStart CHAR_FORWARD_SLASH length 0 (-1)
      let i := sc.1
      let lcs := sc.2
      if i == length then
        if toLen > length then
          if codeAt toR (toStart + i) == some CHAR_FORWARD_SLASH then
            toR.drop (toStart + i + 1)
          else if i == 0 then
            toR.drop (toStart + i)
          else posRelFinish fromR toR fromStart fromEnd toStart lcs
        else if fromLen > length then
          let lcs2 :=
            if codeAt fromR (fromStart + i) == some CHAR_FORWARD_SLASH then (i : Int)
            else if i == 0 then 0 else lcs
          posRelFinish fromR toR fromStart fromEnd toStart lcs2
        else posRelFinish fromR toR fromStart fromEnd toStart lcs
      else posRelFinish fromR toR fromStart fromEnd toStart lcs

/-- parsed path components `{root, dir, base, ext, name}`. -/
structure ParsedPath where
  root : List Char
  dir : List Char
  base : List Char
  ext : List Char
  name : List Char
  deriving Repr, DecidableEq

/-- the shared backward non-dir scan of `posParse` and `winParse`
(src/path.js lines 1386-1414 and 957-985, which are identical up to the
separator classifier); `i = start + fuel` at entry, so the first iteration
has `i = path.length - 1` when called with `fuel = path.length - start`;
returns `(startDot, startPart, end, preDotState)`. -/
def parseScanLoop (isSep : Nat → Bool) (p : List Char) (start : Nat) :
    Nat → Int → Nat → Int → Bool → Int → Int × Nat × Int × Int
  | 0, startDot, startPart, end_, _, preDotState => (startDot, startPart, end_, preDotState)
  | fuel + 1, startDot, startPart, end_, matchedSlash, preDotState =>
    let i : Nat := start + fuel
    let code := codeAt p i
    if isSepO isSep code then
      if !matchedSlash then (startDot, i + 1, end_, preDotState)
      else parseScanLoop isSep p start fuel startDot startPart end_ matchedSlash preDotState
    else
      let me : Bool × Int := if end_ == -1 then (false, (i : Int) + 1) else (matchedSlash, end_)
      let startDot' : Int :=
        if code == some CHAR_DOT then (if startDot == -1 then (i : Int) else startDot)
        else startDot
      let preDot' : Int :=
        if code == some CHAR_DOT then
          (if startDot == -1 then preDotState else if preDotState != 1 then 1 else preDotState)
        else if startDot != -1 then -1
        else preDotState
      parseScanLoop isSep p start fuel startDot' startPart me.2 me.1 preDot'

/-- `posParse` (src/path.js lines 1364-1437). -/
def posParse (path : List Char) : ParsedPath :=
  if path.length = 0 then ⟨[], [], [], [], []⟩
  else
    let isAbsolute := codeAt path 0 == some CHAR_FORWARD_SLASH
    let start := if isAbsolute then 1 else 0
    let root : List Char := if isAbsolute then ['/'] else []
    let sc := parseScanLoop isPosixPathSeparator path start (path.length - start) (-1) 0 (-1)
      true 0
    let startDot := sc.1
    let startPart := sc.2.1
    let end_ := sc.2.2.1
    let preDotState := sc.2.2.2
    let bne : List Char × List Char × List Char :=
      if end_ != -1 then
        let start2 := if startPart == 0 && isAbsolute then 1 else startPart
        if startDot == -1 || preDotState == 0 ||
            (preDotState == 1 && startDot == end_ - 1 && startDot == (startPart : Int) + 1) then
          (sliceNat path start2 end_.toNat, sliceNat path start2 end_.toNat, [])
        else
          (sliceNat path start2 end_.toNat, sliceNat path start2 startDot.toNat,
            sliceNat path startDot.toNat end_.toNat)
      else ([], [], [])
    let dir : List Char :=
      if startPart > 0 then sliceNat path 0 (startPart - 1)
      else if isAbsolute then ['/'] else []
    ⟨root, dir, bne.1, bne.2.2, bne.2.1⟩

/-- the suffix-matching backward loop of `posBasename`/`winBasename`
(src/path.js lines 1240-1272 and 732-764); state `(end, matchedSlash,
extIdx, firstNonSlashEnd)`, returns `(start, end, firstNonSlashEnd)`. -/
def bnSuffixLoop (isSep : Nat → Bool) (p sfx : List Char) (start0 : Nat) :
    Nat → Int → Bool → Int → Int → Nat × Int × Int
  | 0, end_, _, _, fnse => (start0, end_, fnse)
  | fuel + 1, end_, matchedSlash, extIdx, fnse =>
    let i : Nat := start0 + fuel
    let code := codeAt p i
    if isSepO isSep code then
      if !matchedSlash then (i + 1, end_, fnse)
      else bnSuffixLoop isSep p sfx start0 fuel end_ matchedSlash extIdx fnse
    else
      let mf : Bool × Int := if fnse == -1 then (false, (i : Int) + 1) else (matchedSlash, fnse)
      let ee : Int × Int :=
        if extIdx ≥ 0 then
          if code == codeAt sfx extIdx.toNat then
            (extIdx - 1, if extIdx - 1 == -1 then (i : Int) else end_)
          else (-1, mf.2)
        else (extIdx, end_)
      bnSuffixLoop isSep p sfx start0 fuel ee.2 mf.1 ee.1 mf.2

/-- the plain backward loop of `posBasename`/`winBasename`
(src/path.js lines 1278-1292 and 770-784); returns `(start, end)`. -/
def bnPlainLoop (isSep : Nat → Bool) (p : List Char) (start0 : Nat) :
    Nat → Int → Bool → Nat × Int
  | 0, end_, _ => (start0, end_)
  | fuel + 1, end_, matchedSlash =>
    let i : Nat := start0 + fuel
    if isSepO isSep (codeAt p i) then
      if !matchedSlash then (i + 1, end_)
      else bnPlainLoop isSep p start0 fuel end_ matchedSlash
    else if end_ == -1 then bnPlainLoop isSep p start0 fuel ((i : Int) + 1) false
    else bnPlainLoop isSep p start0 fuel end_ matchedSlash

/-- the shared body of `posBasename`/`winBasename` after the start offset is
fixed (`start0` is `0` for POSIX, past a drive prefix for Windows). -/
def basenameBody (isSep : Nat → Bool) (path : List Char) (suffix : Option (List Char))
    (start0 : Nat) : List Char :=
  match suffix with
  | some sfx =>
    if sfx.length > 0 && sfx.length ≤ path.length then
      if sfx = path then []
      else
        let r := bnSuffixLoop isSep path sfx start0 (path.length - start0) (-1) true
          ((sfx.length : Int) - 1) (-1)
        let start := r.1
        let end0 := r.2.1
        let fnse := r.2.2
        let end1 : Int :=
          if (start : Int) == end0 then fnse
          else if end0 == -1 then (path.length : Int) else end0
        sliceNat path start end1.toNat
    else
      let r := bnPlainLoop isSep path start0 (path.length - start0) (-1) true
      if r.2 == -1 then [] else sliceNat path r.1 r.2.toNat
  | none =>
    let r := bnPlainLoop isSep path start0 (path.length - start0) (-1) true
    if r.2 == -1 then [] else sliceNat path r.1 r.2.toNat

/-- `posBasename` (src/path.js lines 1228-1296). -/
def posBasename (path : List Char) (suffix : Option (List Char)) : List Char :=
  basenameBody (fun c => c == CHAR_FORWARD_SLASH) path suffix 0

/-- `formatExt` (src/path.js lines 142-144). -/
def formatExt (ext : List Char) : List Char :=
  if ext ≠ [] then (if ext.headD ' ' == '.' then [] else ['.']) ++ ext else []

/-- `_format` (src/path.js lines 157-165); `validateObject` is omitted in
the pure transcription (the argument is a `ParsedPath` by type). -/
def formatPath (sep : Char) (pathObject : ParsedPath) : List Char :=
  let dir := if pathObject.dir ≠ [] then pathObject.dir else pathObject.root
  let base := if pathObject.base ≠ [] then pathObject.base
              else pathObject.name ++ formatExt pathObject.ext
  if dir = [] then base
  else if dir = pathObject.root then dir ++ base
  else dir ++ sep :: base

/-- `posFormat = _format.bind(null, '/')` (src/path.js line 1352). -/
def posFormat (pathObject : ParsedPath) : List Char :=
  formatPath '/' pathObject

/-! ### Windows engine (src/path.js lines 172-1010)

The repeated `while` scans of the UNC-root matcher are factored into
`scanNonSep`/`scanSep`; `process.cwd()` and the `process.env` lookup
(keyed `=C:`) are explicit `cwd`/`env` parameters; `toLowerCase` is
modelled on ASCII (`lowerChar`), which covers every character these
algorithms compare. -/

/-- `while (j < len && !isPathSeparator(path.charCodeAt(j))) j++`. -/
def scanNonSepGo (p : List Char) : Nat → Nat → Nat
  | 0, j => j
  | fuel + 1, j =>
    if isSepO isPathSeparator (codeAt p j) then j else scanNonSepGo p fuel (j + 1)

def scanNonSep (p : List Char) (j : Nat) : Nat :=
  scanNonSepGo p (p.length - j) j

/-- `while (j < len && isPathSeparator(path.charCodeAt(j))) j++`. -/
def scanSepGo (p : List Char) : Nat → Nat → Nat
  | 0, j => j
  | fuel + 1, j =>
    if isSepO isPathSeparator (codeAt p j) then scanSepGo p fuel (j + 1) else j

def scanSep (p : List Char) (j : Nat) : Nat :=
  scanSepGo p (p.length - j) j

/-- ASCII `toLowerCase` (the characters compared by `winResolve` and
`winRelative` are drive letters and path characters). -/
def lowerChar (c : Char) : Char :=
  if 'A' ≤ c ∧ c ≤ 'Z' then Char.ofNat (c.toNat + 32) else c

def lowerL (l : List Char) : List Char :=
  l.map lowerChar

/-- the root matcher of `winResolve` (src/path.js lines 208-271): returns
`(rootEnd, device, isAbsolute)`. -/
def winResolveRoot (path : List Char) : Nat × List Char × Bool :=
  let len := path.length
  let code := codeAt path 0
  if len == 1 then
    if isSepO isPathSeparator code then (1, [], true) else (0, [], false)
  else if isSepO isPathSeparator code then
    if isSepO isPathSeparator (codeAt path 1) then
      let j1 := scanNonSep path 2
      if j1 < len && j1 != 2 then
        let firstPart := sliceNat path 2 j1
        let j2 := scanSep path j1
        if j2 < len && j2 != j1 then
          let j3 := scanNonSep path j2
          if j3 == len || j3 != j2 then
            (j3, '\\' :: '\\' :: firstPart ++ '\\' :: sliceNat path j2 j3, true)
          else (0, [], true)
        else (0, [], true)
      else (0, [], true)
    else (1, [], true)
  else if isWDRO code && codeAt path 1 == some CHAR_COLON then
    if len > 2 && isSepO isPathSeparator (codeAt path 2) then (3, path.take 2, true)
    else (2, path.take 2, false)
  else (0, [], false)

structure WinResolveSt where
  resolvedDevice : List Char
  resolvedTail : List Char
  resolvedAbsolute : Bool
  deriving Repr, DecidableEq

/-- one iteration of the `winResolve` loop for a non-skipped `path`
(src/path.js lines 208-291); the returned `Bool` is the loop `break`. -/
def winResolveStep (st : WinResolveSt) (path : List Char) : WinResolveSt × Bool :=
  let r := winResolveRoot path
  let rootEnd := r.1
  let device := r.2.1
  let isAbsolute := r.2.2
  if device.length > 0 && st.resolvedDevice.length > 0 &&
      lowerL device != lowerL st.resolvedDevice then
    (st, false)
  else
    let st1 :=
      if device.length > 0 && st.resolvedDevice.length == 0 then
        { st with resolvedDevice := device }
      else st
    if st1.resolvedAbsolute then
      if st1.resolvedDevice.length > 0 then (st1, true) else (st1, false)
    else
      let st2 := { st1 with
        resolvedTail := path.drop rootEnd ++ '\\' :: st1.resolvedTail,
        resolvedAbsolute := isAbsolute }
      if isAbsolute && st2.resolvedDevice.length > 0 then (st2, true) else (st2, false)

/-- the `i >= 0` iterations of the `winResolve` loop (arguments in
last-to-first order); empty entries are skipped. -/
def winResolveArgs (st : WinResolveSt) : List (List Char) → WinResolveSt × Bool
  | [] => (st, false)
  | path :: rest =>
    if path.length == 0 then winResolveArgs st rest
    else
      let r := winResolveStep st path
      if r.2 then (r.1, true) else winResolveArgs r.1 rest

/-- `winResolve` (src/path.js lines 172-304).  The `path === undefined`
disjunct of the drive-cwd check is dead (the `||` fallback already
substituted `cwd`) and is omitted. -/
def winResolve (cwd : List Char) (env : List Char → Option (List Char))
    (args : List (List Char)) : List Char :=
  let la := winResolveArgs ⟨[], [], false⟩ args.reverse
  let st :=
    if la.2 then la.1
    else
      let st0 := la.1
      let path :=
        if st0.resolvedDevice.length == 0 then cwd
        else
          let path0 :=
            match env ('=' :: st0.resolvedDevice) with
            | some s => if s.length == 0 then cwd else s
            | none => cwd
          if lowerL (path0.take 2) != lowerL st0.resolvedDevice &&
              codeAt path0 2 == some CHAR_BACKWARD_SLASH then
            st0.resolvedDevice ++ ['\\']
          else path0
      (winResolveStep st0 path).1
  let resolvedTail := normalizeString st.resolvedTail (!st.resolvedAbsolute) '\\'
    isPathSeparator
  if st.resolvedAbsolute then st.resolvedDevice ++ '\\' :: resolvedTail
  else if (st.resolvedDevice ++ resolvedTail).length > 0 then
    st.resolvedDevice ++ resolvedTail
  else ['.']

/-- the tail assembly of `winNormalize` (src/path.js lines 383-390). -/
def winNormTail (path : List Char) (device : Option (List Char)) (isAbsolute : Bool)
    (rootEnd : Nat) : List Char :=
  let tail0 :=
    if rootEnd < path.length then
      normalizeString (path.drop rootEnd) (!isAbsolute) '\\' isPathSeparator
    else []
  let tail1 := if tail0.length == 0 && !isAbsolute then ['.'] else tail0
  let tail2 :=
    if tail1.length > 0 && isSepO isPathSeparator (codeAt path (path.length - 1)) then
      tail1 ++ ['\\']
    else tail1
  match device with
  | none => if isAbsolute then '\\' :: tail2 else tail2
  | some d => if isAbsolute then d ++ '\\' :: tail2 else d ++ tail2

/-- `winNormalize` (src/path.js lines 310-391). -/
def winNormalize (path : List Char) : List Char :=
  let len := path.length
  if len == 0 then ['.']
  else
    let code := codeAt path 0
    if len == 1 then
      if isSepO isPosixPathSeparator code then ['\\'] else path
    else if isSepO isPathSeparator code then
      if isSepO isPathSeparator (codeAt path 1) then
        let j1 := scanNonSep path 2
        if j1 < len && j1 != 2 then
          let firstPart := sliceNat path 2 j1
          let j2 := scanSep path j1
          if j2 < len && j2 != j1 then
            let j3 := scanNonSep path j2
            if j3 == len then
              '\\' :: '\\' :: firstPart ++ '\\' :: (path.drop j2) ++ ['\\']
            else if j3 != j2 then
              winNormTail path
                (some ('\\' :: '\\' :: firstPart ++ '\\' :: sliceNat path j2 j3)) true j3
            else winNormTail path none true 0
          else winNormTail path none true 0
        else winNormTail path none true 0
      else winNormTail path none true 1
    else if isWDRO code && codeAt path 1 == some CHAR_COLON then
      if len > 2 && isSepO isPathSeparator (codeAt path 2) then
        winNormTail path (some (path.take 2)) true 3
      else winNormTail path (some (path.take 2)) false 2
    else winNormTail path none false 0

/-- `winToNamespacedPath` (src/path.js lines 588-615) on string input (the
non-string passthrough is modelled at the JS-value level). -/
def winToNamespacedPath (cwd : List Char) (env : List Char → Option (List Char))
    (path : List Char) : List Char :=
  if path.length == 0 then path
  else
    let resolvedPath := winResolve cwd env [path]
    if resolvedPath.length ≤ 2 then path
    else if codeAt resolvedPath 0 == some CHAR_BACKWARD_SLASH then
      if codeAt resolvedPath 1 == some CHAR_BACKWARD_SLASH then
        let code := codeAt resolvedPath 2
        if code != some CHAR_QUESTION_MARK && code != some CHAR_DOT then
          '\\' :: '\\' :: '?' :: '\\' :: 'U' :: 'N' :: 'C' :: '\\' :: resolvedPath.drop 2
        else path
      else path
    else if isWDRO (codeAt resolvedPath 0) && codeAt resolvedPath 1 == some CHAR_COLON &&
        codeAt resolvedPath 2 == some CHAR_BACKWARD_SLASH then
      '\\' :: '\\' :: '?' :: '\\' :: resolvedPath
    else path

/-- `while (fromStart < len && charCodeAt(fromStart) === '\\') fromStart++`. -/
def trimStartGo (l : List Char) : Nat → Nat → Nat
  | 0, j => j
  | fuel + 1, j =>
    if codeAt l j == some CHAR_BACKWARD_SLASH then trimStartGo l fuel (j + 1) else j

def trimStartBS (l : List Char) : Nat :=
  trimStartGo l l.length 0

/-- `while (end - 1 > start && charCodeAt(end - 1) === '\\') end--`. -/
def trimEndGo (l : List Char) (start : Nat) : Nat → Nat → Nat
  | 0, e => e
  | fuel + 1, e =>
    if start + 1 < e && codeAt l (e - 1) == some CHAR_BACKWARD_SLASH then
      trimEndGo l start fuel (e - 1)
    else e

/-- the common tail of `winRelative` (src/path.js lines 565-581);
`lcs ≥ 0` on every reachable call. -/
def winRelFinish (f toOrig : List Char) (fromStart fromEnd toStart toEnd : Nat)
    (lcs : Int) : List Char :=
  let start := ((fromStart : Int) + lcs + 1).toNat
  let out := relOutLoop f fromEnd CHAR_BACKWARD_SLASH '\\' (fromEnd + 1 - start) start []
  let toStart2 := ((toStart : Int) + lcs).toNat
  if out.length > 0 then out ++ sliceNat toOrig toStart2 toEnd
  else
    let toStart3 :=
      if codeAt toOrig toStart2 == some CHAR_BACKWARD_SLASH then toStart2 + 1 else toStart2
    sliceNat toOrig toStart3 toEnd

/-- `winRelative` (src/path.js lines 484-582). -/
def winRelative (cwd : List Char) (env : List Char → Option (List Char))
    (fromP toP : List Char) : List Char :=
  if fromP = toP then []
  else
    let fromOrig := winResolve cwd env [fromP]
    let toOrig := winResolve cwd env [toP]
    if fromOrig = toOrig then []
    else
      let f := lowerL fromOrig
      let t := lowerL toOrig
      if f = t then []
      else
        let fromStart := trimStartBS f
        let fromEnd := trimEndGo f fromStart f.length f.length
        let fromLen := fromEnd - fromStart
        let toStart := trimStartBS t
        let toEnd := trimEndGo t toStart t.length t.length
        let toLen := toEnd - toStart
        let length := if fromLen < toLen then fromLen else toLen
        let sc := relScanLoop f t fromStart toStart CHAR_BACKWARD_SLASH length 0 (-1)
        let i := sc.1
        let lcs0 := sc.2
        if i != length then
          if lcs0 == -1 then toOrig
          else winRelFinish f toOrig fromStart fromEnd toStart toEnd lcs0
        else
          if toLen > length && codeAt t (toStart + i) == some CHAR_BACKWARD_SLASH then
            toOrig.drop (toStart + i + 1)
          else if toLen > length && i == 2 then
            toOrig.drop (toStart + i)
          else
            let lcs1 :=
              if fromLen > length then
                (if codeAt f (fromStart + i) == some CHAR_BACKWARD_SLASH then (i : Int)
                 else if i == 2 then 3 else lcs0)
              else lcs0
            let lcs2 := if lcs1 == -1 then 0 else lcs1
            winRelFinish f toOrig fromStart fromEnd toStart toEnd lcs2

/-- the non-root part of `winParse` (src/path.js lines 946-1009). -/
def winParseRest (path : List Char) (rootEnd : Nat) : ParsedPath :=
  let root := if rootEnd > 0 then path.take rootEnd else []
  let sc := parseScanLoop isPathSeparator path rootEnd (path.length - rootEnd) (-1) rootEnd
    (-1) true 0
  let startDot := sc.1
  let startPart := sc.2.1
  let end_ := sc.2.2.1
  let preDotState := sc.2.2.2
  let bne : List Char × List Char × List Char :=
    if end_ != -1 then
      if startDot == -1 || preDotState == 0 ||
          (preDotState == 1 && startDot == end_ - 1 && startDot == (startPart : Int) + 1) then
        (sliceNat path startPart end_.toNat, sliceNat path startPart end_.toNat, [])
      else
        (sliceNat path startPart end_.toNat, sliceNat path startPart startDot.toNat,
          sliceNat path startDot.toNat end_.toNat)
    else ([], [], [])
  let dir : List Char :=
    if startPart > 0 && startPart != rootEnd then sliceNat path 0 (startPart - 1)
    else root
  ⟨root, dir, bne.1, bne.2.2, bne.2.1⟩

/-- `winParse` (src/path.js lines 870-1010). -/
def winParse (path : List Char) : ParsedPath :=
  if path.length == 0 then ⟨[], [], [], [], []⟩
  else
    let len := path.length
    let code := codeAt path 0
    if len == 1 then
      if isSepO isPathSeparator code then ⟨path, path, [], [], []⟩
      else ⟨[], [], path, [], path⟩
    else if isSepO isPathSeparator code then
      let rootEnd :=
        if isSepO isPathSeparator (codeAt path 1) then
          let j1 := scanNonSep path 2
          if j1 < len && j1 != 2 then
            let j2 := scanSep path j1
            if j2 < len && j2 != j1 then
              let j3 := scanNonSep path j2
              if j3 == len then j3
              else if j3 != j2 then j3 + 1
              else 1
            else 1
          else 1
        else 1
      winParseRest path rootEnd
    else if isWDRO code && codeAt path 1 == some CHAR_COLON then
      if len ≤ 2 then ⟨path, path, [], [], []⟩
      else if isSepO isPathSeparator (codeAt path 2) then
        if len == 3 then ⟨path, path, [], [], []⟩
        else winParseRest path 3
      else winParseRest path 2
    else winParseRest path 0

/-- `winBasename` (src/path.js lines 710-788). -/
def winBasename (path : List Char) (suffix : Option (List Char)) : List Char :=
  let start0 :=
    if path.length ≥ 2 && isWDRO (codeAt path 0) && codeAt path 1 == some CHAR_COLON then 2
    else 0
  basenameBody isPathSeparator path suffix start0

/-- `winFormat = _format.bind(null, '\\')` (src/path.js line 858). -/
def winFormat (pathObject : ParsedPath) : List Char :=
  formatPath '\\' pathObject

/-! ### Claim C7: spec-level description of `posResolve` -/

/-- Modelled from the spec (section 4.2 `resolve`): walk the argument list
from last to first (then fall back to the current working directory),
prepending each non-empty argument to an accumulator until an absolute path
is found or the arguments are exhausted.  The list passed is the reversed
argument list with `cwd` appended. -/
def posResolveWalk : List (List Char) → List Char → List Char × Bool
  | [], acc => (acc, false)
  | a :: rest, acc =>
    if a = [] then posResolveWalk rest acc
    else if posIsAbsolute a then (a ++ '/' :: acc, true)
    else posResolveWalk rest (a ++ '/' :: acc)

/-- Modelled from the spec (section 4.2 `resolve`): the walk's accumulated
tail is normalized with `allowAboveRoot = !foundAbsolute` (the spec's
normalizer, `normSpec`); the result is `/` plus the normalized tail if an
absolute path was found, else the tail, or `.` if the tail is empty. -/
def posResolveSpec (cwd : List Char) (args : List (List Char)) : List Char :=
  let w := posResolveWalk (args.reverse ++ [cwd]) []
  let tail := normSpec w.1 (!w.2) '/' isPosixPathSeparator
  if w.2 then '/' :: tail
  else if tail = [] then ['.']
  else tail

/-- the resolution begins with a UNC root whose third character is neither
`?` nor `.` (the shape taken to the `\\?\UNC\` branch of
`winToNamespacedPath`). -/
def uncRooted (r : List Char) : Prop :=
  2 < r.length ∧ codeAt r 0 = some CHAR_BACKWARD_SLASH ∧
    codeAt r 1 = some CHAR_BACKWARD_SLASH ∧
    codeAt r 2 ≠ some CHAR_QUESTION_MARK ∧ codeAt r 2 ≠ some CHAR_DOT

/-- the resolution begins with a drive root `X:\`. -/
def driveRooted (r : List Char) : Prop :=
  2 < r.length ∧ isWDRO (codeAt r 0) = true ∧ codeAt r 1 = some CHAR_COLON ∧
    codeAt r 2 = some CHAR_BACKWARD_SLASH

/-- stacks reachable by the segment fold: entries are non-empty, are not
`'.'`, contain no separator, the `'..'` entries sit at the bottom of the
stack, and there are none of them unless `allowAboveRoot`. -/
def GoodStack (allow : Bool) (isSep : Nat → Bool) (S : List (List Char)) : Prop :=
  (∀ s ∈ S, s ≠ [] ∧ s ≠ ['.'] ∧ SepFree isSep s ∧ (allow = false → s ≠ ['.', '.'])) ∧
    ∃ A B, S = A ++ B ∧ (∀ s ∈ A, s ≠ ['.', '.']) ∧ ∀ s ∈ B, s = ['.', '.']

/-- the possible values of the `tail` assembled by `winNormalize`. -/
def Tail2Form (isAbs : Bool) (T : List Char) : Prop :=
  (isAbs = true ∧ T = []) ∨ (isAbs = false ∧ (T = ['.'] ∨ T = ['.', '\\'])) ∨
    ∃ (S : List (List Char)) (tb : Bool), GoodStack (!isAbs) isPathSeparator S ∧ S ≠ [] ∧
      T = joinT '\\' S ++ (if tb then ['\\'] else [])

/-- the output shape that breaks win32 idempotence: a relative drive
reference `X:…`. -/
def driveRelLike (r : List Char) : Prop :=
  isWDRO (codeAt r 0) = true ∧ codeAt r 1 = some CHAR_COLON

/-- the input begins with a separator or a drive-letter-colon pair. -/
def WinRooted (p : List Char) : Prop :=
  isSepO isPathSeparator (codeAt p 0) = true ∨
    (isWDRO (codeAt p 0) = true ∧ codeAt p 1 = some CHAR_COLON)

/-- a path segment fit for `normalize`-invariance: non-empty, not a dot
segment, and free of the dialect's separators. -/
def GoodSeg (isSep : Nat → Bool) (s : List Char) : Prop :=
  s ≠ [] ∧ s ≠ ['.'] ∧ s ≠ ['.', '.'] ∧ SepFree isSep s

/-- Modelled from the spec: a POSIX path with no redundant separators and
no `.`/`..` segments — the root `/` alone, or an optional leading `/`
followed by good segments joined by single separators (no trailing
separator, which `posNormalize` preserves but `posParse`/`posFormat`
drop). -/
def CleanPos (p : List Char) : Prop :=
  p = ['/'] ∨ ∃ (abs : Bool) (segs : List (List Char)), segs ≠ [] ∧
    (∀ s ∈ segs, GoodSeg isPosixPathSeparator s) ∧
    p = (if abs then ['/'] else []) ++ List.intercalate ['/'] segs

/-- Modelled from the spec: a non-empty join of good segments by single
backslashes — the tail of a clean Windows path after its root. -/
def SegTail (T : List Char) : Prop :=
  ∃ segs, segs ≠ [] ∧ (∀ s ∈ segs, GoodSeg isPathSeparator s) ∧
    T = List.intercalate ['\\'] segs

/-- Modelled from the spec: a Windows path with no redundant separators and
no `.`/`..` segments, in one of the root forms the engine recognizes: plain
relative (not starting like a drive), `\`-rooted, drive-relative `X:seg...`,
drive-absolute `X:\`, or a full UNC root `\\host\share\` — each followed by
good segments joined by single backslashes (the `\`, `X:\` and UNC roots
may also stand alone). -/
def CleanWin (p : List Char) : Prop :=
  (SegTail p ∧ ¬ driveRelLike p) ∨
  (∃ T, (T = [] ∨ SegTail T) ∧ p = '\\' :: T) ∨
  (∃ X T, isWindowsDeviceRoot X.toNat = true ∧ SegTail T ∧ p = X :: ':' :: T) ∨
  (∃ X T, isWindowsDeviceRoot X.toNat = true ∧ (T = [] ∨ SegTail T) ∧
    p = X :: ':' :: '\\' :: T) ∨
  (∃ sv sh T, sv ≠ [] ∧ SepFree isPathSeparator sv ∧ sh ≠ [] ∧
    SepFree isPathSeparator sh ∧ (T = [] ∨ SegTail T) ∧
    p = '\\' :: '\\' :: (sv ++ '\\' :: (sh ++ '\\' :: T)))

/-- a JavaScript value as the path functions classify them: a string, or
any non-string value. -/
inductive JSVal where
  | str : List Char → JSVal
  | other : JSVal
  deriving DecidableEq

/-- Modelled from the spec: `validateString` (imported from
`./validators.js`, which is not among this repository's sources) raises
InvalidArgumentType — a TypeError — exactly when its argument is not a
string; `Except.error` models the thrown error. -/
def validateString : JSVal → Except Unit (List Char)
  | JSVal.str s => Except.ok s
  | JSVal.other => Except.error ()

/-- the argument loop of `posResolve` at the JavaScript value level
(src/path.js lines 1039-1050): arguments are visited from last to first
while the result is not yet absolute, and `validateString` runs on each
visited argument before it is inspected. -/
def posResolveGoJS : List JSVal → List Char → Except Unit (List Char × Bool)
  | [], acc => Except.ok (acc, false)
  | v :: rest, acc =>
    match validateString v with
    | Except.error e => Except.error e
    | Except.ok path =>
      if path.length = 0 then posResolveGoJS rest acc
      else
        let acc' := path ++ '/' :: acc
        if codeAt path 0 == some CHAR_FORWARD_SLASH then Except.ok (acc', true)
        else posResolveGoJS rest acc'

/-- `posResolve` on JavaScript values (src/path.js lines 1035-1062); the
`i = -1` iteration takes `posixCwd()`, which is always a string. -/
def posResolveJS (cwd : List Char) (args : List JSVal) : Except Unit (List Char) :=
  match posResolveGoJS (args.reverse ++ [JSVal.str cwd]) [] with
  | Except.error e => Except.error e
  | Except.ok r =>
    let resolvedPath := normalizeString r.1 (!r.2) '/' isPosixPathSeparator
    Except.ok (if r.2 then '/' :: resolvedPath
      else if resolvedPath.length > 0 then resolvedPath else ['.'])

/-- `winToNamespacedPath` on JavaScript values (src/path.js lines 588-615):
`if (typeof path !== 'string' || path.length === 0) return path;` returns
a non-string argument unchanged rather than raising. -/
def winToNamespacedPathJS (cwd : List Char) (env : List Char → Option (List Char)) :
    JSVal → JSVal
  | JSVal.other => JSVal.other
  | JSVal.str p => JSVal.str (winToNamespacedPath cwd env p)

theorem sanity_ex1 :
    normalizeString "/foo/bar//baz/asdf/quux/..".data false '/' isPosixPathSeparator =
      "foo/bar/baz/asdf".data := by decide

theorem sanity_ex2 :
    normSpec "/foo/bar//baz/asdf/quux/..".data false '/' isPosixPathSeparator =
      "foo/bar/baz/asdf".data := by decide

theorem sanity_ex3 :
    normalizeString "a/b/../../../x/./y".data true '/' isPosixPathSeparator =
      "../x/y".data := by decide

theorem sanity_ex4 :
    normSpec "a/b/../../../x/./y".data true '/' isPosixPathSeparator =
      "../x/y".data := by decide

theorem sanity_ex5 :
    normalizeString "a\\..\\C:".data true '\\' isPathSeparator = "C:".data := by decide

theorem sanity_ex6 :
    normalizeString "..\\..\\..".data false '\\' isPathSeparator = "".data := by decide

theorem sanity_ex7 :
    normSpec "..\\..\\..".data false '\\' isPathSeparator = "".data := by decide

theorem sanity_ex8 :
    normalizeString "a/!!!/../ok".data true '/' isPosixPathSeparator = "a/ok".data := by
  decide

theorem joinT_cons₂ (sep : Char) (t s : List Char) (rest : List (List Char)) :
    joinT sep (t :: s :: rest) = joinT sep (s :: rest) ++ sep :: t := rfl

theorem joinT_cons_of_ne (sep : Char) (t : List Char) {S : List (List Char)}
    (h : S ≠ []) : joinT sep (t :: S) = joinT sep S ++ sep :: t := by
  cases S with
  | nil => exact absurd rfl h
  | cons s rest => rfl

theorem joinT_ne_nil (sep : Char) (t : List Char) (S : List (List Char))
    (ht : t ≠ []) : joinT sep (t :: S) ≠ [] := by
  cases S with
  | nil => simpa [joinT] using ht
  | cons s rest =>
    rw [joinT_cons₂]
    simp

theorem joinT_ends (sep : Char) (t : List Char) (S : List (List Char)) :
    ∃ B, joinT sep (t :: S) = B ++ t := by
  cases S with
  | nil => exact ⟨[], rfl⟩
  | cons s rest => exact ⟨joinT sep (s :: rest) ++ [sep], by simp [joinT_cons₂]⟩

theorem sepFree_ne_sep {isSep : Nat → Bool} {s : List Char} (hs : SepFree isSep s)
    {sep : Char} (hsep : isSep sep.toNat = true) : ∀ c ∈ s, c ≠ sep := by
  intro c hc h
  subst h
  exact absurd hsep (by simp [hs c hc])

theorem lastIndexOf_of_not_mem {l : List Char} {sep : Char}
    (h : ∀ c ∈ l, c ≠ sep) : lastIndexOf l sep = -1 := by
  induction l with
  | nil => rfl
  | cons a t ih =>
    have ha : a ≠ sep := h a (by simp)
    have ht : lastIndexOf t sep = -1 := ih (fun c hc => h c (by simp [hc]))
    simp [lastIndexOf, ht, ha]

theorem lastIndexOf_append_sep {t : List Char} {sep : Char}
    (ht : ∀ c ∈ t, c ≠ sep) (A : List Char) :
    lastIndexOf (A ++ sep :: t) sep = (A.length : Int) := by
  induction A with
  | nil =>
    have h := lastIndexOf_of_not_mem ht
    simp [lastIndexOf, h]
  | cons a A' ih =>
    have h2 : ((A'.length : Int) == -1) = false := by
      simp only [beq_eq_false_iff_ne, ne_eq]
      omega
    simp only [List.cons_append, lastIndexOf, List.append_eq, ih, h2, List.length_cons,
      if_false, Bool.false_eq_true]
    push_cast
    ring

theorem char_toNat_inj {c d : Char} (h : c.toNat = d.toNat) : c = d := by
  have := congrArg Char.ofNat h
  rwa [Char.ofNat_toNat, Char.ofNat_toNat] at this

theorem codeAt_two_left (B : List Char) (c1 c2 : Char) :
    codeAt (B ++ [c1, c2]) B.length = some c1.toNat := by
  unfold codeAt
  rw [List.getElem?_append_right (Nat.le_refl _)]
  simp

theorem codeAt_two_right (B : List Char) (c1 c2 : Char) :
    codeAt (B ++ [c1, c2]) (B.length + 1) = some c2.toNat := by
  unfold codeAt
  rw [List.getElem?_append_right (Nat.le_succ_of_le (Nat.le_refl _))]
  simp

theorem sepResUpdate_eq (sep : Char) (allow : Bool) (isSep : Nat → Bool)
    (stack : List (List Char)) (pending : List Char)
    (hok : OkStack isSep stack) (hpend : SepFree isSep pending)
    (hsep : isSep sep.toNat = true) :
    sepResUpdate sep allow (joinT sep stack) (headLen stack)
        pending.isEmpty (dotsOf pending) pending
      = (joinT sep (pushSeg allow stack pending),
         headLen (pushSeg allow stack pending)) := by
  by_cases h0 : pending = []
  · subst h0
    simp [sepResUpdate, pushSeg]
  by_cases h1 : pending = ['.']
  · subst h1
    simp [sepResUpdate, pushSeg, dotsOf]
  by_cases h2 : pending = ['.', '.']
  · subst h2
    have hdots : dotsOf ['.', '.'] = 2 := by decide
    cases stack with
    | nil =>
      cases allow <;> simp [sepResUpdate, pushSeg, hdots, joinT, headLen]
    | cons t S =>
      have htne : t ≠ [] := (hok t (by simp)).1
      have htfree : SepFree isSep t := (hok t (by simp)).2
      by_cases hdd : t = ['.', '.']
      · subst hdd
        obtain ⟨B, hB⟩ := joinT_ends sep ['.', '.'] S
        have hc1 : codeAt (B ++ ['.', '.']) B.length = some 46 := codeAt_two_left B '.' '.'
        have hc2 : codeAt (B ++ ['.', '.']) (B.length + 1) = some 46 := codeAt_two_right B '.' '.'
        cases allow with
        | false =>
          simp only [sepResUpdate, pushSeg, hdots, hB, headLen]
          norm_num [hc1, hc2, CHAR_DOT]
          rw [if_neg (by omega : ¬ ((B.length : Int) < 0)), hB]
        | true =>
          have hres : joinT sep (['.', '.'] :: ['.', '.'] :: S) =
              joinT sep (['.', '.'] :: S) ++ sep :: ['.', '.'] := joinT_cons₂ sep _ _ S
          simp only [sepResUpdate, pushSeg, hdots, hres, hB, headLen]
          norm_num [hc1, hc2, CHAR_DOT]
          rw [if_neg (by omega : ¬ ((B.length : Int) < 0))]
          simp [hres, hB]
      · have hpush : pushSeg allow (t :: S) ['.', '.'] = S := by simp [pushSeg, hdd]
        rw [hpush]
        have hG : (((joinT sep (t :: S)).length < 2 ∨ ¬(t.length : Int) = 2) ∨
              ¬codeAt (joinT sep (t :: S)) ((joinT sep (t :: S)).length - 1) = some CHAR_DOT) ∨
            ¬codeAt (joinT sep (t :: S)) ((joinT sep (t :: S)).length - 2) = some CHAR_DOT := by
          by_cases hlt : t.length = 2
          · obtain ⟨c1, c2, hc⟩ := List.length_eq_two.mp hlt
            subst hc
            have hne2 : c1 ≠ '.' ∨ c2 ≠ '.' := by
              by_contra hcon
              push_neg at hcon
              exact hdd (by rw [hcon.1, hcon.2])
            obtain ⟨B, hB⟩ := joinT_ends sep [c1, c2] S
            rw [hB]
            rcases hne2 with h | h
            · right
              rw [show (B ++ [c1, c2]).length - 2 = B.length by simp, codeAt_two_left]
              intro hc
              exact h (char_toNat_inj (by simpa [CHAR_DOT] using hc))
            · left
              right
              rw [show (B ++ [c1, c2]).length - 1 = B.length + 1 by simp, codeAt_two_right]
              intro hc
              exact h (char_toNat_inj (by simpa [CHAR_DOT] using hc))
          · left
            left
            right
            exact_mod_cast hlt
        simp only [sepResUpdate, hdots, headLen]
        norm_num
        rw [if_pos hG]
        cases S with
        | nil =>
          by_cases hbig : 2 < (joinT sep [t]).length
          · rw [if_pos hbig]
            have hli : lastIndexOf (joinT sep [t]) sep = -1 :=
              lastIndexOf_of_not_mem (sepFree_ne_sep htfree hsep)
            rw [if_pos hli]
            simp [joinT]
          · rw [if_neg hbig]
            rw [if_neg (show ¬ joinT sep [t] = [] by simpa [joinT] using htne)]
            simp [joinT]
        | cons s S' =>
          have hsne : s ≠ [] := (hok s (by simp)).1
          have hsfree : SepFree isSep s := (hok s (by simp)).2
          have hAne : joinT sep (s :: S') ≠ [] := joinT_ne_nil sep s S' hsne
          have hApos : 0 < (joinT sep (s :: S')).length := List.length_pos.mpr hAne
          have htpos : 0 < t.length := List.length_pos.mpr htne
          have hres : joinT sep (t :: s :: S') = joinT sep (s :: S') ++ sep :: t :=
            joinT_cons₂ sep t s S'
          have hlen : (joinT sep (t :: s :: S')).length =
              (joinT sep (s :: S')).length + 1 + t.length := by
            rw [hres]
            simp
            omega
          have hbig : 2 < (joinT sep (t :: s :: S')).length := by omega
          rw [if_pos hbig]
          have hli : lastIndexOf (joinT sep (t :: s :: S')) sep =
              ((joinT sep (s :: S')).length : Int) := by
            rw [hres]
            exact lastIndexOf_append_sep (sepFree_ne_sep htfree hsep) _
          rw [if_neg (show ¬ lastIndexOf (joinT sep (t :: s :: S')) sep = -1 by
            rw [hli]; omega)]
          have htake : (joinT sep (t :: s :: S')).take
              (lastIndexOf (joinT sep (t :: s :: S')) sep).toNat = joinT sep (s :: S') := by
            rw [hli, hres]
            simpa using List.take_left (joinT sep (s :: S')) (sep :: t)
          rw [htake]
          have hlsl2 : lastIndexOf (joinT sep (s :: S')) sep =
              ((joinT sep (s :: S')).length : Int) - 1 - (s.length : Int) := by
            cases S' with
            | nil =>
              rw [show joinT sep [s] = s from rfl,
                lastIndexOf_of_not_mem (sepFree_ne_sep hsfree hsep)]
              omega
            | cons u S'' =>
              have hres2 : joinT sep (s :: u :: S'') = joinT sep (u :: S'') ++ sep :: s :=
                joinT_cons₂ sep s u S''
              rw [hres2, lastIndexOf_append_sep (sepFree_ne_sep hsfree hsep)]
              simp
              push_cast
              ring
          rw [hli, hlsl2]
          rw [Prod.mk.injEq]
          refine ⟨rfl, ?_⟩
          simp only [headLen]
          omega
  · have hd1 : (dotsOf pending == 1) = false := by
      unfold dotsOf
      by_cases ha : pending.all (· == '.')
      · rw [if_pos ha]
        simp only [beq_eq_false_iff_ne, ne_eq]
        intro hc
        have hl1 : pending.length = 1 := by exact_mod_cast hc
        obtain ⟨a, haa⟩ := List.length_eq_one.mp hl1
        subst haa
        simp at ha
        exact h1 (by rw [ha])
      · rw [if_neg ha]
        decide
    have hd2 : (dotsOf pending == 2) = false := by
      unfold dotsOf
      by_cases ha : pending.all (· == '.')
      · rw [if_pos ha]
        simp only [beq_eq_false_iff_ne, ne_eq]
        intro hc
        have hl2 : pending.length = 2 := by exact_mod_cast hc
        obtain ⟨a, b, haa⟩ := List.length_eq_two.mp hl2
        subst haa
        simp at ha
        exact h2 (by rw [ha.1, ha.2])
      · rw [if_neg ha]
        decide
    have hie : pending.isEmpty = false := by
      cases pending with
      | nil => exact absurd rfl h0
      | cons a l => rfl
    cases stack with
    | nil =>
      simp [sepResUpdate, pushSeg, hie, hd1, hd2, h0, h1, h2, joinT, headLen]
    | cons t S =>
      have htne : t ≠ [] := (hok t (by simp)).1
      have hresne : joinT sep (t :: S) ≠ [] := joinT_ne_nil sep t S htne
      have hpos : 0 < (joinT sep (t :: S)).length := List.length_pos.mpr hresne
      have hjoin : joinT sep (pending :: t :: S) = joinT sep (t :: S) ++ sep :: pending :=
        joinT_cons₂ sep pending t S
      simp [sepResUpdate, pushSeg, hie, hd1, hd2, h0, h1, h2, hpos, hjoin, headLen]

theorem mem_pushSeg {allow : Bool} {stack : List (List Char)} {pending s : List Char}
    (hs : s ∈ pushSeg allow stack pending) :
    (s = pending ∧ pending ≠ []) ∨ s ∈ stack := by
  unfold pushSeg at hs
  split at hs
  · exact Or.inr hs
  · rename_i h0
    have hpe : pending ≠ [] := fun h => h0 (Or.inl h)
    split at hs
    · split at hs
      · split at hs
        · split at hs
          · rcases List.mem_cons.mp hs with rfl | hs
            · exact Or.inl ⟨rfl, hpe⟩
            · exact Or.inr hs
          · exact Or.inr hs
        · exact Or.inr (List.mem_cons_of_mem _ hs)
      · split at hs
        · rcases List.mem_singleton.mp hs with rfl
          exact Or.inl ⟨rfl, hpe⟩
        · simp at hs
    · rcases List.mem_cons.mp hs with rfl | hs
      · exact Or.inl ⟨rfl, hpe⟩
      · exact Or.inr hs

theorem pushSeg_ok {isSep : Nat → Bool} {stack : List (List Char)} {pending : List Char}
    (hok : OkStack isSep stack) (hpend : SepFree isSep pending) (allow : Bool) :
    OkStack isSep (pushSeg allow stack pending) := by
  intro s hs
  rcases mem_pushSeg hs with ⟨rfl, hne⟩ | hs
  · exact ⟨hne, hpend⟩
  · exact hok s hs

theorem char_eq_dot_iff (c : Char) : (c.toNat == CHAR_DOT) = (c == '.') := by
  by_cases h : c = '.'
  · subst h
    decide
  · have h1 : (c == '.') = false := beq_eq_false_iff_ne.mpr h
    have h2 : (c.toNat == CHAR_DOT) = false := by
      refine beq_eq_false_iff_ne.mpr ?_
      intro hc
      exact h (char_toNat_inj (hc.trans (by decide)))
    rw [h1, h2]

theorem dotsOf_nil : dotsOf [] = 0 := by decide

theorem dotsOf_snoc (pending : List Char) (c : Char) :
    dotsOf (pending ++ [c]) =
      if (c.toNat == CHAR_DOT && dotsOf pending != -1) = true then dotsOf pending + 1
      else -1 := by
  rw [char_eq_dot_iff]
  unfold dotsOf
  by_cases hall : pending.all (· == '.')
  · by_cases hc : c = '.'
    · subst hc
      have hall2 : (pending ++ ['.']).all (· == '.') = true := by
        simp only [List.all_append, hall]
        decide
      rw [if_pos hall, if_pos hall2]
      have hne : ((pending.length : Int) != -1) = true := by
        simp only [bne_iff_ne, ne_eq]
        omega
      simp [hne]
    · have hall2 : (pending ++ [c]).all (· == '.') = false := by
        simp [List.all_append]
        intro _
        simpa using hc
      rw [if_pos hall, hall2]
      have hcf : (c == '.') = false := beq_eq_false_iff_ne.mpr hc
      simp [hcf]
  · have hf : pending.all (· == '.') = false := by simpa using hall
    have hall2 : (pending ++ [c]).all (· == '.') = false := by
      simp [List.all_append, hf]
    rw [hall2, hf]
    simp

theorem atBoundary_bridge (a : Nat) (pending : List Char) :
    (((a : Int) - 1) == ((a + pending.length : Nat) : Int) - 1) = pending.isEmpty := by
  cases pending with
  | nil => simp
  | cons x l =>
    simp only [List.isEmpty_cons, List.length_cons]
    simp only [beq_eq_false_iff_ne, ne_eq]
    push_cast
    omega

theorem normLoop_succ (p : List Char) (allow : Bool) (sep : Char) (isSep : Nat → Bool)
    (n : Nat) (res : List Char) (lsl ls d : Int) (code : Nat) :
    normLoop p allow sep isSep (n + 1) res lsl ls d code =
      match (match p[p.length - n]? with
        | some c => some c.toNat
        | none => if isSep code then none else some CHAR_FORWARD_SLASH) with
      | none => res
      | some code' =>
        if isSep code' then
          let ru := sepResUpdate sep allow res lsl
            (ls == ((p.length - n : Nat) : Int) - 1) d
            (sliceNat p (ls + 1).toNat (p.length - n))
          normLoop p allow sep isSep n ru.1 ru.2 ((p.length - n : Nat) : Int) 0 code'
        else if code' == CHAR_DOT && d != -1 then
          normLoop p allow sep isSep n res lsl ls (d + 1) code'
        else
          normLoop p allow sep isSep n res lsl ls (-1) code' := rfl

theorem slice_pending (pre pending rest : List Char) :
    sliceNat (pre ++ pending ++ rest) pre.length (pre.length + pending.length) = pending := by
  unfold sliceNat
  rw [List.append_assoc, List.drop_left]
  have h : pre.length + pending.length - pre.length = pending.length := by omega
  rw [h, List.take_left]

theorem getElem_mid (pre pending rest : List Char) (c : Char) :
    (pre ++ pending ++ (c :: rest))[pre.length + pending.length]? = some c := by
  rw [List.getElem?_append_right (by simp)]
  simp

theorem normLoop_zero (p : List Char) (allow : Bool) (sep : Char) (isSep : Nat → Bool)
    (res : List Char) (lsl ls d : Int) (code : Nat) :
    normLoop p allow sep isSep 0 res lsl ls d code = res := rfl

theorem specRun_cons (allow : Bool) (isSep : Nat → Bool) (stack : List (List Char))
    (pending : List Char) (c : Char) (cs : List Char) :
    specRun allow isSep stack pending (c :: cs) =
      if isSep c.toNat then
        specRun allow isSep (pushSeg allow stack pending) [] cs
      else specRun allow isSep stack (pending ++ [c]) cs := rfl

theorem specRun_nil (allow : Bool) (isSep : Nat → Bool) (stack : List (List Char))
    (pending : List Char) :
    specRun allow isSep stack pending [] = pushSeg allow stack pending := rfl

theorem normLoop_inv (sep : Char) (isSep : Nat → Bool) (allow : Bool)
    (h47 : isSep CHAR_FORWARD_SLASH = true) (hsep : isSep sep.toNat = true) :
    ∀ (rest pre pending : List Char) (stack : List (List Char)) (code : Nat),
      OkStack isSep stack → SepFree isSep pending →
      (isSep code = true → pending = []) →
      normLoop (pre ++ pending ++ rest) allow sep isSep (rest.length + 1)
          (joinT sep stack) (headLen stack) ((pre.length : Int) - 1) (dotsOf pending) code
        = joinT sep (specRun allow isSep stack pending rest) := by
  intro rest
  induction rest with
  | nil =>
    intro pre pending stack code hok hpend hcode
    rw [specRun_nil]
    rw [show ([] : List Char).length + 1 = 0 + 1 from rfl, normLoop_succ]
    have hip : (pre ++ pending ++ ([] : List Char)).length - 0 = pre.length + pending.length := by
      simp
    rw [hip]
    have hg : (pre ++ pending ++ ([] : List Char))[pre.length + pending.length]? = none := by
      simp
    rw [hg]
    by_cases hc : isSep code = true
    · have hpe : pending = [] := hcode hc
      subst hpe
      simp only [hc, if_true]
      simp [pushSeg]
    · have hcf : isSep code = false := by simpa using hc
      simp only [hcf, Bool.false_eq_true, if_false, h47, if_true]
      rw [atBoundary_bridge pre.length pending]
      have hsl : (((pre.length : Int) - 1) + 1).toNat = pre.length := by omega
      rw [hsl]
      have hslice : sliceNat (pre ++ pending ++ ([] : List Char)) pre.length
          (pre.length + pending.length) = pending := slice_pending pre pending []
      rw [hslice]
      have hb : (pending.isEmpty || dotsOf pending == 1) = (pending.isEmpty || dotsOf pending == 1) := rfl
      rw [sepResUpdate_eq sep allow isSep stack pending hok hpend hsep]
      rw [normLoop_zero]
  | cons c cs ih =>
    intro pre pending stack code hok hpend hcode
    rw [specRun_cons]
    rw [show (c :: cs).length + 1 = (cs.length + 1) + 1 by simp]
    rw [normLoop_succ]
    have hip : (pre ++ pending ++ (c :: cs)).length - (cs.length + 1) =
        pre.length + pending.length := by
      simp
      omega
    rw [hip]
    rw [getElem_mid]
    by_cases hs : isSep c.toNat = true
    · simp only [hs, if_true]
      rw [atBoundary_bridge pre.length pending]
      have hsl : (((pre.length : Int) - 1) + 1).toNat = pre.length := by omega
      rw [hsl, slice_pending]
      rw [sepResUpdate_eq sep allow isSep stack pending hok hpend hsep]
      have hpp : pre ++ pending ++ (c :: cs) = (pre ++ pending ++ [c]) ++ ([] : List Char) ++ cs := by
        simp
      have hls : ((pre.length + pending.length : Nat) : Int) =
          (((pre ++ pending ++ [c]).length : Nat) : Int) - 1 := by
        simp
        push_cast
        ring
      rw [show (0 : Int) = dotsOf [] from rfl]
      rw [hls]
      conv_lhs => rw [hpp]
      exact ih (pre ++ pending ++ [c]) [] (pushSeg allow stack pending) c.toNat
        (pushSeg_ok hok hpend allow) (by intro x hx; simp at hx) (fun _ => rfl)
    · have hsf : isSep c.toNat = false := by simpa using hs
      simp only [hsf, Bool.false_eq_true, if_false]
      have hcode' : isSep c.toNat = true → pending ++ [c] = [] := by
        intro h
        rw [h] at hsf
        exact absurd hsf (by simp)
      have hpend' : SepFree isSep (pending ++ [c]) := by
        intro x hx
        rcases List.mem_append.mp hx with hx | hx
        · exact hpend x hx
        · rcases List.mem_singleton.mp hx with rfl
          exact hsf
      have hpp : pre ++ pending ++ (c :: cs) = pre ++ (pending ++ [c]) ++ cs := by
        simp
      by_cases hd : (c.toNat == CHAR_DOT && dotsOf pending != -1) = true
      · rw [if_pos hd]
        have hdots : dotsOf pending + 1 = dotsOf (pending ++ [c]) := by
          rw [dotsOf_snoc, if_pos hd]
        rw [hdots]
        conv_lhs => rw [hpp]
        exact ih pre (pending ++ [c]) stack c.toNat hok hpend' hcode'
      · rw [if_neg hd]
        have hdots : (-1 : Int) = dotsOf (pending ++ [c]) := by
          rw [dotsOf_snoc, if_neg hd]
        rw [hdots]
        conv_lhs => rw [hpp]
        exact ih pre (pending ++ [c]) stack c.toNat hok hpend' hcode'

theorem splitSegs_ne_nil (isSep : Nat → Bool) (l : List Char) : splitSegs isSep l ≠ [] := by
  cases l with
  | nil => simp [splitSegs]
  | cons c cs =>
    unfold splitSegs
    split
    · simp
    · split <;> simp

theorem splitSegs_cons_of (isSep : Nat → Bool) (c : Char) {cs s' : List Char}
    {ss' : List (List Char)} (h : splitSegs isSep cs = s' :: ss') :
    splitSegs isSep (c :: cs) =
      if isSep c.toNat then [] :: s' :: ss' else (c :: s') :: ss' := by
  unfold splitSegs
  rw [h]

theorem specRun_eq_foldl (allow : Bool) (isSep : Nat → Bool) :
    ∀ (l : List Char) (stack : List (List Char)) (pending s : List Char)
      (ss : List (List Char)), splitSegs isSep l = s :: ss →
      specRun allow isSep stack pending l =
        List.foldl (pushSeg allow) stack ((pending ++ s) :: ss) := by
  intro l
  induction l with
  | nil =>
    intro stack pending s ss hsplit
    injection hsplit with h1 h2
    subst h1
    subst h2
    simp [specRun]
  | cons c cs ih =>
    intro stack pending s ss hsplit
    obtain ⟨s', ss', hcs⟩ : ∃ s' ss', splitSegs isSep cs = s' :: ss' := by
      cases hcase : splitSegs isSep cs with
      | nil => exact absurd hcase (splitSegs_ne_nil isSep cs)
      | cons a b => exact ⟨a, b, rfl⟩
    rw [splitSegs_cons_of isSep c hcs] at hsplit
    have hrun : specRun allow isSep stack pending (c :: cs) =
        (if isSep c.toNat then specRun allow isSep (pushSeg allow stack pending) [] cs
         else specRun allow isSep stack (pending ++ [c]) cs) := rfl
    by_cases hc : isSep c.toNat = true
    · rw [if_pos hc] at hsplit
      injection hsplit with h1 h2
      subst h1
      subst h2
      rw [hrun, if_pos hc, ih (pushSeg allow stack pending) [] s' ss' hcs]
      simp
    · have hcf : isSep c.toNat = false := by simpa using hc
      rw [hcf] at hsplit
      simp only [Bool.false_eq_true, if_false] at hsplit
      injection hsplit with h1 h2
      subst h1
      subst h2
      rw [hrun, hcf]
      simp only [Bool.false_eq_true, if_false]
      rw [ih stack (pending ++ [c]) s' ss' hcs]
      simp

theorem intercalate_snoc (sep : Char) :
    ∀ (A' : List (List Char)) (a' b : List Char),
      List.intercalate [sep] ((a' :: A') ++ [b]) =
        List.intercalate [sep] (a' :: A') ++ [sep] ++ b := by
  intro A'
  induction A' with
  | nil =>
    intro a' b
    simp [List.intercalate, List.intersperse]
  | cons x xs ihx =>
    intro a' b
    rw [show ((a' :: x :: xs) ++ [b]) = a' :: ((x :: xs) ++ [b]) from rfl]
    rw [show (x :: xs) ++ [b] = x :: (xs ++ [b]) from rfl]
    rw [show List.intercalate [sep] (a' :: x :: (xs ++ [b])) =
      a' ++ [sep] ++ List.intercalate [sep] (x :: (xs ++ [b])) by
        simp [List.intercalate, List.intersperse]]
    rw [show (x :: (xs ++ [b])) = (x :: xs) ++ [b] from rfl]
    rw [ihx x b]
    rw [show List.intercalate [sep] (a' :: x :: xs) =
      a' ++ [sep] ++ List.intercalate [sep] (x :: xs) by
        simp [List.intercalate, List.intersperse]]
    simp

theorem joinT_eq_intercalate (sep : Char) :
    ∀ S : List (List Char), List.intercalate [sep] S.reverse = joinT sep S := by
  intro S
  induction S with
  | nil => simp [joinT, List.intercalate]
  | cons t S' ih =>
    by_cases hne : S' = []
    · subst hne
      simp [joinT, List.intercalate]
    · obtain ⟨a, A, hA⟩ : ∃ a A, S'.reverse = a :: A := by
        cases hcase : S'.reverse with
        | nil =>
          exact absurd (by simpa using congrArg List.reverse hcase) hne
        | cons a A => exact ⟨a, A, rfl⟩
      rw [List.reverse_cons, hA, intercalate_snoc, ← hA, ih,
        joinT_cons_of_ne sep t hne]
      simp

theorem normalizeString_eq_normSpec (p : List Char) (allow : Bool) (sep : Char)
    (isSep : Nat → Bool) (h47 : isSep CHAR_FORWARD_SLASH = true)
    (hsep : isSep sep.toNat = true) :
    normalizeString p allow sep isSep = normSpec p allow sep isSep := by
  obtain ⟨s, ss, hsplit⟩ : ∃ s ss, splitSegs isSep p = s :: ss := by
    cases hcase : splitSegs isSep p with
    | nil => exact absurd hcase (splitSegs_ne_nil isSep p)
    | cons a b => exact ⟨a, b, rfl⟩
  have hinv := normLoop_inv sep isSep allow h47 hsep p [] [] [] 0
    (by intro x hx; simp at hx) (by intro x hx; simp at hx) (fun _ => rfl)
  simp only [List.append_nil, List.nil_append] at hinv
  have hlhs : normalizeString p allow sep isSep =
      joinT sep (specRun allow isSep [] [] p) := by
    unfold normalizeString
    rw [← hinv]
    norm_num [joinT, headLen, dotsOf]
  rw [hlhs, specRun_eq_foldl allow isSep p [] [] s ss hsplit]
  unfold normSpec
  rw [hsplit, joinT_eq_intercalate]
  simp

/-- Claim C1 (counterexample): as frozen, the claim quantifies over every
separator string and every separator-classifier predicate.  It fails for a
classifier that does not accept the forward slash (the loop's implicit
trailing separator is `/`; the final segment is then never flushed), and for
a separator character the classifier does not classify as a separator (the
`..`-pop then cuts inside a segment). -/
theorem c1_counterexample :
    normalizeString "a".data false '\\' (fun c => c == 92) ≠
        normSpec "a".data false '\\' (fun c => c == 92) ∧
      normalizeString "x/a#b/..".data true '#' isPosixPathSeparator ≠
        normSpec "x/a#b/..".data true '#' isPosixPathSeparator := by
  constructor
  · decide
  · decide

/-- Claim C1 (amended): for every path-tail string, boolean `allowAboveRoot`,
separator character and separator-classifier predicate such that the
classifier accepts the forward slash and the separator itself,
`normalizeString` returns the tail with redundant separators collapsed and
`.` segments removed, where each `..` segment removes the preceding real
segment when one exists in the accumulated result, and a `..` with no
preceding real segment is kept literally if `allowAboveRoot` is true and
dropped otherwise (the right-hand side `normSpec` formalises exactly that
description). -/
theorem c1_normalizeString_matches_spec (p : List Char) (allow : Bool) (sep : Char)
    (isSep : Nat → Bool) (h47 : isSep CHAR_FORWARD_SLASH = true)
    (hsep : isSep sep.toNat = true) :
    normalizeString p allow sep isSep = normSpec p allow sep isSep :=
  normalizeString_eq_normSpec p allow sep isSep h47 hsep

/-- witness for `c1_normalizeString_matches_spec` at a concrete input. -/
theorem c1_witness :
    isPosixPathSeparator CHAR_FORWARD_SLASH = true ∧
      isPosixPathSeparator '/'.toNat = true ∧
      normalizeString "a/b/../../../x/./y".data true '/' isPosixPathSeparator =
        normSpec "a/b/../../../x/./y".data true '/' isPosixPathSeparator :=
  ⟨by decide, by decide,
    c1_normalizeString_matches_spec "a/b/../../../x/./y".data true '/'
      isPosixPathSeparator (by decide) (by decide)⟩

/-- Claim C10: for every non-empty string `p`, in both dialects,
`basename(p, suffix)` returns the empty string when `suffix === p` — the
whole input, directory portion and separators included, is treated as the
suffix rather than falling back to the last path segment. -/
theorem c10_basename_whole_suffix (p : List Char) (h : p ≠ []) :
    posBasename p (some p) = [] ∧ winBasename p (some p) = [] := by
  have hl : (p.length > 0 && p.length ≤ p.length) = true := by
    simp [List.length_pos.mpr h]
  constructor
  · simp [posBasename, basenameBody, hl, h]
  · simp [winBasename, basenameBody, hl, h]

/-- witness for `c10_basename_whole_suffix`. -/
theorem c10_witness :
    ("C:\\foo\\bar.html".data ≠ []) ∧
      posBasename "C:\\foo\\bar.html".data (some "C:\\foo\\bar.html".data) = [] ∧
      winBasename "C:\\foo\\bar.html".data (some "C:\\foo\\bar.html".data) = [] :=
  ⟨by decide,
    (c10_basename_whole_suffix "C:\\foo\\bar.html".data (by decide)).1,
    (c10_basename_whole_suffix "C:\\foo\\bar.html".data (by decide)).2⟩

theorem posResolveGo_eq_walk : ∀ (l : List (List Char)) (acc : List Char),
    posResolveGo l acc = posResolveWalk l acc := by
  intro l
  induction l with
  | nil => intro acc; rfl
  | cons a rest ih =>
    intro acc
    unfold posResolveGo posResolveWalk
    by_cases ha : a = []
    · subst ha
      simp [ih]
    · have hlen : (a.length = 0) = False := by
        simp [ha]
      have hpos : 0 < a.length := List.length_pos.mpr ha
      simp only [hlen, if_false]
      by_cases habs : codeAt a 0 == some CHAR_FORWARD_SLASH
      · have habs' : posIsAbsolute a = true := by
          unfold posIsAbsolute
          simp [hpos, habs]
        rw [if_neg ha]
        simp [habs, habs']
      · have habs' : posIsAbsolute a = false := by
          unfold posIsAbsolute
          simp only [Bool.and_eq_false_iff]
          right
          simpa using habs
        rw [if_neg ha]
        simp [habs, habs', ih]

/-- Claim C7: POSIX `resolve` walks its arguments from last to first
(falling back to the current working directory), prepending each non-empty
argument until an absolute path is found or arguments are exhausted, then
normalizes the accumulated tail with `allowAboveRoot` the negation of having
found an absolute path, returning `/` plus the tail if absolute, else the
tail or `.` if empty (`posResolveSpec` is that description verbatim); and
`posResolve('/a', 'b') = '/a/b'` for every current working directory. -/
theorem c7_posResolve_spec :
    (∀ (cwd : List Char) (args : List (List Char)),
        posResolve cwd args = posResolveSpec cwd args) ∧
      ∀ cwd : List Char, posResolve cwd ["/a".data, "b".data] = "/a/b".data := by
  constructor
  · intro cwd args
    have hns : ∀ (l : List Char) (b : Bool),
        normalizeString l b '/' isPosixPathSeparator = normSpec l b '/' isPosixPathSeparator :=
      fun l b => normalizeString_eq_normSpec l b '/' isPosixPathSeparator (by decide) (by decide)
    unfold posResolve posResolveSpec
    rw [posResolveGo_eq_walk]
    rcases hw : posResolveWalk (args.reverse ++ [cwd]) [] with ⟨acc, found⟩
    cases found with
    | true => simp [hns]
    | false =>
      by_cases hX : normSpec acc true '/' isPosixPathSeparator = []
      · simp [hns, hX]
      · simp [hns, hX, List.length_pos.mpr hX]
  · intro cwd
    rfl

theorem winResolveArgs_cons (st : WinResolveSt) (path : List Char)
    (rest : List (List Char)) :
    winResolveArgs st (path :: rest) =
      if path.length == 0 then winResolveArgs st rest
      else
        let r := winResolveStep st path
        if r.2 then (r.1, true) else winResolveArgs r.1 rest := rfl

/-- Claim C5: in the Windows `resolve` walk (arguments last to first), an
argument whose drive/UNC device differs (case-insensitively) from the
already-resolved device is skipped (the walk continues unchanged on the
remaining arguments); once the state holds an absolute path together with a
device, the remaining arguments never change it; and
`winResolve('C:\\a', 'D:\\b')` is `'D:\\b'` — a path on device `D:` — for
every cwd and environment. -/
theorem c5_winResolve_devices :
    (∀ (st : WinResolveSt) (path : List Char) (rest : List (List Char)),
        (winResolveRoot path).2.1 ≠ [] → st.resolvedDevice ≠ [] →
        lowerL (winResolveRoot path).2.1 ≠ lowerL st.resolvedDevice →
        winResolveArgs st (path :: rest) = winResolveArgs st rest) ∧
      (∀ (st : WinResolveSt) (args : List (List Char)),
        st.resolvedAbsolute = true → st.resolvedDevice ≠ [] →
        (winResolveArgs st args).1 = st) ∧
      ∀ (cwd : List Char) (env : List Char → Option (List Char)),
        winResolve cwd env ["C:\\a".data, "D:\\b".data] = "D:\\b".data := by
  refine ⟨?_, ?_, ?_⟩
  · intro st path rest hdev hres hne
    have hpne : path ≠ [] := by
      intro h
      subst h
      exact hdev rfl
    have hplen : (path.length == 0) = false := by
      simp [hpne]
    have hc : ((winResolveRoot path).2.1.length > 0 &&
        st.resolvedDevice.length > 0 &&
        (lowerL (winResolveRoot path).2.1 != lowerL st.resolvedDevice)) = true := by
      simp [List.length_pos.mpr hdev, List.length_pos.mpr hres, hne]
    have hstep : winResolveStep st path = (st, false) := by
      simp [winResolveStep, hc]
    rw [winResolveArgs_cons]
    simp [hplen, hstep]
  · intro st args habs hdev
    induction args with
    | nil => rfl
    | cons path rest ih =>
      rw [winResolveArgs_cons]
      by_cases hp : (path.length == 0) = true
      · rw [if_pos hp]
        exact ih
      · rw [if_neg hp]
        have hd0 : (st.resolvedDevice.length == 0) = false := by
          simp [hdev]
        have hstep : winResolveStep st path = (st, true) ∨
            winResolveStep st path = (st, false) := by
          by_cases hc : ((winResolveRoot path).2.1.length > 0 &&
              st.resolvedDevice.length > 0 &&
              (lowerL (winResolveRoot path).2.1 != lowerL st.resolvedDevice)) = true
          · right
            simp [winResolveStep, hc]
          · left
            simp [winResolveStep, hc, hd0, habs, List.length_pos.mpr hdev]
            intro hlen
            by_contra hne2
            exact hc (by simp [hlen, List.length_pos.mpr hdev, hne2])
        rcases hstep with h | h
        · simp [h]
        · simp [h]
          exact ih
  · intro cwd env
    rfl

/-- Claim C6: `winToNamespacedPath` maps a path whose one-argument
resolution is UNC-rooted (and not already a `\\?\` or `\\.\` namespace) to
`\\?\UNC\` followed by the resolution past its leading `\\`; maps a path
whose resolution is drive-rooted (`X:\…`) to `\\?\` followed by the whole
resolution; returns every other input unchanged (empty paths, resolutions
of length at most 2, already-namespaced or `\\.\` resolutions, and
relative resolutions); and `winToNamespacedPath('C:\\foo')` is
`'\\\\?\\C:\\foo'` for every cwd and environment. -/
theorem c6_winToNamespacedPath :
    (∀ (cwd : List Char) (env : List Char → Option (List Char)) (path : List Char),
        (path ≠ [] → uncRooted (winResolve cwd env [path]) →
          winToNamespacedPath cwd env path =
            '\\' :: '\\' :: '?' :: '\\' :: 'U' :: 'N' :: 'C' :: '\\' ::
              (winResolve cwd env [path]).drop 2) ∧
        (path ≠ [] → driveRooted (winResolve cwd env [path]) →
          winToNamespacedPath cwd env path =
            '\\' :: '\\' :: '?' :: '\\' :: winResolve cwd env [path]) ∧
        (path = [] ∨ (¬ uncRooted (winResolve cwd env [path]) ∧
            ¬ driveRooted (winResolve cwd env [path])) →
          winToNamespacedPath cwd env path = path)) ∧
      ∀ (cwd : List Char) (env : List Char → Option (List Char)),
        winToNamespacedPath cwd env "C:\\foo".data = "\\\\?\\C:\\foo".data := by
  constructor
  · intro cwd env path
    refine ⟨?_, ?_, ?_⟩
    · rintro hne ⟨hlen, h0, h1, hq, hd⟩
      have hne' : (path.length == 0) = false := by simp [hne]
      have hgt : ¬ ((winResolve cwd env [path]).length ≤ 2) := by omega
      simp [winToNamespacedPath, hne', hgt, h0, h1, hq, hd]
    · rintro hne ⟨hlen, h0, h1, h2⟩
      have hne' : (path.length == 0) = false := by simp [hne]
      have hgt : ¬ ((winResolve cwd env [path]).length ≤ 2) := by omega
      have hnb : codeAt (winResolve cwd env [path]) 0 ≠ some CHAR_BACKWARD_SLASH := by
        intro hc
        rw [hc] at h0
        exact absurd h0 (by decide)
      simp [winToNamespacedPath, hne', hgt, hnb, h0, h1, h2]
    · rintro (rfl | ⟨hunc, hdrv⟩)
      · rfl
      · by_cases hne : path = []
        · subst hne
          rfl
        · have hne' : (path.length == 0) = false := by simp [hne]
          by_cases hlen : (winResolve cwd env [path]).length ≤ 2
          · simp [winToNamespacedPath, hne', hlen]
          · have hlen' : 2 < (winResolve cwd env [path]).length := by omega
            by_cases h0 : codeAt (winResolve cwd env [path]) 0 = some CHAR_BACKWARD_SLASH
            · by_cases h1 : codeAt (winResolve cwd env [path]) 1 = some CHAR_BACKWARD_SLASH
              · have hq : ¬ (codeAt (winResolve cwd env [path]) 2 ≠ some CHAR_QUESTION_MARK ∧
                    codeAt (winResolve cwd env [path]) 2 ≠ some CHAR_DOT) := fun hc =>
                  hunc ⟨hlen', h0, h1, hc.1, hc.2⟩
                rcases not_and_or.mp hq with hq | hq
                · have hq' : codeAt (winResolve cwd env [path]) 2 = some CHAR_QUESTION_MARK :=
                    not_not.mp hq
                  simp [winToNamespacedPath, hne', hlen, h0, h1, hq']
                · have hq' : codeAt (winResolve cwd env [path]) 2 = some CHAR_DOT :=
                    not_not.mp hq
                  simp [winToNamespacedPath, hne', hlen, h0, h1, hq']
              · simp [winToNamespacedPath, hne', hlen, h0, h1]
            · cases hB : (isWDRO (codeAt (winResolve cwd env [path]) 0) &&
                  codeAt (winResolve cwd env [path]) 1 == some CHAR_COLON &&
                  codeAt (winResolve cwd env [path]) 2 == some CHAR_BACKWARD_SLASH) with
              | false => simp [winToNamespacedPath, hne', hlen, h0, hB]
              | true =>
                exfalso
                simp only [Bool.and_eq_true, beq_iff_eq] at hB
                exact hdrv ⟨hlen', hB.1.1, hB.1.2, hB.2⟩
  · intro cwd env
    rfl

theorem c5_witness :
    winResolveArgs ⟨"D:".data, [], false⟩ ["C:\\a".data] =
        winResolveArgs ⟨"D:".data, [], false⟩ [] ∧
      (winResolveArgs ⟨"D:".data, "x".data, true⟩ ["C:\\a".data]).1 =
        ⟨"D:".data, "x".data, true⟩ ∧
      winResolve "Z:\\cw".data (fun _ => none) ["C:\\a".data, "D:\\b".data] =
        "D:\\b".data :=
  ⟨c5_winResolve_devices.1 ⟨"D:".data, [], false⟩ "C:\\a".data []
      (by decide) (by decide) (by decide),
    c5_winResolve_devices.2.1 ⟨"D:".data, "x".data, true⟩ ["C:\\a".data]
      (by decide) (by decide),
    c5_winResolve_devices.2.2 "Z:\\cw".data (fun _ => none)⟩

theorem c6_witness :
    winToNamespacedPath "Z:\\cw".data (fun _ => none) "\\\\srv\\sh\\x".data =
        '\\' :: '\\' :: '?' :: '\\' :: 'U' :: 'N' :: 'C' :: '\\' ::
          (winResolve "Z:\\cw".data (fun _ => none) ["\\\\srv\\sh\\x".data]).drop 2 ∧
      winToNamespacedPath "Z:\\cw".data (fun _ => none) "C:\\foo".data =
        '\\' :: '\\' :: '?' :: '\\' ::
          winResolve "Z:\\cw".data (fun _ => none) ["C:\\foo".data] ∧
      winToNamespacedPath "cw".data (fun _ => none) "x".data = "x".data :=
  ⟨(c6_winToNamespacedPath.1 "Z:\\cw".data (fun _ => none) "\\\\srv\\sh\\x".data).1
      (by decide) ⟨by decide, by decide, by decide, by decide, by decide⟩,
    (c6_winToNamespacedPath.1 "Z:\\cw".data (fun _ => none) "C:\\foo".data).2.1
      (by decide) ⟨by decide, by decide, by decide, by decide⟩,
    (c6_winToNamespacedPath.1 "cw".data (fun _ => none) "x".data).2.2
      (Or.inr ⟨fun hc => absurd hc.2.1 (by decide), fun hc => absurd hc.2.2.1 (by decide)⟩)⟩

theorem parseScanLoop_succ (isSep : Nat → Bool) (p : List Char) (start fuel : Nat)
    (sd : Int) (sp : Nat) (e : Int) (ms : Bool) (pd : Int) :
    parseScanLoop isSep p start (fuel + 1) sd sp e ms pd =
      if isSepO isSep (codeAt p (start + fuel)) then
        if !ms then (sd, start + fuel + 1, e, pd)
        else parseScanLoop isSep p start fuel sd sp e ms pd
      else
        parseScanLoop isSep p start fuel
          (if codeAt p (start + fuel) == some CHAR_DOT then
            (if sd == -1 then ((start + fuel : Nat) : Int) else sd) else sd)
          sp
          ((if e == -1 then (false, ((start + fuel : Nat) : Int) + 1)
            else (ms, e) : Bool × Int)).2
          ((if e == -1 then (false, ((start + fuel : Nat) : Int) + 1)
            else (ms, e) : Bool × Int)).1
          (if codeAt p (start + fuel) == some CHAR_DOT then
            (if sd == -1 then pd else if pd != 1 then 1 else pd)
          else if sd != -1 then -1 else pd) := rfl

/-- positions recorded by the backward scan of `parse` are ordered:
whenever `startDot` is set it lies at or right of both `startPart` and the
scan start, and strictly left of `end`. -/
theorem parseScanLoop_inv (isSep : Nat → Bool) (p : List Char) (start : Nat) :
    ∀ (fuel : Nat) (sd : Int) (sp : Nat) (e : Int) (ms : Bool) (pd : Int),
      (sd ≠ -1 → (start : Int) + fuel ≤ sd ∧ sd < e) →
      (sd ≠ -1 → (sp : Int) ≤ sd ∧ (start : Int) ≤ sd) →
      (e ≠ -1 → (start : Int) + fuel < e) →
      (sp : Int) ≤ (start : Int) →
      (parseScanLoop isSep p start fuel sd sp e ms pd).1 ≠ -1 →
        ((parseScanLoop isSep p start fuel sd sp e ms pd).2.1 : Int) ≤
            (parseScanLoop isSep p start fuel sd sp e ms pd).1 ∧
          (start : Int) ≤ (parseScanLoop isSep p start fuel sd sp e ms pd).1 ∧
          (parseScanLoop isSep p start fuel sd sp e ms pd).1 <
            (parseScanLoop isSep p start fuel sd sp e ms pd).2.2.1 := by
  intro fuel
  induction fuel with
  | zero =>
    intro sd sp e ms pd H1 H2 H3 H4 hne
    exact ⟨(H2 hne).1, (H2 hne).2, (H1 hne).2⟩
  | succ fuel ih =>
    intro sd sp e ms pd H1 H2 H3 H4
    rw [parseScanLoop_succ]
    by_cases hsep : isSepO isSep (codeAt p (start + fuel)) = true
    · rw [if_pos hsep]
      cases hms : ms with
      | false =>
        rw [if_pos (by decide)]
        dsimp only
        intro hne
        have h1 := H1 hne
        have h2 := H2 hne
        refine ⟨?_, h2.2, h1.2⟩
        have := h1.1
        omega
      | true =>
        rw [if_neg (by decide)]
        refine ih sd sp e true pd ?_ H2 ?_ H4
        · intro h
          have := H1 h
          exact ⟨by omega, this.2⟩
        · intro h
          have := H3 h
          omega
    · rw [if_neg hsep]
      by_cases heeq : e = -1
      · rw [if_pos (beq_iff_eq.mpr heeq)]
        dsimp only
        refine ih _ sp _ _ _ ?_ ?_ ?_ H4
        · intro hsd'
          by_cases hdot : (codeAt p (start + fuel) == some CHAR_DOT) = true
          · rw [if_pos hdot] at hsd' ⊢
            by_cases hsdeq : sd = -1
            · rw [if_pos (beq_iff_eq.mpr hsdeq)] at hsd' ⊢
              constructor
              · omega
              · omega
            · rw [if_neg (fun h => hsdeq (beq_iff_eq.mp h))] at hsd' ⊢
              exfalso
              have := H1 hsdeq
              subst heeq
              omega
          · rw [if_neg hdot] at hsd' ⊢
            exfalso
            have := H1 hsd'
            subst heeq
            omega
        · intro hsd'
          by_cases hdot : (codeAt p (start + fuel) == some CHAR_DOT) = true
          · rw [if_pos hdot] at hsd' ⊢
            by_cases hsdeq : sd = -1
            · rw [if_pos (beq_iff_eq.mpr hsdeq)] at hsd' ⊢
              constructor
              · omega
              · omega
            · rw [if_neg (fun h => hsdeq (beq_iff_eq.mp h))] at hsd' ⊢
              exact H2 hsdeq
          · rw [if_neg hdot] at hsd' ⊢
            exact H2 hsd'
        · intro _
          omega
      · rw [if_neg (fun h => heeq (beq_iff_eq.mp h))]
        dsimp only
        refine ih _ sp _ _ _ ?_ ?_ ?_ H4
        · intro hsd'
          by_cases hdot : (codeAt p (start + fuel) == some CHAR_DOT) = true
          · rw [if_pos hdot] at hsd' ⊢
            by_cases hsdeq : sd = -1
            · rw [if_pos (beq_iff_eq.mpr hsdeq)] at hsd' ⊢
              have h3 := H3 heeq
              constructor
              · omega
              · omega
            · rw [if_neg (fun h => hsdeq (beq_iff_eq.mp h))] at hsd' ⊢
              have h1 := H1 hsdeq
              constructor
              · omega
              · omega
          · rw [if_neg hdot] at hsd' ⊢
            have h1 := H1 hsd'
            constructor
            · omega
            · omega
        · intro hsd'
          by_cases hdot : (codeAt p (start + fuel) == some CHAR_DOT) = true
          · rw [if_pos hdot] at hsd' ⊢
            by_cases hsdeq : sd = -1
            · rw [if_pos (beq_iff_eq.mpr hsdeq)] at hsd' ⊢
              constructor
              · omega
              · omega
            · rw [if_neg (fun h => hsdeq (beq_iff_eq.mp h))] at hsd' ⊢
              exact H2 hsdeq
          · rw [if_neg hdot] at hsd' ⊢
            exact H2 hsd'
        · intro _
          have := H3 heeq
          omega

theorem sliceNat_append (p : List Char) (a d b : Nat) (h1 : a ≤ d) (h2 : d ≤ b) :
    sliceNat p a b = sliceNat p a d ++ sliceNat p d b := by
  unfold sliceNat
  have hb : b - a = (d - a) + (b - d) := by omega
  rw [hb, List.take_add, List.drop_drop]
  have hd : a + (d - a) = d := by omega
  rw [hd]

theorem sliceNat_split (p : List Char) (a : Nat) (d b : Int)
    (h1 : (a : Int) ≤ d) (h2 : d < b) :
    sliceNat p a b.toNat = sliceNat p a d.toNat ++ sliceNat p d.toNat b.toNat :=
  sliceNat_append p a d.toNat b.toNat (by omega) (by omega)

theorem posParse_bne (p : List Char) :
    (posParse p).base = (posParse p).name ++ (posParse p).ext := by
  unfold posParse
  by_cases h0 : p.length = 0
  · rw [if_pos h0]
    rfl
  · rw [if_neg h0]
    dsimp only
    have hinv := parseScanLoop_inv isPosixPathSeparator p
      (if (codeAt p 0 == some CHAR_FORWARD_SLASH) = true then 1 else 0)
      (p.length - if (codeAt p 0 == some CHAR_FORWARD_SLASH) = true then 1 else 0)
      (-1) 0 (-1) true 0 (by simp) (by simp) (by simp) (by split <;> simp)
    generalize hg : parseScanLoop isPosixPathSeparator p
      (if (codeAt p 0 == some CHAR_FORWARD_SLASH) = true then 1 else 0)
      (p.length - if (codeAt p 0 == some CHAR_FORWARD_SLASH) = true then 1 else 0)
      (-1) 0 (-1) true 0 = sc at hinv ⊢
    obtain ⟨sd, sp, e, pd⟩ := sc
    dsimp only at hinv ⊢
    by_cases he : (e != -1) = true
    · rw [if_pos he]
      by_cases hD : (sd == -1 || pd == 0 ||
          (pd == 1 && sd == e - 1 && sd == (sp : Int) + 1)) = true
      · rw [if_pos hD]
        dsimp only
        rw [List.append_nil]
      · rw [if_neg hD]
        dsimp only
        have hsd : sd ≠ -1 := by
          intro h
          apply hD
          subst h
          simp
        obtain ⟨g1, g2, g3⟩ := hinv hsd
        by_cases h2 : ((sp == 0 : Bool) &&
            (codeAt p 0 == some CHAR_FORWARD_SLASH)) = true
        · rw [if_pos h2]
          have habs : (codeAt p 0 == some CHAR_FORWARD_SLASH) = true :=
            (Bool.and_eq_true _ _).mp h2 |>.2
          rw [if_pos habs] at g2
          exact sliceNat_split p 1 sd e (by omega) g3
        · rw [if_neg h2]
          exact sliceNat_split p sp sd e g1 g3
    · rw [if_neg he]
      rfl

theorem winParseRest_bne (p : List Char) (rootEnd : Nat) :
    (winParseRest p rootEnd).base =
      (winParseRest p rootEnd).name ++ (winParseRest p rootEnd).ext := by
  unfold winParseRest
  dsimp only
  have hinv := parseScanLoop_inv isPathSeparator p rootEnd (p.length - rootEnd)
    (-1) rootEnd (-1) true 0 (by simp) (by simp) (by simp) (by simp)
  generalize hg : parseScanLoop isPathSeparator p rootEnd (p.length - rootEnd)
    (-1) rootEnd (-1) true 0 = sc at hinv ⊢
  obtain ⟨sd, sp, e, pd⟩ := sc
  dsimp only at hinv ⊢
  by_cases he : (e != -1) = true
  · rw [if_pos he]
    by_cases hD : (sd == -1 || pd == 0 ||
        (pd == 1 && sd == e - 1 && sd == (sp : Int) + 1)) = true
    · rw [if_pos hD]
      dsimp only
      rw [List.append_nil]
    · rw [if_neg hD]
      dsimp only
      have hsd : sd ≠ -1 := by
        intro h
        apply hD
        subst h
        simp
      obtain ⟨g1, g2, g3⟩ := hinv hsd
      exact sliceNat_split p sp sd e g1 g3
  · rw [if_neg he]
    rfl

theorem winParse_bne (p : List Char) :
    (winParse p).base = (winParse p).name ++ (winParse p).ext := by
  unfold winParse
  dsimp only
  repeat' split
  all_goals first
    | rfl
    | (dsimp only; rw [List.append_nil])
    | exact winParseRest_bne _ _

/-- Claim C9: for every path and both dialects, the object returned by
`parse` satisfies `base = name ++ ext` when `ext` is non-empty and
`base = name` when `ext` is empty. -/
theorem c9_parse_components (p : List Char) :
    ((posParse p).ext ≠ [] →
        (posParse p).base = (posParse p).name ++ (posParse p).ext) ∧
      ((posParse p).ext = [] → (posParse p).base = (posParse p).name) ∧
      ((winParse p).ext ≠ [] →
        (winParse p).base = (winParse p).name ++ (winParse p).ext) ∧
      ((winParse p).ext = [] → (winParse p).base = (winParse p).name) := by
  have hp := posParse_bne p
  have hw := winParse_bne p
  exact ⟨fun _ => hp, fun h => by rw [hp, h, List.append_nil],
    fun _ => hw, fun h => by rw [hw, h, List.append_nil]⟩

theorem c9_witness :
    ((posParse "/a/b.html".data).ext ≠ [] ∧
        (posParse "/a/b.html".data).base =
          (posParse "/a/b.html".data).name ++ (posParse "/a/b.html".data).ext) ∧
      (winParse "C:\\a\\b".data).ext = [] ∧
        (winParse "C:\\a\\b".data).base = (winParse "C:\\a\\b".data).name :=
  ⟨⟨by decide, (c9_parse_components "/a/b.html".data).1 (by decide)⟩,
    by decide, (c9_parse_components "C:\\a\\b".data).2.2.2 (by decide)⟩

theorem intercalate_cons₂ (sep : Char) (a b : List Char) (L : List (List Char)) :
    List.intercalate [sep] (a :: b :: L) = a ++ sep :: List.intercalate [sep] (b :: L) := by
  simp [List.intercalate, List.intersperse]

theorem intercalate_single (sep : Char) (a : List Char) :
    List.intercalate [sep] [a] = a := by
  simp [List.intercalate, List.intersperse]

theorem splitSegs_sepFree (isSep : Nat → Bool) :
    ∀ (l : List Char), ∀ s ∈ splitSegs isSep l, SepFree isSep s := by
  intro l
  induction l with
  | nil =>
    intro s hs
    simp only [splitSegs] at hs
    rcases List.mem_singleton.mp hs with rfl
    intro c hc
    simp at hc
  | cons c cs ih =>
    obtain ⟨s', ss', hcs⟩ : ∃ s' ss', splitSegs isSep cs = s' :: ss' := by
      cases hcase : splitSegs isSep cs with
      | nil => exact absurd hcase (splitSegs_ne_nil isSep cs)
      | cons a b => exact ⟨a, b, rfl⟩
    intro s hs
    rw [splitSegs_cons_of isSep c hcs] at hs
    by_cases hc : isSep c.toNat = true
    · rw [if_pos hc] at hs
      rcases List.mem_cons.mp hs with rfl | hs
      · intro x hx
        simp at hx
      · exact ih s (hcs ▸ hs)
    · have hcf : isSep c.toNat = false := by simpa using hc
      rw [hcf] at hs
      simp only [Bool.false_eq_true, if_false] at hs
      rcases List.mem_cons.mp hs with rfl | hs
      · intro x hx
        rcases List.mem_cons.mp hx with rfl | hx
        · exact hcf
        · exact ih s' (hcs ▸ List.mem_cons_self _ _) x hx
      · exact ih s (hcs ▸ List.mem_cons_of_mem _ hs)

theorem splitSegs_cons_sep (isSep : Nat → Bool) {c : Char} (hc : isSep c.toNat = true)
    (l : List Char) : splitSegs isSep (c :: l) = [] :: splitSegs isSep l := by
  obtain ⟨s', ss', hl⟩ : ∃ s' ss', splitSegs isSep l = s' :: ss' := by
    cases hcase : splitSegs isSep l with
    | nil => exact absurd hcase (splitSegs_ne_nil isSep l)
    | cons a b => exact ⟨a, b, rfl⟩
  rw [splitSegs_cons_of isSep c hl, if_pos hc, hl]

theorem splitSegs_append_sep (isSep : Nat → Bool) {c : Char} (hc : isSep c.toNat = true) :
    ∀ (l₁ l₂ : List Char),
      splitSegs isSep (l₁ ++ c :: l₂) = splitSegs isSep l₁ ++ splitSegs isSep l₂ := by
  intro l₁
  induction l₁ with
  | nil =>
    intro l₂
    rw [List.nil_append, splitSegs_cons_sep isSep hc]
    rfl
  | cons a as ih =>
    intro l₂
    obtain ⟨s', ss', has⟩ : ∃ s' ss', splitSegs isSep (as ++ c :: l₂) = s' :: ss' := by
      cases hcase : splitSegs isSep (as ++ c :: l₂) with
      | nil => exact absurd hcase (splitSegs_ne_nil isSep _)
      | cons x y => exact ⟨x, y, rfl⟩
    obtain ⟨u, us, hu⟩ : ∃ u us, splitSegs isSep as = u :: us := by
      cases hcase : splitSegs isSep as with
      | nil => exact absurd hcase (splitSegs_ne_nil isSep _)
      | cons x y => exact ⟨x, y, rfl⟩
    have hih := ih l₂
    rw [has, hu] at hih
    rw [show (a :: as) ++ c :: l₂ = a :: (as ++ c :: l₂) from rfl,
      splitSegs_cons_of isSep a has, splitSegs_cons_of isSep a hu]
    by_cases ha : isSep a.toNat = true
    · rw [if_pos ha, if_pos ha, List.cons_append]
      exact congrArg (List.cons []) hih
    · have haf : isSep a.toNat = false := by simpa using ha
      rw [haf]
      simp only [Bool.false_eq_true, if_false]
      injection hih with h1 h2
      rw [List.cons_append, h1, h2]
      rfl

theorem splitSegs_sepFree_self (isSep : Nat → Bool) :
    ∀ (a : List Char), SepFree isSep a → splitSegs isSep a = [a] := by
  intro a
  induction a with
  | nil =>
    intro _
    rfl
  | cons c cs ih =>
    intro hsf
    have hcs : splitSegs isSep cs = [cs] := ih (fun x hx => hsf x (List.mem_cons_of_mem _ hx))
    rw [splitSegs_cons_of isSep c hcs, hsf c (List.mem_cons_self _ _)]
    simp

theorem splitSegs_snoc_sep (isSep : Nat → Bool) {c : Char} (hc : isSep c.toNat = true)
    (l : List Char) : splitSegs isSep (l ++ [c]) = splitSegs isSep l ++ [[]] := by
  rw [splitSegs_append_sep isSep hc l []]
  rfl

theorem splitSegs_joinT (sep : Char) (isSep : Nat → Bool) (hsep : isSep sep.toNat = true) :
    ∀ (S : List (List Char)), (∀ s ∈ S, SepFree isSep s) →
      S ≠ [] → splitSegs isSep (joinT sep S) = S.reverse := by
  intro S
  induction S with
  | nil =>
    intro _ hne
    exact absurd rfl hne
  | cons t S' ih =>
    intro hsf _
    cases S' with
    | nil =>
      rw [show joinT sep [t] = t from rfl,
        splitSegs_sepFree_self isSep t (hsf t (List.mem_cons_self _ _))]
      rfl
    | cons s rest =>
      rw [joinT_cons₂, splitSegs_append_sep isSep hsep,
        ih (fun x hx => hsf x (List.mem_cons_of_mem _ hx)) (by simp),
        splitSegs_sepFree_self isSep t (hsf t (List.mem_cons_self _ _))]
      simp

theorem pushSeg_nil_seg (allow : Bool) (stack : List (List Char)) :
    pushSeg allow stack [] = stack := by
  simp [pushSeg]

theorem goodStack_nil (allow : Bool) (isSep : Nat → Bool) : GoodStack allow isSep [] :=
  ⟨by simp, [], [], rfl, by simp, by simp⟩

theorem pushSeg_good {allow : Bool} {isSep : Nat → Bool} {S : List (List Char)}
    {seg : List Char} (hS : GoodStack allow isSep S) (hseg : SepFree isSep seg) :
    GoodStack allow isSep (pushSeg allow S seg) := by
  obtain ⟨hall, A, B, rfl, hA, hB⟩ := hS
  unfold pushSeg
  by_cases h0 : seg = [] ∨ seg = ['.']
  · rw [if_pos h0]
    exact ⟨hall, A, B, rfl, hA, hB⟩
  · rw [if_neg h0]
    by_cases hdd : seg = ['.', '.']
    · rw [if_pos hdd]
      cases A with
      | nil =>
        cases B with
        | nil =>
          cases allow with
          | false =>
            exact ⟨by simp, [], [], rfl, by simp, by simp⟩
          | true =>
            refine ⟨?_, [], [seg], rfl, by simp, by simp [hdd]⟩
            intro s hs
            rcases List.mem_singleton.mp hs with rfl
            refine ⟨fun h => h0 (Or.inl h), fun h => h0 (Or.inr (by rw [hdd] at h; exact absurd h (by decide))), hseg, fun h => by simp at h⟩

        | cons b B' =>
          have hb : b = ['.', '.'] := hB b (List.mem_cons_self _ _)
          rw [List.nil_append]
          dsimp only
          rw [if_pos hb]
          cases allow with
          | false =>
            exact ⟨fun s hs => hall s hs, [], b :: B', rfl, by simp, hB⟩
          | true =>
            refine ⟨?_, [], seg :: b :: B', rfl, by simp, ?_⟩
            · intro s hs
              rcases List.mem_cons.mp hs with rfl | hs
              · exact ⟨fun h => h0 (Or.inl h), fun h => absurd (hdd ▸ h) (by decide),
                  hseg, fun h => by simp at h⟩
              · exact hall s hs
            · intro s hs
              rcases List.mem_cons.mp hs with rfl | hs
              · exact hdd
              · exact hB s hs
      | cons a A' =>
        have ha : a ≠ ['.', '.'] := hA a (List.mem_cons_self _ _)
        rw [List.cons_append]
        dsimp only
        rw [if_neg ha]
        exact ⟨fun s hs => hall s (List.mem_cons_of_mem _ hs), A', B, rfl,
          fun s hs => hA s (List.mem_cons_of_mem _ hs), hB⟩
    · rw [if_neg hdd]
      refine ⟨?_, seg :: A, B, rfl, ?_, hB⟩
      · intro s hs
        rcases List.mem_cons.mp hs with rfl | hs
        · exact ⟨fun h => h0 (Or.inl h), fun h => h0 (Or.inr h), hseg, fun _ => hdd⟩
        · exact hall s hs
      · intro s hs
        rcases List.mem_cons.mp hs with rfl | hs
        · exact hdd
        · exact hA s hs

theorem goodStack_foldl (allow : Bool) (isSep : Nat → Bool) :
    ∀ (segs : List (List Char)) (acc : List (List Char)),
      (∀ s ∈ segs, SepFree isSep s) → GoodStack allow isSep acc →
      GoodStack allow isSep (List.foldl (pushSeg allow) acc segs) := by
  intro segs
  induction segs with
  | nil =>
    intro acc _ hacc
    exact hacc
  | cons s ss ih =>
    intro acc hsf hacc
    exact ih (pushSeg allow acc s)
      (fun x hx => hsf x (List.mem_cons_of_mem _ hx))
      (pushSeg_good hacc (hsf s (List.mem_cons_self _ _)))

theorem foldl_push_normals (allow : Bool) :
    ∀ (N acc : List (List Char)),
      (∀ s ∈ N, ¬(s = [] ∨ s = ['.']) ∧ s ≠ ['.', '.']) →
      List.foldl (pushSeg allow) acc N = N.reverse ++ acc := by
  intro N
  induction N with
  | nil =>
    intro acc _
    rfl
  | cons s N' ih =>
    intro acc hN
    have hpush : pushSeg allow acc s = s :: acc := by
      unfold pushSeg
      rw [if_neg (hN s (List.mem_cons_self _ _)).1,
        if_neg (hN s (List.mem_cons_self _ _)).2]
    rw [List.foldl_cons, hpush, ih (s :: acc) (fun x hx => hN x (List.mem_cons_of_mem _ hx))]
    simp

theorem foldl_push_dots :
    ∀ (D acc : List (List Char)), (∀ s ∈ D, s = ['.', '.']) →
      (∀ s ∈ acc, s = ['.', '.']) →
      List.foldl (pushSeg true) acc D = D.reverse ++ acc := by
  intro D
  induction D with
  | nil =>
    intro acc _ _
    rfl
  | cons s D' ih =>
    intro acc hD hacc
    have hs : s = ['.', '.'] := hD s (List.mem_cons_self _ _)
    have hpush : pushSeg true acc s = s :: acc := by
      unfold pushSeg
      rw [if_neg (by rw [hs]; decide), if_pos hs]
      cases acc with
      | nil => rfl
      | cons t rest =>
        dsimp only
        rw [if_pos (hacc t (List.mem_cons_self _ _)), if_pos rfl]
    rw [List.foldl_cons, hpush,
      ih (s :: acc) (fun x hx => hD x (List.mem_cons_of_mem _ hx))
        (fun x hx => by rcases List.mem_cons.mp hx with rfl | hx; exact hs; exact hacc x hx)]
    simp

theorem goodStack_refold {allow : Bool} {isSep : Nat → Bool} {S : List (List Char)}
    (hS : GoodStack allow isSep S) :
    List.foldl (pushSeg allow) [] S.reverse = S := by
  obtain ⟨hall, A, B, rfl, hA, hB⟩ := hS
  rw [List.reverse_append, List.foldl_append]
  have hnormals : ∀ s ∈ A.reverse, ¬(s = [] ∨ s = ['.']) ∧ s ≠ ['.', '.'] := by
    intro s hs
    have hsA : s ∈ A := List.mem_reverse.mp hs
    have h1 := hall s (List.mem_append_left _ hsA)
    exact ⟨fun h => by rcases h with h | h; exact h1.1 h; exact h1.2.1 h, hA s hsA⟩
  cases allow with
  | true =>
    rw [foldl_push_dots B.reverse []
      (fun s hs => hB s (List.mem_reverse.mp hs)) (by simp)]
    rw [foldl_push_normals true A.reverse _ hnormals]
    simp
  | false =>
    have hBnil : B = [] := by
      cases B with
      | nil => rfl
      | cons b B' =>
        exact absurd (hB b (List.mem_cons_self _ _))
          ((hall b (List.mem_append_right _ (List.mem_cons_self _ _))).2.2.2 rfl)
    subst hBnil
    rw [show ([] : List (List Char)).reverse = [] from rfl, List.foldl_nil,
      foldl_push_normals false A.reverse _ hnormals]
    simp

theorem normSpec_cons_sep (allow : Bool) (sep : Char) (isSep : Nat → Bool)
    {c : Char} (hc : isSep c.toNat = true) (l : List Char) :
    normSpec (c :: l) allow sep isSep = normSpec l allow sep isSep := by
  unfold normSpec
  rw [splitSegs_cons_sep isSep hc, List.foldl_cons, pushSeg_nil_seg]

theorem normSpec_snoc_sep (allow : Bool) (sep : Char) (isSep : Nat → Bool)
    {c : Char} (hc : isSep c.toNat = true) (l : List Char) :
    normSpec (l ++ [c]) allow sep isSep = normSpec l allow sep isSep := by
  unfold normSpec
  rw [splitSegs_snoc_sep isSep hc, List.foldl_append, List.foldl_cons, pushSeg_nil_seg,
    List.foldl_nil]

theorem normSpec_joinT (allow : Bool) (sep : Char) (isSep : Nat → Bool)
    (hsep : isSep sep.toNat = true) (S : List (List Char))
    (hS : GoodStack allow isSep S) :
    normSpec (joinT sep S) allow sep isSep = joinT sep S := by
  cases hSe : S with
  | nil =>
    unfold normSpec
    rw [show joinT sep [] = [] from rfl]
    rw [show splitSegs isSep [] = [[]] from rfl, List.foldl_cons, pushSeg_nil_seg,
      List.foldl_nil]
    rfl
  | cons t S' =>
    rw [← hSe]
    unfold normSpec
    rw [splitSegs_joinT sep isSep hsep S (fun s hs => (hS.1 s hs).2.2.1) (by rw [hSe]; simp),
      goodStack_refold hS, joinT_eq_intercalate]

theorem exists_concat_of_ne_nil {l : List Char} (h : l ≠ []) : ∃ Y c, l = Y ++ [c] := by
  cases hrev : l.reverse with
  | nil => exact absurd (by simpa using congrArg List.reverse hrev) h
  | cons c Y =>
    refine ⟨Y.reverse, c, ?_⟩
    have := congrArg List.reverse hrev
    simpa using this

theorem joinT_head_eq (sep : Char) (S : List (List Char)) {b : List Char}
    {R : List (List Char)} (hrev : S.reverse = b :: R) :
    ∃ C, joinT sep S = b ++ C := by
  rw [← joinT_eq_intercalate, hrev]
  cases R with
  | nil => exact ⟨[], by rw [intercalate_single, List.append_nil]⟩
  | cons x xs => exact ⟨sep :: List.intercalate [sep] (x :: xs), intercalate_cons₂ sep b x xs⟩

theorem codeAt_cons_zero (c : Char) (l : List Char) : codeAt (c :: l) 0 = some c.toNat := by
  simp [codeAt]

theorem codeAt_snoc (X : List Char) (c : Char) :
    codeAt (X ++ [c]) X.length = some c.toNat := by
  simp [codeAt]

theorem posNormalize_expand (r : List Char) (hr : ¬ r.length = 0) :
    posNormalize r =
      (if (normalizeString r (!(codeAt r 0 == some CHAR_FORWARD_SLASH)) '/'
            isPosixPathSeparator).length = 0 then
        (if (codeAt r 0 == some CHAR_FORWARD_SLASH) then ['/']
         else if (codeAt r (r.length - 1) == some CHAR_FORWARD_SLASH) then ['.', '/']
         else ['.'])
       else
        (if (codeAt r 0 == some CHAR_FORWARD_SLASH) then
          '/' :: (if (codeAt r (r.length - 1) == some CHAR_FORWARD_SLASH) then
            normalizeString r (!(codeAt r 0 == some CHAR_FORWARD_SLASH)) '/'
              isPosixPathSeparator ++ ['/']
          else normalizeString r (!(codeAt r 0 == some CHAR_FORWARD_SLASH)) '/'
              isPosixPathSeparator)
         else (if (codeAt r (r.length - 1) == some CHAR_FORWARD_SLASH) then
            normalizeString r (!(codeAt r 0 == some CHAR_FORWARD_SLASH)) '/'
              isPosixPathSeparator ++ ['/']
          else normalizeString r (!(codeAt r 0 == some CHAR_FORWARD_SLASH)) '/'
              isPosixPathSeparator))) := by
  unfold posNormalize
  rw [if_neg hr]

theorem posNormalize_assembled (S : List (List Char)) (isAbs trail : Bool)
    (hgood : GoodStack (!isAbs) isPosixPathSeparator S)
    (hne : joinT '/' S ≠ []) :
    posNormalize ((if isAbs then ['/'] else []) ++ joinT '/' S ++
        (if trail then ['/'] else [])) =
      (if isAbs then ['/'] else []) ++ joinT '/' S ++ (if trail then ['/'] else []) := by
  have hSne : S ≠ [] := by
    intro h
    rw [h] at hne
    exact hne rfl
  obtain ⟨b, R, hrev⟩ : ∃ b R, S.reverse = b :: R := by
    cases hcase : S.reverse with
    | nil => exact absurd (by simpa using congrArg List.reverse hcase) hSne
    | cons x y => exact ⟨x, y, rfl⟩
  have hbS : b ∈ S := by
    rw [← List.mem_reverse, hrev]
    exact List.mem_cons_self _ _
  obtain ⟨C, hC⟩ := joinT_head_eq '/' S hrev
  have hb := hgood.1 b hbS
  obtain ⟨b0, b', rfl⟩ : ∃ b0 b', b = b0 :: b' := by
    cases b with
    | nil => exact absurd rfl hb.1
    | cons x y => exact ⟨x, y, rfl⟩
  have hb0f : isPosixPathSeparator b0.toNat = false :=
    hb.2.2.1 b0 (List.mem_cons_self _ _)
  have hb0ne : (some b0.toNat == some CHAR_FORWARD_SLASH) = false := hb0f
  obtain ⟨t, S', hTS⟩ : ∃ t S', S = t :: S' := by
    cases S with
    | nil => exact absurd rfl hSne
    | cons x y => exact ⟨x, y, rfl⟩
  obtain ⟨B, hB⟩ : ∃ B, joinT '/' S = B ++ t := by
    rw [hTS]
    exact joinT_ends '/' t S'
  have htS : t ∈ S := by
    rw [hTS]
    exact List.mem_cons_self _ _
  have ht := hgood.1 t htS
  obtain ⟨t0, c, htc⟩ := exists_concat_of_ne_nil ht.1
  have hcf : isPosixPathSeparator c.toNat = false := by
    refine ht.2.2.1 c ?_
    rw [htc]
    simp
  have hcne : (some c.toNat == some CHAR_FORWARD_SLASH) = false := hcf
  have hjlen : ¬ (joinT '/' S).length = 0 := fun h => hne (List.length_eq_zero.mp h)
  have h0j : codeAt (joinT '/' S) 0 = some b0.toNat := by
    rw [hC, List.cons_append]
    exact codeAt_cons_zero _ _
  have h0j2 : codeAt (joinT '/' S ++ ['/']) 0 = some b0.toNat := by
    rw [hC, List.cons_append, List.cons_append]
    exact codeAt_cons_zero _ _
  have hsnocform : joinT '/' S = (B ++ t0) ++ [c] := by
    rw [hB, htc, List.append_assoc]
  have hLj : codeAt (joinT '/' S) ((joinT '/' S).length - 1) = some c.toNat := by
    rw [hsnocform]
    have hl : ((B ++ t0) ++ [c]).length - 1 = (B ++ t0).length := by simp
    rw [hl]
    exact codeAt_snoc _ _
  have hLj2 : codeAt ('/' :: joinT '/' S) (('/' :: joinT '/' S).length - 1) =
      some c.toNat := by
    rw [hsnocform, show ('/' :: ((B ++ t0) ++ [c])) = ('/' :: (B ++ t0)) ++ [c] from rfl]
    have hl : (('/' :: (B ++ t0)) ++ [c]).length - 1 = ('/' :: (B ++ t0)).length := by
      simp only [List.length_append, List.length_cons, List.length_nil]
      omega
    rw [hl]
    exact codeAt_snoc _ _
  have hsnocL : ∀ (pre : List Char),
      codeAt (pre ++ ['/']) ((pre ++ ['/']).length - 1) = some '/'.toNat := by
    intro pre
    have hl : (pre ++ ['/']).length - 1 = pre.length := by simp
    rw [hl]
    exact codeAt_snoc _ _
  have hslash : ((some '/'.toNat : Option Nat) == some CHAR_FORWARD_SLASH) = true := by
    decide
  cases isAbs with
  | false =>
    simp only [Bool.false_eq_true, if_false, List.nil_append, Bool.not_false] at hgood ⊢
    cases trail with
    | false =>
      simp only [Bool.false_eq_true, if_false, List.append_nil]
      rw [posNormalize_expand _ hjlen, h0j, hb0ne]
      simp only [Bool.false_eq_true, if_false, Bool.not_false]
      have hns : normalizeString (joinT '/' S) true '/' isPosixPathSeparator =
          joinT '/' S := by
        rw [normalizeString_eq_normSpec _ _ _ _ (by decide) (by decide)]
        exact normSpec_joinT true '/' isPosixPathSeparator (by decide) S hgood
      rw [hns, if_neg hjlen, hLj, hcne]
      simp only [Bool.false_eq_true, if_false]
    | true =>
      simp only [if_true]
      have hrne : ¬ (joinT '/' S ++ ['/']).length = 0 := by simp
      rw [posNormalize_expand _ hrne, h0j2, hb0ne]
      simp only [Bool.false_eq_true, if_false, Bool.not_false]
      have hns : normalizeString (joinT '/' S ++ ['/']) true '/' isPosixPathSeparator =
          joinT '/' S := by
        rw [normalizeString_eq_normSpec _ _ _ _ (by decide) (by decide)]
        rw [normSpec_snoc_sep true '/' isPosixPathSeparator (by decide)]
        exact normSpec_joinT true '/' isPosixPathSeparator (by decide) S hgood
      rw [hns, if_neg hjlen, hsnocL (joinT '/' S), hslash]
      simp only [if_true]
  | true =>
    simp only [if_true, List.singleton_append, Bool.not_true] at hgood ⊢
    cases trail with
    | false =>
      simp only [Bool.false_eq_true, if_false, List.append_nil]
      have hrne : ¬ ('/' :: joinT '/' S).length = 0 := by simp
      rw [posNormalize_expand _ hrne,
        codeAt_cons_zero '/' (joinT '/' S), hslash]
      simp only [if_true, Bool.not_true]
      have hns : normalizeString ('/' :: joinT '/' S) false '/' isPosixPathSeparator =
          joinT '/' S := by
        rw [normalizeString_eq_normSpec _ _ _ _ (by decide) (by decide)]
        rw [show ('/' :: joinT '/' S) = ('/' : Char) :: joinT '/' S from rfl,
          normSpec_cons_sep false '/' isPosixPathSeparator (by decide)]
        exact normSpec_joinT false '/' isPosixPathSeparator (by decide) S hgood
      rw [hns, if_neg hjlen, hLj2, hcne]
      simp only [Bool.false_eq_true, if_false]
    | true =>
      simp only [if_true]
      have hrne : ¬ ('/' :: (joinT '/' S ++ ['/'])).length = 0 := by simp
      rw [show ('/' :: joinT '/' S ++ ['/']) = '/' :: (joinT '/' S ++ ['/']) from rfl]
      rw [posNormalize_expand _ hrne,
        codeAt_cons_zero '/' (joinT '/' S ++ ['/']), hslash]
      simp only [if_true, Bool.not_true]
      have hns : normalizeString ('/' :: (joinT '/' S ++ ['/'])) false '/'
          isPosixPathSeparator = joinT '/' S := by
        rw [normalizeString_eq_normSpec _ _ _ _ (by decide) (by decide)]
        rw [normSpec_cons_sep false '/' isPosixPathSeparator (by decide)]
        rw [normSpec_snoc_sep false '/' isPosixPathSeparator (by decide)]
        exact normSpec_joinT false '/' isPosixPathSeparator (by decide) S hgood
      rw [hns, if_neg hjlen]
      have hLform : codeAt ('/' :: (joinT '/' S ++ ['/']))
          (('/' :: (joinT '/' S ++ ['/'])).length - 1) = some '/'.toNat := by
        rw [show ('/' :: (joinT '/' S ++ ['/'])) = ('/' :: joinT '/' S) ++ ['/'] by simp]
        exact hsnocL ('/' :: joinT '/' S)
      rw [hLform, hslash]
      simp only [if_true]

theorem posNormalize_idem (p : List Char) :
    posNormalize (posNormalize p) = posNormalize p := by
  by_cases hp : p.length = 0
  · have h1 : posNormalize p = ['.'] := by
      unfold posNormalize
      rw [if_pos hp]
    rw [h1]
    decide
  · rw [posNormalize_expand p hp]
    by_cases hn : (normalizeString p (!(codeAt p 0 == some CHAR_FORWARD_SLASH)) '/'
        isPosixPathSeparator).length = 0
    · rw [if_pos hn]
      by_cases ha : (codeAt p 0 == some CHAR_FORWARD_SLASH) = true
      · rw [if_pos ha]
        decide
      · rw [if_neg ha]
        by_cases ht : (codeAt p (p.length - 1) == some CHAR_FORWARD_SLASH) = true
        · rw [if_pos ht]
          decide
        · rw [if_neg ht]
          decide
    · rw [if_neg hn]
      have heq : normalizeString p (!(codeAt p 0 == some CHAR_FORWARD_SLASH)) '/'
          isPosixPathSeparator =
          joinT '/' ((splitSegs isPosixPathSeparator p).foldl
            (pushSeg (!(codeAt p 0 == some CHAR_FORWARD_SLASH))) []) := by
        rw [normalizeString_eq_normSpec p _ '/' isPosixPathSeparator (by decide) (by decide)]
        unfold normSpec
        rw [joinT_eq_intercalate]
      have hgood : GoodStack (!(codeAt p 0 == some CHAR_FORWARD_SLASH))
          isPosixPathSeparator ((splitSegs isPosixPathSeparator p).foldl
            (pushSeg (!(codeAt p 0 == some CHAR_FORWARD_SLASH))) []) :=
        goodStack_foldl _ _ _ [] (splitSegs_sepFree _ p) (goodStack_nil _ _)
      have hjne : joinT '/' ((splitSegs isPosixPathSeparator p).foldl
          (pushSeg (!(codeAt p 0 == some CHAR_FORWARD_SLASH))) []) ≠ [] := by
        rw [← heq]
        intro h
        exact hn (by rw [h]; rfl)
      by_cases ha : (codeAt p 0 == some CHAR_FORWARD_SLASH) = true
      · rw [ha] at heq hgood hjne ⊢
        rw [if_pos rfl]
        by_cases ht : (codeAt p (p.length - 1) == some CHAR_FORWARD_SLASH) = true
        · rw [if_pos ht]
          have h2 := posNormalize_assembled _ true true hgood hjne
          simp only [if_true, List.singleton_append] at h2
          rw [← heq] at h2
          exact h2
        · rw [if_neg ht]
          have h2 := posNormalize_assembled _ true false hgood hjne
          simp only [if_true, Bool.false_eq_true, if_false, List.singleton_append,
            List.append_nil] at h2
          rw [← heq] at h2
          exact h2
      · have haf : (codeAt p 0 == some CHAR_FORWARD_SLASH) = false := by simpa using ha
        rw [haf] at heq hgood hjne ⊢
        simp only [Bool.false_eq_true, if_false]
        by_cases ht : (codeAt p (p.length - 1) == some CHAR_FORWARD_SLASH) = true
        · rw [if_pos ht]
          have h2 := posNormalize_assembled _ false true hgood hjne
          simp only [if_true, Bool.false_eq_true, if_false, List.nil_append] at h2
          rw [← heq] at h2
          exact h2
        · rw [if_neg ht]
          have h2 := posNormalize_assembled _ false false hgood hjne
          simp only [Bool.false_eq_true, if_false, List.nil_append,
            List.append_nil] at h2
          rw [← heq] at h2
          exact h2

theorem codeAt_mid (A : List Char) (x : Char) (Z : List Char) :
    codeAt (A ++ x :: Z) A.length = some x.toNat := by
  unfold codeAt
  rw [List.getElem?_append_right (le_refl _)]
  simp

theorem codeAt_lt {p : List Char} {j : Nat} (hj : j < p.length) :
    codeAt p j = some ((p.get ⟨j, hj⟩).toNat) := by
  unfold codeAt
  rw [List.getElem?_eq_getElem hj]
  rfl

theorem scanNonSep_ge (p : List Char) (j : Nat) (hj : p.length ≤ j) :
    scanNonSep p j = j := by
  unfold scanNonSep
  rw [show p.length - j = 0 by omega]
  rfl

theorem scanNonSep_step (p : List Char) (j : Nat) (hj : j < p.length) :
    scanNonSep p j =
      if isSepO isPathSeparator (codeAt p j) then j else scanNonSep p (j + 1) := by
  unfold scanNonSep
  rw [show p.length - j = (p.length - (j + 1)) + 1 by omega]
  rfl

theorem scanSep_ge (p : List Char) (j : Nat) (hj : p.length ≤ j) :
    scanSep p j = j := by
  unfold scanSep
  rw [show p.length - j = 0 by omega]
  rfl

theorem scanSep_step (p : List Char) (j : Nat) (hj : j < p.length) :
    scanSep p j =
      if isSepO isPathSeparator (codeAt p j) then scanSep p (j + 1) else j := by
  unfold scanSep
  rw [show p.length - j = (p.length - (j + 1)) + 1 by omega]
  rfl

theorem scanNonSep_stops :
    ∀ (X A Y : List Char), SepFree isPathSeparator X →
      (Y = [] ∨ ∃ c Y', Y = c :: Y' ∧ isPathSeparator c.toNat = true) →
      scanNonSep (A ++ X ++ Y) A.length = A.length + X.length := by
  intro X
  induction X with
  | nil =>
    intro A Y _ hY
    rcases hY with rfl | ⟨c, Y', rfl, hc⟩
    · simp only [List.append_nil]
      rw [scanNonSep_ge _ _ (le_refl _)]
      simp
    · simp only [List.append_nil]
      rw [scanNonSep_step _ _ (by simp), codeAt_mid A c Y']
      rw [show isSepO isPathSeparator (some c.toNat) = isPathSeparator c.toNat from rfl, hc]
      simp
  | cons x X' ih =>
    intro A Y hX hY
    have hxc : codeAt (A ++ (x :: X') ++ Y) A.length = some x.toNat := by
      rw [List.append_assoc, List.cons_append]
      exact codeAt_mid A x (X' ++ Y)
    have hlen : A.length < (A ++ (x :: X') ++ Y).length := by
      simp only [List.length_append, List.length_cons]
      omega
    rw [scanNonSep_step _ _ hlen, hxc,
      show isSepO isPathSeparator (some x.toNat) = isPathSeparator x.toNat from rfl,
      hX x (List.mem_cons_self _ _)]
    simp only [Bool.false_eq_true, if_false]
    have hih := ih (A ++ [x]) Y
      (fun s hs => hX s (List.mem_cons_of_mem _ hs)) hY
    rw [show (A ++ [x]) ++ X' ++ Y = A ++ (x :: X') ++ Y by simp] at hih
    rw [show (A ++ [x]).length = A.length + 1 by simp] at hih
    rw [hih]
    simp only [List.length_cons]
    omega

theorem scanSep_one (p : List Char) (j : Nat) (hj : j < p.length)
    (h1 : isSepO isPathSeparator (codeAt p j) = true)
    (h2 : isSepO isPathSeparator (codeAt p (j + 1)) = false) :
    scanSep p j = j + 1 := by
  rw [scanSep_step p j hj, if_pos h1]
  by_cases hj1 : j + 1 < p.length
  · rw [scanSep_step p _ hj1, h2]
    simp
  · exact scanSep_ge p (j + 1) (by omega)

theorem sliceNat_mid (A X Y : List Char) :
    sliceNat (A ++ X ++ Y) A.length (A.length + X.length) = X := by
  unfold sliceNat
  rw [List.append_assoc, List.drop_left,
    show A.length + X.length - A.length = X.length by omega, List.take_left]

theorem sliceNat_drop (p : List Char) (j : Nat) :
    sliceNat p j p.length = p.drop j := by
  unfold sliceNat
  have h : (p.drop j).length = p.length - j := by simp
  rw [← h, List.take_length]

theorem sliceNat_len (p : List Char) (a b : Nat) (hab : a ≤ b) (hb : b ≤ p.length) :
    (sliceNat p a b).length = b - a := by
  unfold sliceNat
  simp only [List.length_take, List.length_drop]
  omega

theorem scanNonSep_spec (p : List Char) :
    ∀ (fuel j : Nat), p.length - j ≤ fuel →
      j ≤ scanNonSep p j ∧ (j ≤ p.length → scanNonSep p j ≤ p.length) ∧
        SepFree isPathSeparator (sliceNat p j (scanNonSep p j)) ∧
        (scanNonSep p j < p.length →
          isSepO isPathSeparator (codeAt p (scanNonSep p j)) = true) := by
  intro fuel
  induction fuel with
  | zero =>
    intro j hf
    have hge : p.length ≤ j := by omega
    rw [scanNonSep_ge p j hge]
    refine ⟨le_refl _, fun h => h, ?_, fun h => absurd h (by omega)⟩
    rw [show sliceNat p j j = [] by unfold sliceNat; simp]
    intro c hc
    simp at hc
  | succ fuel ih =>
    intro j hf
    by_cases hj : j < p.length
    · rw [scanNonSep_step p j hj]
      by_cases hsep : isSepO isPathSeparator (codeAt p j) = true
      · rw [if_pos hsep]
        refine ⟨le_refl _, fun h => by omega, ?_, fun _ => hsep⟩
        rw [show sliceNat p j j = [] by unfold sliceNat; simp]
        intro c hc
        simp at hc
      · rw [if_neg hsep]
        have hsf : isSepO isPathSeparator (codeAt p j) = false := by simpa using hsep
        obtain ⟨ih1, ih2, ih3, ih4⟩ := ih (j + 1) (by omega)
        refine ⟨by omega, fun _ => ih2 (by omega), ?_, ih4⟩
        have hcons : sliceNat p j (scanNonSep p (j + 1)) =
            p.get ⟨j, hj⟩ :: sliceNat p (j + 1) (scanNonSep p (j + 1)) := by
          unfold sliceNat
          rw [List.drop_eq_getElem_cons hj,
            show scanNonSep p (j + 1) - j = (scanNonSep p (j + 1) - (j + 1)) + 1 by omega]
          rfl
        rw [hcons]
        intro c hc
        rcases List.mem_cons.mp hc with rfl | hc
        · have : codeAt p j = some ((p.get ⟨j, hj⟩).toNat) := codeAt_lt hj
          rw [this] at hsf
          exact hsf
        · exact ih3 c hc
    · have hge : p.length ≤ j := by omega
      rw [scanNonSep_ge p j hge]
      refine ⟨le_refl _, fun h => h, ?_, fun h => absurd h (by omega)⟩
      rw [show sliceNat p j j = [] by unfold sliceNat; simp]
      intro c hc
      simp at hc

theorem joinT_first_char {allow : Bool} {isSep : Nat → Bool} {S : List (List Char)}
    (sep : Char) (hgood : GoodStack allow isSep S) (hSne : S ≠ []) :
    ∃ b0 X, joinT sep S = b0 :: X ∧ isSep b0.toNat = false := by
  obtain ⟨b, R, hrev⟩ : ∃ b R, S.reverse = b :: R := by
    cases hcase : S.reverse with
    | nil => exact absurd (by simpa using congrArg List.reverse hcase) hSne
    | cons x y => exact ⟨x, y, rfl⟩
  have hbS : b ∈ S := by
    rw [← List.mem_reverse, hrev]
    exact List.mem_cons_self _ _
  obtain ⟨C, hC⟩ := joinT_head_eq sep S hrev
  have hb := hgood.1 b hbS
  obtain ⟨b0, b', rfl⟩ : ∃ b0 b', b = b0 :: b' := by
    cases b with
    | nil => exact absurd rfl hb.1
    | cons x y => exact ⟨x, y, rfl⟩
  exact ⟨b0, b' ++ C, by rw [hC, List.cons_append], hb.2.2.1 b0 (List.mem_cons_self _ _)⟩

theorem joinT_last_char {allow : Bool} {isSep : Nat → Bool} {S : List (List Char)}
    (sep : Char) (hgood : GoodStack allow isSep S) (hSne : S ≠ []) :
    ∃ Y c, joinT sep S = Y ++ [c] ∧ isSep c.toNat = false := by
  obtain ⟨t, S', hTS⟩ : ∃ t S', S = t :: S' := by
    cases S with
    | nil => exact absurd rfl hSne
    | cons x y => exact ⟨x, y, rfl⟩
  obtain ⟨B, hB⟩ : ∃ B, joinT sep S = B ++ t := by
    rw [hTS]
    exact joinT_ends sep t S'
  have htS : t ∈ S := by
    rw [hTS]
    exact List.mem_cons_self _ _
  have ht := hgood.1 t htS
  obtain ⟨t0, c, htc⟩ := exists_concat_of_ne_nil ht.1
  refine ⟨B ++ t0, c, by rw [hB, htc, List.append_assoc], ?_⟩
  refine ht.2.2.1 c ?_
  rw [htc]
  simp

theorem joinT_ne_nil_of_good {allow : Bool} {isSep : Nat → Bool} {S : List (List Char)}
    (sep : Char) (hgood : GoodStack allow isSep S) (hSne : S ≠ []) :
    joinT sep S ≠ [] := by
  obtain ⟨b0, X, hX, -⟩ := joinT_first_char sep hgood hSne
  rw [hX]
  simp

theorem winNorm_refold (allow : Bool) {S : List (List Char)}
    (hgood : GoodStack allow isPathSeparator S) (lead tb : Bool) :
    normalizeString ((if lead then ['\\'] else []) ++ joinT '\\' S ++
      (if tb then ['\\'] else [])) allow '\\' isPathSeparator = joinT '\\' S := by
  rw [normalizeString_eq_normSpec _ _ _ _ (by decide) (by decide)]
  cases lead with
  | false =>
    cases tb with
    | false =>
      simp only [Bool.false_eq_true, if_false, List.nil_append, List.append_nil]
      exact normSpec_joinT allow '\\' isPathSeparator (by decide) S hgood
    | true =>
      simp only [Bool.false_eq_true, if_false, if_true, List.nil_append]
      rw [normSpec_snoc_sep allow '\\' isPathSeparator (by decide)]
      exact normSpec_joinT allow '\\' isPathSeparator (by decide) S hgood
  | true =>
    cases tb with
    | false =>
      simp only [if_true, Bool.false_eq_true, if_false, List.append_nil,
        List.singleton_append]
      rw [normSpec_cons_sep allow '\\' isPathSeparator (by decide)]
      exact normSpec_joinT allow '\\' isPathSeparator (by decide) S hgood
    | true =>
      simp only [if_true, List.singleton_append]
      rw [show ('\\' :: joinT '\\' S ++ ['\\']) = '\\' :: (joinT '\\' S ++ ['\\']) from rfl,
        normSpec_cons_sep allow '\\' isPathSeparator (by decide),
        normSpec_snoc_sep allow '\\' isPathSeparator (by decide)]
      exact normSpec_joinT allow '\\' isPathSeparator (by decide) S hgood

theorem winNormTail_form (p : List Char) (isAbs : Bool) (rootEnd : Nat) :
    ∃ T, Tail2Form isAbs T ∧
      winNormTail p none isAbs rootEnd = (if isAbs then '\\' :: T else T) ∧
      ∀ d, winNormTail p (some d) isAbs rootEnd =
        (if isAbs then d ++ '\\' :: T else d ++ T) := by
  unfold winNormTail
  by_cases hr : rootEnd < p.length
  · rw [if_pos hr]
    have heq : normalizeString (p.drop rootEnd) (!isAbs) '\\' isPathSeparator =
        joinT '\\' ((splitSegs isPathSeparator (p.drop rootEnd)).foldl
          (pushSeg (!isAbs)) []) := by
      rw [normalizeString_eq_normSpec _ _ _ _ (by decide) (by decide)]
      unfold normSpec
      rw [joinT_eq_intercalate]
    have hgood : GoodStack (!isAbs) isPathSeparator
        ((splitSegs isPathSeparator (p.drop rootEnd)).foldl (pushSeg (!isAbs)) []) :=
      goodStack_foldl _ _ _ [] (splitSegs_sepFree _ _) (goodStack_nil _ _)
    by_cases hS : (splitSegs isPathSeparator (p.drop rootEnd)).foldl
        (pushSeg (!isAbs)) [] = []
    · have hn : normalizeString (p.drop rootEnd) (!isAbs) '\\' isPathSeparator = [] := by
        rw [heq, hS]
        rfl
      rw [hn]
      cases isAbs with
      | true =>
        refine ⟨[], Or.inl ⟨rfl, rfl⟩, ?_, ?_⟩
        · simp
        · intro d
          simp
      | false =>
        by_cases htb : isSepO isPathSeparator (codeAt p (p.length - 1)) = true
        · refine ⟨['.', '\\'], Or.inr (Or.inl ⟨rfl, Or.inr rfl⟩), ?_, ?_⟩
          · simp [htb]
          · intro d
            simp [htb]
        · have htbf : isSepO isPathSeparator (codeAt p (p.length - 1)) = false := by
            simpa using htb
          refine ⟨['.'], Or.inr (Or.inl ⟨rfl, Or.inl rfl⟩), ?_, ?_⟩
          · simp [htbf]
          · intro d
            simp [htbf]
    · have hjne : joinT '\\' ((splitSegs isPathSeparator (p.drop rootEnd)).foldl
          (pushSeg (!isAbs)) []) ≠ [] := joinT_ne_nil_of_good '\\' hgood hS
      rw [heq]
      by_cases htb : isSepO isPathSeparator (codeAt p (p.length - 1)) = true
      · refine ⟨joinT '\\' ((splitSegs isPathSeparator (p.drop rootEnd)).foldl
            (pushSeg (!isAbs)) []) ++ ['\\'],
          Or.inr (Or.inr ⟨_, true, hgood, hS, by simp⟩), ?_, ?_⟩
        · have h1 : ((joinT '\\' ((splitSegs isPathSeparator (p.drop rootEnd)).foldl
              (pushSeg (!isAbs)) [])).length == 0) = false := by
            simp [hjne]
          simp [h1, hjne, htb, List.length_pos.mpr hjne]
        · intro d
          have h1 : ((joinT '\\' ((splitSegs isPathSeparator (p.drop rootEnd)).foldl
              (pushSeg (!isAbs)) [])).length == 0) = false := by
            simp [hjne]
          simp [h1, hjne, htb, List.length_pos.mpr hjne]
      · have htbf : isSepO isPathSeparator (codeAt p (p.length - 1)) = false := by
          simpa using htb
        refine ⟨joinT '\\' ((splitSegs isPathSeparator (p.drop rootEnd)).foldl
            (pushSeg (!isAbs)) []),
          Or.inr (Or.inr ⟨_, false, hgood, hS, by simp⟩), ?_, ?_⟩
        · simp [hjne, htbf]
        · intro d
          simp [hjne, htbf]
  · rw [if_neg hr]
    cases isAbs with
    | true =>
      refine ⟨[], Or.inl ⟨rfl, rfl⟩, ?_, ?_⟩
      · simp
      · intro d
        simp
    | false =>
      by_cases htb : isSepO isPathSeparator (codeAt p (p.length - 1)) = true
      · refine ⟨['.', '\\'], Or.inr (Or.inl ⟨rfl, Or.inr rfl⟩), ?_, ?_⟩
        · simp [htb]
        · intro d
          simp [htb]
      · have htbf : isSepO isPathSeparator (codeAt p (p.length - 1)) = false := by
          simpa using htb
        refine ⟨['.'], Or.inr (Or.inl ⟨rfl, Or.inl rfl⟩), ?_, ?_⟩
        · simp [htbf]
        · intro d
          simp [htbf]

theorem winNormalize_eq (p : List Char) :
    winNormalize p =
      (if p.length == 0 then ['.']
       else if p.length == 1 then
         (if isSepO isPosixPathSeparator (codeAt p 0) then ['\\'] else p)
       else if isSepO isPathSeparator (codeAt p 0) then
         (if isSepO isPathSeparator (codeAt p 1) then
           (if scanNonSep p 2 < p.length && scanNonSep p 2 != 2 then
             (if scanSep p (scanNonSep p 2) < p.length &&
                 scanSep p (scanNonSep p 2) != scanNonSep p 2 then
               (if scanNonSep p (scanSep p (scanNonSep p 2)) == p.length then
                 '\\' :: '\\' :: sliceNat p 2 (scanNonSep p 2) ++
                   '\\' :: (p.drop (scanSep p (scanNonSep p 2))) ++ ['\\']
                else if scanNonSep p (scanSep p (scanNonSep p 2)) !=
                    scanSep p (scanNonSep p 2) then
                 winNormTail p
                   (some ('\\' :: '\\' :: sliceNat p 2 (scanNonSep p 2) ++
                     '\\' :: sliceNat p (scanSep p (scanNonSep p 2))
                       (scanNonSep p (scanSep p (scanNonSep p 2)))))
                   true (scanNonSep p (scanSep p (scanNonSep p 2)))
                else winNormTail p none true 0)
              else winNormTail p none true 0)
            else winNormTail p none true 0)
          else winNormTail p none true 1)
       else if isWDRO (codeAt p 0) && codeAt p 1 == some CHAR_COLON then
         (if p.length > 2 && isSepO isPathSeparator (codeAt p 2) then
           winNormTail p (some (p.take 2)) true 3
          else winNormTail p (some (p.take 2)) false 2)
       else winNormTail p none false 0) := rfl

theorem wdro_not_sep {n : Nat} (h : isWindowsDeviceRoot n = true) :
    isPathSeparator n = false := by
  unfold isWindowsDeviceRoot at h
  unfold isPathSeparator
  simp only [Bool.or_eq_true, Bool.and_eq_true, decide_eq_true_eq,
    CHAR_UPPERCASE_A, CHAR_UPPERCASE_Z, CHAR_LOWERCASE_A, CHAR_LOWERCASE_Z] at h
  simp only [Bool.or_eq_false_iff, beq_eq_false_iff_ne, CHAR_FORWARD_SLASH,
    CHAR_BACKWARD_SLASH]
  omega

theorem not_sep_not_posix {n : Nat} (h : isPathSeparator n = false) :
    isPosixPathSeparator n = false := by
  unfold isPathSeparator at h
  unfold isPosixPathSeparator
  simp only [Bool.or_eq_false_iff, beq_eq_false_iff_ne] at h
  exact beq_eq_false_iff_ne.mpr h.1

theorem codeAt_cons_succ (a : Char) (l : List Char) (i : Nat) :
    codeAt (a :: l) (i + 1) = codeAt l i := by
  simp [codeAt]

theorem codeAt_last_snoc (Z : List Char) (c : Char) :
    codeAt (Z ++ [c]) ((Z ++ [c]).length - 1) = some c.toNat := by
  have h : (Z ++ [c]).length - 1 = Z.length := by simp
  rw [h]
  exact codeAt_snoc Z c

theorem winNorm_singleton (c : Char) (h : isPosixPathSeparator c.toNat = false) :
    winNormalize [c] = [c] := by
  rw [winNormalize_eq]
  rw [show codeAt [c] 0 = some c.toNat from rfl]
  rw [show isSepO isPosixPathSeparator (some c.toNat) = isPosixPathSeparator c.toNat
    from rfl, h]
  rfl

theorem winNormTail_abs_empty (o : List Char) (rootEnd : Nat)
    (h : rootEnd < o.length →
      normalizeString (o.drop rootEnd) false '\\' isPathSeparator = []) :
    winNormTail o none true rootEnd = ['\\'] ∧
      ∀ d, winNormTail o (some d) true rootEnd = d ++ ['\\'] := by
  unfold winNormTail
  by_cases hlt : rootEnd < o.length
  · rw [if_pos hlt]
    simp only [Bool.not_true]
    rw [h hlt]
    exact ⟨rfl, fun d => rfl⟩
  · rw [if_neg hlt]
    exact ⟨rfl, fun d => rfl⟩

theorem winNormTail_reassemble (o : List Char) (rootEnd : Nat) (S : List (List Char))
    (isAbs lead tb : Bool) (hgood : GoodStack (!isAbs) isPathSeparator S)
    (hSne : S ≠ []) (hlt : rootEnd < o.length)
    (hdrop : o.drop rootEnd = (if lead then ['\\'] else []) ++ joinT '\\' S ++
      (if tb then ['\\'] else []))
    (hlast : isSepO isPathSeparator (codeAt o (o.length - 1)) = tb) :
    winNormTail o none isAbs rootEnd =
        (if isAbs then ['\\'] else []) ++ (joinT '\\' S ++ (if tb then ['\\'] else [])) ∧
      ∀ d, winNormTail o (some d) isAbs rootEnd =
        d ++ ((if isAbs then ['\\'] else []) ++
          (joinT '\\' S ++ (if tb then ['\\'] else []))) := by
  unfold winNormTail
  rw [if_pos hlt, hdrop, winNorm_refold (!isAbs) hgood lead tb]
  have hjne := joinT_ne_nil_of_good '\\' hgood hSne
  have h1 : ((joinT '\\' S).length == 0 && !isAbs) = false := by
    simp [hjne]
  dsimp only
  rw [h1]
  simp only [Bool.false_eq_true, if_false]
  rw [hlast]
  cases tb with
  | true =>
    have h2 : ((joinT '\\' S).length > 0 && true) = true := by
      simp [List.length_pos.mpr hjne]
    rw [h2]
    simp only [if_true]
    cases isAbs with
    | true =>
      refine ⟨by simp, fun d => by simp⟩
    | false =>
      refine ⟨by simp, fun d => by simp⟩
  | false =>
    have h2 : ((joinT '\\' S).length > 0 && false) = false := by
      simp
    rw [h2]
    simp only [Bool.false_eq_true, if_false]
    cases isAbs with
    | true =>
      refine ⟨by simp, fun d => by simp⟩
    | false =>
      refine ⟨by simp, fun d => by simp⟩

theorem assembled_last (pre : List Char) {S : List (List Char)} {allow : Bool}
    (hgood : GoodStack allow isPathSeparator S) (hSne : S ≠ []) (tb : Bool) :
    isSepO isPathSeparator
      (codeAt (pre ++ (joinT '\\' S ++ (if tb then ['\\'] else [])))
        ((pre ++ (joinT '\\' S ++ (if tb then ['\\'] else []))).length - 1)) = tb := by
  obtain ⟨Y, c, hYc, hc⟩ := joinT_last_char '\\' hgood hSne
  cases tb with
  | true =>
    simp only [if_true]
    rw [show pre ++ (joinT '\\' S ++ ['\\']) = (pre ++ joinT '\\' S) ++ ['\\'] by simp,
      codeAt_last_snoc]
    decide
  | false =>
    simp only [Bool.false_eq_true, if_false, List.append_nil]
    rw [hYc, show pre ++ (Y ++ [c]) = (pre ++ Y) ++ [c] by simp, codeAt_last_snoc]
    exact hc

theorem winNorm_idem_abs_nodev (T : List Char) (hT : Tail2Form true T) :
    winNormalize ('\\' :: T) = '\\' :: T := by
  rcases hT with ⟨-, rfl⟩ | ⟨habs, -⟩ | ⟨S, tb, hgood, hSne, rfl⟩
  · decide
  · exact absurd habs (by decide)
  · obtain ⟨b0, X, hX, hb0⟩ := joinT_first_char '\\' hgood hSne
    have hJlen : 0 < (joinT '\\' S).length := by
      rw [hX]
      simp
    rw [winNormalize_eq]
    have hlen0 : (('\\' :: (joinT '\\' S ++ (if tb then ['\\'] else []))).length == 0)
        = false := by simp
    have hlen1 : (('\\' :: (joinT '\\' S ++ (if tb then ['\\'] else []))).length == 1)
        = false := by
      refine beq_eq_false_iff_ne.mpr ?_
      simp only [List.length_cons, List.length_append]
      omega
    rw [hlen0, hlen1]
    simp only [Bool.false_eq_true, if_false]
    rw [show codeAt ('\\' :: (joinT '\\' S ++ (if tb then ['\\'] else []))) 0 =
      some '\\'.toNat from codeAt_cons_zero _ _]
    rw [if_pos (by decide : isSepO isPathSeparator (some '\\'.toNat) = true)]
    have h1 : codeAt ('\\' :: (joinT '\\' S ++ (if tb then ['\\'] else []))) 1 =
        some b0.toNat := by
      rw [show (1 : Nat) = 0 + 1 from rfl, codeAt_cons_succ, hX, List.cons_append]
      exact codeAt_cons_zero _ _
    rw [h1, show isSepO isPathSeparator (some b0.toNat) = isPathSeparator b0.toNat
      from rfl, hb0]
    simp only [Bool.false_eq_true, if_false]
    have hre := winNormTail_reassemble ('\\' :: (joinT '\\' S ++
        (if tb then ['\\'] else []))) 1 S true false tb hgood hSne
      (by simp only [List.length_cons, List.length_append]; omega)
      (by simp)
      (assembled_last ['\\'] hgood hSne tb)
    rw [hre.1]
    simp

theorem winNorm_idem_abs_drive (X : Char) (hX : isWindowsDeviceRoot X.toNat = true)
    (T : List Char) (hT : Tail2Form true T) :
    winNormalize (X :: ':' :: '\\' :: T) = X :: ':' :: '\\' :: T := by
  have hXsep : isPathSeparator X.toNat = false := wdro_not_sep hX
  have hdrive : ∀ (Z : List Char),
      (isWDRO (codeAt (X :: ':' :: '\\' :: Z) 0) &&
        codeAt (X :: ':' :: '\\' :: Z) 1 == some CHAR_COLON) = true := by
    intro Z
    rw [show isWDRO (codeAt (X :: ':' :: '\\' :: Z) 0) = isWindowsDeviceRoot X.toNat
      from rfl, hX]
    rfl
  have hsep2 : ∀ (Z : List Char),
      ((X :: ':' :: '\\' :: Z).length > 2 &&
        isSepO isPathSeparator (codeAt (X :: ':' :: '\\' :: Z) 2)) = true := by
    intro Z
    have hc2 : codeAt (X :: ':' :: '\\' :: Z) 2 = some '\\'.toNat := by
      rw [show (2 : Nat) = 1 + 1 from rfl, codeAt_cons_succ,
        show (1 : Nat) = 0 + 1 from rfl, codeAt_cons_succ]
      exact codeAt_cons_zero _ _
    rw [hc2, show isSepO isPathSeparator (some '\\'.toNat) = true from by decide]
    simp only [List.length_cons, Bool.and_true]
    simp
  have hsep0 : ∀ (Z : List Char),
      isSepO isPathSeparator (codeAt (X :: ':' :: '\\' :: Z) 0) = false := by
    intro Z
    rw [show isSepO isPathSeparator (codeAt (X :: ':' :: '\\' :: Z) 0) =
      isPathSeparator X.toNat from rfl]
    exact hXsep
  rcases hT with ⟨-, rfl⟩ | ⟨habs, -⟩ | ⟨S, tb, hgood, hSne, rfl⟩
  · rw [winNormalize_eq, hsep0 [], hdrive [], hsep2 []]
    simp only [Bool.false_eq_true, if_false, if_true]
    rw [show ((X :: ':' :: '\\' :: ([] : List Char)).length == 0) = false from rfl,
      show ((X :: ':' :: '\\' :: ([] : List Char)).length == 1) = false from rfl]
    simp only [Bool.false_eq_true, if_false]
    have he := winNormTail_abs_empty (X :: ':' :: '\\' :: []) 3
      (fun h => absurd h (by simp))
    rw [show (X :: ':' :: '\\' :: ([] : List Char)).take 2 = [X, ':'] from rfl, he.2]
    rfl
  · exact absurd habs (by decide)
  · obtain ⟨b0, Xb, hXb, hb0⟩ := joinT_first_char '\\' hgood hSne
    have hJlen : 0 < (joinT '\\' S).length := by
      rw [hXb]
      simp
    rw [winNormalize_eq, hsep0 _, hdrive _, hsep2 _]
    simp only [Bool.false_eq_true, if_false, if_true]
    have hlen0 : ((X :: ':' :: '\\' :: (joinT '\\' S ++
        (if tb then ['\\'] else []))).length == 0) = false := by simp
    have hlen1 : ((X :: ':' :: '\\' :: (joinT '\\' S ++
        (if tb then ['\\'] else []))).length == 1) = false := by
      refine beq_eq_false_iff_ne.mpr ?_
      simp
    rw [hlen0, hlen1]
    simp only [Bool.false_eq_true, if_false]
    have hre := winNormTail_reassemble (X :: ':' :: '\\' :: (joinT '\\' S ++
        (if tb then ['\\'] else []))) 3 S true false tb hgood hSne
      (by simp only [List.length_cons, List.length_append]; omega)
      (by simp)
      (assembled_last [X, ':', '\\'] hgood hSne tb)
    rw [show (X :: ':' :: '\\' :: (joinT '\\' S ++ (if tb then ['\\'] else []))).take 2
      = [X, ':'] from rfl, hre.2]
    simp

theorem winNorm_idem_abs_unc (sv sh : List Char) (hsvne : sv ≠ [])
    (hsvf : SepFree isPathSeparator sv) (hshne : sh ≠ [])
    (hshf : SepFree isPathSeparator sh) (T : List Char) (hT : Tail2Form true T) :
    winNormalize ('\\' :: '\\' :: (sv ++ '\\' :: (sh ++ '\\' :: T))) =
      '\\' :: '\\' :: (sv ++ '\\' :: (sh ++ '\\' :: T)) := by
  have hsvlen : 0 < sv.length := List.length_pos.mpr hsvne
  have hshlen : 0 < sh.length := List.length_pos.mpr hshne
  obtain ⟨s0, sh', rfl⟩ : ∃ s0 sh', sh = s0 :: sh' := by
    cases sh with
    | nil => exact absurd rfl hshne
    | cons a b => exact ⟨a, b, rfl⟩
  have holen : ('\\' :: '\\' :: (sv ++ '\\' :: ((s0 :: sh') ++ '\\' :: T))).length =
      sv.length + sh'.length + T.length + 5 := by
    simp only [List.length_cons, List.length_append]
    omega
  have hj1 : scanNonSep ('\\' :: '\\' :: (sv ++ '\\' :: ((s0 :: sh') ++ '\\' :: T))) 2 =
      2 + sv.length := by
    have h := scanNonSep_stops sv ['\\', '\\'] ('\\' :: ((s0 :: sh') ++ '\\' :: T)) hsvf
      (Or.inr ⟨'\\', (s0 :: sh') ++ '\\' :: T, rfl, by decide⟩)
    rw [show (['\\', '\\'] : List Char) ++ sv ++ ('\\' :: ((s0 :: sh') ++ '\\' :: T)) =
      '\\' :: '\\' :: (sv ++ '\\' :: ((s0 :: sh') ++ '\\' :: T)) by simp] at h
    exact h
  have hc_j1 : codeAt ('\\' :: '\\' :: (sv ++ '\\' :: ((s0 :: sh') ++ '\\' :: T)))
      (2 + sv.length) = some '\\'.toNat := by
    have h := codeAt_mid (['\\', '\\'] ++ sv) '\\' ((s0 :: sh') ++ '\\' :: T)
    rw [show ((['\\', '\\'] : List Char) ++ sv) ++ '\\' :: ((s0 :: sh') ++ '\\' :: T) =
      '\\' :: '\\' :: (sv ++ '\\' :: ((s0 :: sh') ++ '\\' :: T)) by simp,
      show ((['\\', '\\'] : List Char) ++ sv).length = 2 + sv.length by
        simp only [List.length_append, List.length_cons, List.length_nil]
        try omega] at h
    exact h
  have hc_j1s : codeAt ('\\' :: '\\' :: (sv ++ '\\' :: ((s0 :: sh') ++ '\\' :: T)))
      (2 + sv.length + 1) = some s0.toNat := by
    have h := codeAt_mid (['\\', '\\'] ++ sv ++ ['\\']) s0 (sh' ++ '\\' :: T)
    rw [show ((['\\', '\\'] : List Char) ++ sv ++ ['\\']) ++ s0 :: (sh' ++ '\\' :: T) =
      '\\' :: '\\' :: (sv ++ '\\' :: ((s0 :: sh') ++ '\\' :: T)) by simp,
      show ((['\\', '\\'] : List Char) ++ sv ++ ['\\']).length = 2 + sv.length + 1 by
        simp only [List.length_append, List.length_cons, List.length_nil]
        try omega] at h
    exact h
  have hj2 : scanSep ('\\' :: '\\' :: (sv ++ '\\' :: ((s0 :: sh') ++ '\\' :: T)))
      (2 + sv.length) = 2 + sv.length + 1 := by
    refine scanSep_one _ _ (by rw [holen]; omega) (by rw [hc_j1]; decide) ?_
    rw [hc_j1s]
    exact hshf s0 (List.mem_cons_self _ _)
  have hj3 : scanNonSep ('\\' :: '\\' :: (sv ++ '\\' :: ((s0 :: sh') ++ '\\' :: T)))
      (2 + sv.length + 1) = 2 + sv.length + 1 + (s0 :: sh').length := by
    have h := scanNonSep_stops (s0 :: sh') (['\\', '\\'] ++ sv ++ ['\\']) ('\\' :: T) hshf
      (Or.inr ⟨'\\', T, rfl, by decide⟩)
    rw [show ((['\\', '\\'] : List Char) ++ sv ++ ['\\']) ++ (s0 :: sh') ++ ('\\' :: T) =
      '\\' :: '\\' :: (sv ++ '\\' :: ((s0 :: sh') ++ '\\' :: T)) by simp,
      show ((['\\', '\\'] : List Char) ++ sv ++ ['\\']).length = 2 + sv.length + 1 by
        simp only [List.length_append, List.length_cons, List.length_nil]
        try omega] at h
    exact h
  have hsv_slice : sliceNat ('\\' :: '\\' :: (sv ++ '\\' :: ((s0 :: sh') ++ '\\' :: T)))
      2 (2 + sv.length) = sv := by
    have h := sliceNat_mid ['\\', '\\'] sv ('\\' :: ((s0 :: sh') ++ '\\' :: T))
    rw [show (['\\', '\\'] : List Char) ++ sv ++ ('\\' :: ((s0 :: sh') ++ '\\' :: T)) =
      '\\' :: '\\' :: (sv ++ '\\' :: ((s0 :: sh') ++ '\\' :: T)) by simp] at h
    exact h
  have hsh_slice : sliceNat ('\\' :: '\\' :: (sv ++ '\\' :: ((s0 :: sh') ++ '\\' :: T)))
      (2 + sv.length + 1) (2 + sv.length + 1 + (s0 :: sh').length) = s0 :: sh' := by
    have h := sliceNat_mid (['\\', '\\'] ++ sv ++ ['\\']) (s0 :: sh') ('\\' :: T)
    rw [show ((['\\', '\\'] : List Char) ++ sv ++ ['\\']) ++ (s0 :: sh') ++ ('\\' :: T) =
      '\\' :: '\\' :: (sv ++ '\\' :: ((s0 :: sh') ++ '\\' :: T)) by simp,
      show ((['\\', '\\'] : List Char) ++ sv ++ ['\\']).length = 2 + sv.length + 1 by
        simp only [List.length_append, List.length_cons, List.length_nil]
        try omega] at h
    exact h
  rw [winNormalize_eq]
  rw [show codeAt ('\\' :: '\\' :: (sv ++ '\\' :: ((s0 :: sh') ++ '\\' :: T))) 0 =
    some '\\'.toNat from codeAt_cons_zero _ _]
  rw [show codeAt ('\\' :: '\\' :: (sv ++ '\\' :: ((s0 :: sh') ++ '\\' :: T))) 1 =
    some '\\'.toNat from by
      rw [show (1 : Nat) = 0 + 1 from rfl, codeAt_cons_succ]
      exact codeAt_cons_zero _ _]
  rw [if_pos (by decide : isSepO isPathSeparator (some '\\'.toNat) = true)]
  rw [if_pos (by decide : isSepO isPathSeparator (some '\\'.toNat) = true)]
  have hlen0 : (('\\' :: '\\' :: (sv ++ '\\' :: ((s0 :: sh') ++ '\\' :: T))).length == 0)
      = false := by
    refine beq_eq_false_iff_ne.mpr ?_
    rw [holen]
    omega
  have hlen1 : (('\\' :: '\\' :: (sv ++ '\\' :: ((s0 :: sh') ++ '\\' :: T))).length == 1)
      = false := by
    refine beq_eq_false_iff_ne.mpr ?_
    rw [holen]
    omega
  rw [hlen0, hlen1]
  simp only [Bool.false_eq_true, if_false]
  rw [hj1, hj2, hj3, hsv_slice, hsh_slice]
  have hc1 : (2 + sv.length < ('\\' :: '\\' :: (sv ++ '\\' ::
      ((s0 :: sh') ++ '\\' :: T))).length && ((2 + sv.length : Nat) != 2)) = true := by
    rw [holen]
    simp only [Bool.and_eq_true, decide_eq_true_eq, bne_iff_ne]
    exact ⟨by omega, by omega⟩
  rw [hc1]
  simp only [if_true]
  have hc2 : (2 + sv.length + 1 < ('\\' :: '\\' :: (sv ++ '\\' ::
      ((s0 :: sh') ++ '\\' :: T))).length &&
      ((2 + sv.length + 1 : Nat) != 2 + sv.length)) = true := by
    rw [holen]
    simp only [Bool.and_eq_true, decide_eq_true_eq, bne_iff_ne, List.length_cons]
    exact ⟨by omega, by omega⟩
  rw [hc2]
  simp only [if_true]
  have hc3 : ((2 + sv.length + 1 + (s0 :: sh').length : Nat) ==
      ('\\' :: '\\' :: (sv ++ '\\' :: ((s0 :: sh') ++ '\\' :: T))).length) = false := by
    refine beq_eq_false_iff_ne.mpr ?_
    rw [holen]
    simp only [List.length_cons]
    omega
  rw [hc3]
  simp only [Bool.false_eq_true, if_false]
  have hc4 : ((2 + sv.length + 1 + (s0 :: sh').length : Nat) !=
      2 + sv.length + 1) = true := by
    simp only [bne_iff_ne, List.length_cons]
    omega
  rw [hc4]
  simp only [if_true]
  rcases hT with ⟨-, rfl⟩ | ⟨habs, -⟩ | ⟨S, tb, hgood, hSne, rfl⟩
  · have he := winNormTail_abs_empty
      ('\\' :: '\\' :: (sv ++ '\\' :: ((s0 :: sh') ++ '\\' :: ([] : List Char))))
      (2 + sv.length + 1 + (s0 :: sh').length) ?side
    case side =>
      intro hlt
      rw [show ('\\' :: '\\' :: (sv ++ '\\' :: ((s0 :: sh') ++ '\\' :: ([] : List Char))))
          = ('\\' :: '\\' :: (sv ++ '\\' :: (s0 :: sh'))) ++ ['\\'] by simp,
        show 2 + sv.length + 1 + (s0 :: sh').length =
          ('\\' :: '\\' :: (sv ++ '\\' :: (s0 :: sh'))).length by
          simp only [List.length_cons, List.length_append]
          try omega,
        List.drop_left]
      decide
    rw [he.2]
    simp
  · exact absurd habs (by decide)
  · have hD : ('\\' :: '\\' :: (sv ++ '\\' :: ((s0 :: sh') ++ '\\' ::
        (joinT '\\' S ++ (if tb then ['\\'] else []))))) =
        ('\\' :: '\\' :: (sv ++ '\\' :: (s0 :: sh'))) ++
          ('\\' :: (joinT '\\' S ++ (if tb then ['\\'] else []))) := by
      simp
    have hDlen : 2 + sv.length + 1 + (s0 :: sh').length =
        ('\\' :: '\\' :: (sv ++ '\\' :: (s0 :: sh'))).length := by
      simp only [List.length_cons, List.length_append]
      try omega
    obtain ⟨b0, X, hX, hb0⟩ := joinT_first_char '\\' hgood hSne
    have hJlen : 0 < (joinT '\\' S).length := by
      rw [hX]
      simp
    have hre := winNormTail_reassemble
      ('\\' :: '\\' :: (sv ++ '\\' :: ((s0 :: sh') ++ '\\' ::
        (joinT '\\' S ++ (if tb then ['\\'] else [])))))
      (2 + sv.length + 1 + (s0 :: sh').length) S true true tb hgood hSne
      (by rw [holen]; simp only [List.length_cons]; omega)
      (by
        rw [hD, hDlen, List.drop_left]
        simp)
      (by
        have h := assembled_last ('\\' :: '\\' :: (sv ++ '\\' :: ((s0 :: sh') ++ ['\\'])))
          hgood hSne tb
        rw [show ('\\' :: '\\' :: (sv ++ '\\' :: ((s0 :: sh') ++ ['\\']))) ++
          (joinT '\\' S ++ (if tb then ['\\'] else [])) =
          '\\' :: '\\' :: (sv ++ '\\' :: ((s0 :: sh') ++ '\\' ::
            (joinT '\\' S ++ (if tb then ['\\'] else [])))) by simp] at h
        exact h)
    rw [hre.2]
    simp

theorem winNorm_idem_rel_nodev (T : List Char) (hT : Tail2Form false T)
    (hnd : ¬ (isWDRO (codeAt T 0) = true ∧ codeAt T 1 = some CHAR_COLON)) :
    winNormalize T = T := by
  rcases hT with ⟨habs, -⟩ | ⟨-, hdot⟩ | ⟨S, tb, hgood, hSne, rfl⟩
  · exact absurd habs (by decide)
  · rcases hdot with rfl | rfl
    · decide
    · decide
  · obtain ⟨b0, X, hX, hb0⟩ := joinT_first_char '\\' hgood hSne
    have hJlen : 0 < (joinT '\\' S).length := by
      rw [hX]
      simp
    have hb0p : isPosixPathSeparator b0.toNat = false := not_sep_not_posix hb0
    have hT0 : codeAt (joinT '\\' S ++ (if tb then ['\\'] else [])) 0 =
        some b0.toNat := by
      rw [hX, List.cons_append]
      exact codeAt_cons_zero _ _
    by_cases hone : (joinT '\\' S ++ (if tb then ['\\'] else [])).length = 1
    · obtain ⟨c, hc⟩ : ∃ c, joinT '\\' S ++ (if tb then ['\\'] else []) = [c] :=
        List.length_eq_one.mp hone
      have hcb : c = b0 := by
        have := hT0
        rw [hc] at this
        exact char_toNat_inj (by injection this)
      rw [hc, hcb]
      exact winNorm_singleton b0 hb0p
    · rw [winNormalize_eq]
      have hlen0 : ((joinT '\\' S ++ (if tb then ['\\'] else [])).length == 0)
          = false := by
        refine beq_eq_false_iff_ne.mpr ?_
        simp only [List.length_append]
        omega
      have hlen1 : ((joinT '\\' S ++ (if tb then ['\\'] else [])).length == 1)
          = false := beq_eq_false_iff_ne.mpr hone
      rw [hlen0, hlen1]
      simp only [Bool.false_eq_true, if_false]
      rw [hT0, show isSepO isPathSeparator (some b0.toNat) = isPathSeparator b0.toNat
        from rfl, hb0]
      simp only [Bool.false_eq_true, if_false]
      have hdrv : (isWDRO (some b0.toNat) &&
          codeAt (joinT '\\' S ++ (if tb then ['\\'] else [])) 1 ==
            some CHAR_COLON) = false := by
        cases hcase : (isWDRO (some b0.toNat) &&
            codeAt (joinT '\\' S ++ (if tb then ['\\'] else [])) 1 ==
              some CHAR_COLON) with
        | false => rfl
        | true =>
          exfalso
          simp only [Bool.and_eq_true, beq_iff_eq] at hcase
          refine hnd ⟨?_, hcase.2⟩
          rw [hT0]
          exact hcase.1
      rw [hdrv]
      simp only [Bool.false_eq_true, if_false]
      have hre := winNormTail_reassemble (joinT '\\' S ++ (if tb then ['\\'] else []))
        0 S false false tb hgood hSne
        (by simp only [List.length_append]; omega)
        (by simp)
        (assembled_last [] hgood hSne tb)
      rw [hre.1]
      simp

theorem winNorm_idem_rel_drive (X : Char) (hX : isWindowsDeviceRoot X.toNat = true)
    (T : List Char) (hT : Tail2Form false T) :
    winNormalize (X :: ':' :: T) = X :: ':' :: T := by
  have hXsep : isPathSeparator X.toNat = false := wdro_not_sep hX
  have hsep0 : ∀ (Z : List Char),
      isSepO isPathSeparator (codeAt (X :: ':' :: Z) 0) = false := by
    intro Z
    rw [show isSepO isPathSeparator (codeAt (X :: ':' :: Z) 0) =
      isPathSeparator X.toNat from rfl]
    exact hXsep
  have hc1' : ∀ (Z : List Char), codeAt (X :: ':' :: Z) 1 = some ':'.toNat := by
    intro Z
    rw [show (1 : Nat) = 0 + 1 from rfl, codeAt_cons_succ]
    exact codeAt_cons_zero _ _
  have hdrive : ∀ (Z : List Char),
      (isWDRO (codeAt (X :: ':' :: Z) 0) &&
        codeAt (X :: ':' :: Z) 1 == some CHAR_COLON) = true := by
    intro Z
    rw [show isWDRO (codeAt (X :: ':' :: Z) 0) = isWindowsDeviceRoot X.toNat
      from rfl, hX, hc1' Z]
    decide
  have hc2 : ∀ (c : Char) (Z : List Char),
      codeAt (X :: ':' :: c :: Z) 2 = some c.toNat := by
    intro c Z
    rw [show (2 : Nat) = 1 + 1 from rfl, codeAt_cons_succ,
      show (1 : Nat) = 0 + 1 from rfl, codeAt_cons_succ]
    exact codeAt_cons_zero _ _
  rcases hT with ⟨habs, -⟩ | ⟨-, hdot⟩ | ⟨S, tb, hgood, hSne, rfl⟩
  · exact absurd habs (by decide)
  · rcases hdot with rfl | rfl
    · rw [winNormalize_eq, hsep0 _, hdrive _]
      simp only [Bool.false_eq_true, if_false, if_true]
      rw [show ((X :: ':' :: ['.']).length == 0) = false from rfl,
        show ((X :: ':' :: ['.']).length == 1) = false from rfl]
      simp only [Bool.false_eq_true, if_false]
      rw [hc2 '.' []]
      rw [show isSepO isPathSeparator (some '.'.toNat) = false from by decide,
        Bool.and_false]
      simp only [Bool.false_eq_true, if_false]
      rw [show (X :: ':' :: ['.']).take 2 = [X, ':'] from rfl]
      unfold winNormTail
      rw [if_pos (by simp : 2 < (X :: ':' :: ['.']).length)]
      rw [show (X :: ':' :: ['.']).drop 2 = ['.'] from rfl]
      rw [show normalizeString ['.'] (!false) '\\' isPathSeparator = [] from by decide]
      rw [show codeAt (X :: ':' :: ['.']) ((X :: ':' :: ['.']).length - 1) =
        some '.'.toNat from hc2 '.' []]
      rfl
    · rw [winNormalize_eq, hsep0 _, hdrive _]
      simp only [Bool.false_eq_true, if_false, if_true]
      rw [show ((X :: ':' :: ['.', '\\']).length == 0) = false from rfl,
        show ((X :: ':' :: ['.', '\\']).length == 1) = false from rfl]
      simp only [Bool.false_eq_true, if_false]
      rw [hc2 '.' ['\\']]
      rw [show isSepO isPathSeparator (some '.'.toNat) = false from by decide,
        Bool.and_false]
      simp only [Bool.false_eq_true, if_false]
      rw [show (X :: ':' :: ['.', '\\']).take 2 = [X, ':'] from rfl]
      unfold winNormTail
      rw [if_pos (by simp : 2 < (X :: ':' :: ['.', '\\']).length)]
      rw [show (X :: ':' :: ['.', '\\']).drop 2 = ['.', '\\'] from rfl]
      rw [show normalizeString ['.', '\\'] (!false) '\\' isPathSeparator = [] from by
        decide]
      rw [show codeAt (X :: ':' :: ['.', '\\']) ((X :: ':' :: ['.', '\\']).length - 1) =
        some '\\'.toNat from by
          rw [show (X :: ':' :: ['.', '\\']).length - 1 = 3 from rfl]
          rw [show (3 : Nat) = 2 + 1 from rfl, codeAt_cons_succ,
            show (2 : Nat) = 1 + 1 from rfl, codeAt_cons_succ,
            show (1 : Nat) = 0 + 1 from rfl, codeAt_cons_succ]
          exact codeAt_cons_zero _ _]
      rfl
  · obtain ⟨b0, Xb, hXb, hb0⟩ := joinT_first_char '\\' hgood hSne
    have hJlen : 0 < (joinT '\\' S).length := by
      rw [hXb]
      simp
    rw [winNormalize_eq, hsep0 _, hdrive _]
    simp only [Bool.false_eq_true, if_false, if_true]
    have hlen0 : ((X :: ':' :: (joinT '\\' S ++ (if tb then ['\\'] else []))).length
        == 0) = false := by simp
    have hlen1 : ((X :: ':' :: (joinT '\\' S ++ (if tb then ['\\'] else []))).length
        == 1) = false := by
      refine beq_eq_false_iff_ne.mpr ?_
      simp
    rw [hlen0, hlen1]
    simp only [Bool.false_eq_true, if_false]
    have hcT : codeAt (X :: ':' :: (joinT '\\' S ++ (if tb then ['\\'] else []))) 2 =
        some b0.toNat := by
      rw [hXb, List.cons_append]
      exact hc2 b0 _
    rw [hcT]
    have hcond : ((X :: ':' :: (joinT '\\' S ++ (if tb then ['\\'] else []))).length > 2
        && isSepO isPathSeparator (some b0.toNat)) = false := by
      rw [show isSepO isPathSeparator (some b0.toNat) = isPathSeparator b0.toNat
        from rfl, hb0]
      simp
    rw [hcond]
    simp only [Bool.false_eq_true, if_false]
    have hre := winNormTail_reassemble
      (X :: ':' :: (joinT '\\' S ++ (if tb then ['\\'] else []))) 2 S false false tb
      hgood hSne
      (by simp only [List.length_cons, List.length_append]; omega)
      (by simp)
      (assembled_last [X, ':'] hgood hSne tb)
    rw [show (X :: ':' :: (joinT '\\' S ++ (if tb then ['\\'] else []))).take 2 =
      [X, ':'] from rfl, hre.2]
    simp

theorem winNormalize_idem (p : List Char)
    (h : WinRooted p ∨ ¬ driveRelLike (winNormalize p)) :
    winNormalize (winNormalize p) = winNormalize p := by
  by_cases h0 : (p.length == 0) = true
  · have hw : winNormalize p = ['.'] := by
      rw [winNormalize_eq, if_pos h0]
    rw [hw]
    decide
  · by_cases h1 : (p.length == 1) = true
    · obtain ⟨c, rfl⟩ : ∃ c, p = [c] := List.length_eq_one.mp (by simpa using h1)
      by_cases hps : isSepO isPosixPathSeparator (codeAt [c] 0) = true
      · have hw : winNormalize [c] = ['\\'] := by
          rw [winNormalize_eq]
          rw [show (([c] : List Char).length == 0) = false from rfl,
            show (([c] : List Char).length == 1) = true from rfl]
          simp only [Bool.false_eq_true, if_false, if_true]
          rw [if_pos hps]
        rw [hw]
        decide
      · have hf : isPosixPathSeparator c.toNat = false := by
          have : isSepO isPosixPathSeparator (codeAt [c] 0) =
              isPosixPathSeparator c.toNat := rfl
          rw [← this]
          simpa using hps
        have hw : winNormalize [c] = [c] := winNorm_singleton c hf
        rw [hw]
        exact hw
    · have h0f : (p.length == 0) = false := by simpa using h0
      have h1f : (p.length == 1) = false := by simpa using h1
      have hplen : 2 ≤ p.length := by
        have ha := beq_eq_false_iff_ne.mp h0f
        have hb := beq_eq_false_iff_ne.mp h1f
        omega
      rw [winNormalize_eq p, h0f, h1f]
      simp only [Bool.false_eq_true, if_false]
      by_cases hs0 : isSepO isPathSeparator (codeAt p 0) = true
      · rw [if_pos hs0]
        by_cases hs1 : isSepO isPathSeparator (codeAt p 1) = true
        · rw [if_pos hs1]
          by_cases hJ1 : (scanNonSep p 2 < p.length && scanNonSep p 2 != 2) = true
          · rw [if_pos hJ1]
            obtain ⟨hJ1a, hJ1b⟩ : scanNonSep p 2 < p.length ∧ scanNonSep p 2 ≠ 2 := by
              simpa [Bool.and_eq_true, bne_iff_ne] using hJ1
            have hspec2 := scanNonSep_spec p (p.length - 2) 2 (le_refl _)
            have h2le : 2 ≤ scanNonSep p 2 := hspec2.1
            have hsvf : SepFree isPathSeparator (sliceNat p 2 (scanNonSep p 2)) :=
              hspec2.2.2.1
            have hsvlen : (sliceNat p 2 (scanNonSep p 2)).length =
                scanNonSep p 2 - 2 := sliceNat_len p 2 _ h2le (by omega)
            have hsvne : sliceNat p 2 (scanNonSep p 2) ≠ [] := by
              intro hnil
              rw [hnil] at hsvlen
              simp only [List.length_nil] at hsvlen
              omega
            by_cases hJ2 : (scanSep p (scanNonSep p 2) < p.length &&
                scanSep p (scanNonSep p 2) != scanNonSep p 2) = true
            · rw [if_pos hJ2]
              obtain ⟨hJ2a, hJ2b⟩ : scanSep p (scanNonSep p 2) < p.length ∧
                  scanSep p (scanNonSep p 2) ≠ scanNonSep p 2 := by
                simpa [Bool.and_eq_true, bne_iff_ne] using hJ2
              have hspec3 := scanNonSep_spec p
                (p.length - scanSep p (scanNonSep p 2)) (scanSep p (scanNonSep p 2))
                (le_refl _)
              by_cases hJ3 : (scanNonSep p (scanSep p (scanNonSep p 2)) ==
                  p.length) = true
              · rw [if_pos hJ3]
                have hlen : scanNonSep p (scanSep p (scanNonSep p 2)) = p.length := by
                  simpa using hJ3
                have hshf : SepFree isPathSeparator
                    (p.drop (scanSep p (scanNonSep p 2))) := by
                  have hx := hspec3.2.2.1
                  rw [hlen, sliceNat_drop] at hx
                  exact hx
                have hshne : p.drop (scanSep p (scanNonSep p 2)) ≠ [] := by
                  have hx : (p.drop (scanSep p (scanNonSep p 2))).length =
                      p.length - scanSep p (scanNonSep p 2) := by simp
                  intro hnil
                  rw [hnil] at hx
                  simp only [List.length_nil] at hx
                  omega
                have hmain := winNorm_idem_abs_unc (sliceNat p 2 (scanNonSep p 2))
                  (p.drop (scanSep p (scanNonSep p 2))) hsvne hsvf hshne hshf []
                  (Or.inl ⟨rfl, rfl⟩)
                rw [show ('\\' :: '\\' :: sliceNat p 2 (scanNonSep p 2) ++
                  '\\' :: (p.drop (scanSep p (scanNonSep p 2))) ++ ['\\']) =
                  '\\' :: '\\' :: (sliceNat p 2 (scanNonSep p 2) ++
                    '\\' :: ((p.drop (scanSep p (scanNonSep p 2))) ++
                      '\\' :: ([] : List Char))) by simp]
                exact hmain
              · have hJ3f : (scanNonSep p (scanSep p (scanNonSep p 2)) ==
                    p.length) = false := by simpa using hJ3
                rw [hJ3f]
                simp only [Bool.false_eq_true, if_false]
                by_cases hJ4 : (scanNonSep p (scanSep p (scanNonSep p 2)) !=
                    scanSep p (scanNonSep p 2)) = true
                · rw [if_pos hJ4]
                  obtain ⟨T, hTform, -, hTsome⟩ := winNormTail_form p true
                    (scanNonSep p (scanSep p (scanNonSep p 2)))
                  rw [hTsome]
                  simp only [if_true]
                  have hshf : SepFree isPathSeparator
                      (sliceNat p (scanSep p (scanNonSep p 2))
                        (scanNonSep p (scanSep p (scanNonSep p 2)))) := hspec3.2.2.1
                  have hj3ge := hspec3.1
                  have hj3le : scanNonSep p (scanSep p (scanNonSep p 2)) ≤ p.length :=
                    hspec3.2.1 (by omega)
                  have hj3ne : scanNonSep p (scanSep p (scanNonSep p 2)) ≠
                      scanSep p (scanNonSep p 2) := by
                    simpa [bne_iff_ne] using hJ4
                  have hshlen : (sliceNat p (scanSep p (scanNonSep p 2))
                      (scanNonSep p (scanSep p (scanNonSep p 2)))).length =
                      scanNonSep p (scanSep p (scanNonSep p 2)) -
                        scanSep p (scanNonSep p 2) :=
                    sliceNat_len p _ _ hj3ge hj3le
                  have hshne : sliceNat p (scanSep p (scanNonSep p 2))
                      (scanNonSep p (scanSep p (scanNonSep p 2))) ≠ [] := by
                    intro hnil
                    rw [hnil] at hshlen
                    simp only [List.length_nil] at hshlen
                    omega
                  have hmain := winNorm_idem_abs_unc (sliceNat p 2 (scanNonSep p 2))
                    (sliceNat p (scanSep p (scanNonSep p 2))
                      (scanNonSep p (scanSep p (scanNonSep p 2))))
                    hsvne hsvf hshne hshf T hTform
                  rw [show ('\\' :: '\\' :: sliceNat p 2 (scanNonSep p 2) ++
                    '\\' :: sliceNat p (scanSep p (scanNonSep p 2))
                      (scanNonSep p (scanSep p (scanNonSep p 2)))) ++ '\\' :: T =
                    '\\' :: '\\' :: (sliceNat p 2 (scanNonSep p 2) ++
                      '\\' :: (sliceNat p (scanSep p (scanNonSep p 2))
                        (scanNonSep p (scanSep p (scanNonSep p 2))) ++ '\\' :: T))
                    by simp]
                  exact hmain
                · have hJ4f : (scanNonSep p (scanSep p (scanNonSep p 2)) !=
                      scanSep p (scanNonSep p 2)) = false := by simpa using hJ4
                  rw [hJ4f]
                  simp only [Bool.false_eq_true, if_false]
                  obtain ⟨T, hTform, hTnone, -⟩ := winNormTail_form p true 0
                  rw [hTnone]
                  simp only [if_true]
                  exact winNorm_idem_abs_nodev T hTform
            · have hJ2f : (scanSep p (scanNonSep p 2) < p.length &&
                  scanSep p (scanNonSep p 2) != scanNonSep p 2) = false := by
                simpa using hJ2
              rw [hJ2f]
              simp only [Bool.false_eq_true, if_false]
              obtain ⟨T, hTform, hTnone, -⟩ := winNormTail_form p true 0
              rw [hTnone]
              simp only [if_true]
              exact winNorm_idem_abs_nodev T hTform
          · have hJ1f : (scanNonSep p 2 < p.length && scanNonSep p 2 != 2) = false := by
              simpa using hJ1
            rw [hJ1f]
            simp only [Bool.false_eq_true, if_false]
            obtain ⟨T, hTform, hTnone, -⟩ := winNormTail_form p true 0
            rw [hTnone]
            simp only [if_true]
            exact winNorm_idem_abs_nodev T hTform
        · have hs1f : isSepO isPathSeparator (codeAt p 1) = false := by simpa using hs1
          rw [hs1f]
          simp only [Bool.false_eq_true, if_false]
          obtain ⟨T, hTform, hTnone, -⟩ := winNormTail_form p true 1
          rw [hTnone]
          simp only [if_true]
          exact winNorm_idem_abs_nodev T hTform
      · have hs0f : isSepO isPathSeparator (codeAt p 0) = false := by simpa using hs0
        rw [hs0f]
        simp only [Bool.false_eq_true, if_false]
        by_cases hdrv : (isWDRO (codeAt p 0) && codeAt p 1 == some CHAR_COLON) = true
        · rw [if_pos hdrv]
          obtain ⟨hdw, hdc⟩ : isWDRO (codeAt p 0) = true ∧
              codeAt p 1 = some CHAR_COLON := by
            simpa [Bool.and_eq_true, beq_iff_eq] using hdrv
          obtain ⟨c0, p', rfl⟩ : ∃ c0 p', p = c0 :: p' := by
            cases p with
            | nil => exact absurd hplen (by simp)
            | cons a b => exact ⟨a, b, rfl⟩
          obtain ⟨c1, p'', rfl⟩ : ∃ c1 p'', p' = c1 :: p'' := by
            cases p' with
            | nil => exact absurd hplen (by simp)
            | cons a b => exact ⟨a, b, rfl⟩
          have hc1v : codeAt (c0 :: c1 :: p'') 1 = some c1.toNat := by
            rw [show (1 : Nat) = 0 + 1 from rfl, codeAt_cons_succ]
            exact codeAt_cons_zero _ _
          have hc1 : c1 = ':' := by
            rw [hc1v] at hdc
            injection hdc with hdc'
            exact char_toNat_inj (hdc'.trans (by decide))
          subst hc1
          have hdw' : isWindowsDeviceRoot c0.toNat = true := by
            have hx : isWDRO (codeAt (c0 :: ':' :: p'') 0) =
                isWindowsDeviceRoot c0.toNat := rfl
            rw [hx] at hdw
            exact hdw
          by_cases h3 : ((c0 :: ':' :: p'').length > 2 &&
              isSepO isPathSeparator (codeAt (c0 :: ':' :: p'') 2)) = true
          · rw [if_pos h3]
            obtain ⟨T, hTform, -, hTsome⟩ := winNormTail_form (c0 :: ':' :: p'') true 3
            rw [hTsome]
            simp only [if_true]
            rw [show (c0 :: ':' :: p'').take 2 = [c0, ':'] from rfl]
            have hmain := winNorm_idem_abs_drive c0 hdw' T hTform
            rw [show ([c0, ':'] : List Char) ++ '\\' :: T = c0 :: ':' :: '\\' :: T
              from rfl]
            exact hmain
          · have h3f : ((c0 :: ':' :: p'').length > 2 &&
                isSepO isPathSeparator (codeAt (c0 :: ':' :: p'') 2)) = false := by
              simpa using h3
            rw [h3f]
            simp only [Bool.false_eq_true, if_false]
            obtain ⟨T, hTform, -, hTsome⟩ := winNormTail_form (c0 :: ':' :: p'') false 2
            rw [hTsome]
            simp only [Bool.false_eq_true, if_false]
            rw [show (c0 :: ':' :: p'').take 2 = [c0, ':'] from rfl]
            have hmain := winNorm_idem_rel_drive c0 hdw' T hTform
            rw [show ([c0, ':'] : List Char) ++ T = c0 :: ':' :: T from rfl]
            exact hmain
        · have hdrvf : (isWDRO (codeAt p 0) && codeAt p 1 == some CHAR_COLON)
              = false := by simpa using hdrv
          rw [hdrvf]
          simp only [Bool.false_eq_true, if_false]
          obtain ⟨T, hTform, hTnone, -⟩ := winNormTail_form p false 0
          rw [hTnone]
          simp only [Bool.false_eq_true, if_false]
          refine winNorm_idem_rel_nodev T hTform ?_
          rcases h with hroot | hnd
          · exfalso
            rcases hroot with hr | ⟨hrw, hrc⟩
            · exact hs0 hr
            · refine hdrv ?_
              rw [hrw, hrc]
              decide
          · have hw : winNormalize p = T := by
              rw [winNormalize_eq p, h0f, h1f, hs0f, hdrvf]
              simp only [Bool.false_eq_true, if_false]
              exact hTnone
            rw [hw] at hnd
            exact hnd

/-- Claim C2 counterexample: win32 `normalize` is not idempotent on
`'.\\C:'` — it normalizes to `'C:'`, which normalizes again to `'C:.'`. -/
theorem c2_counterexample :
    winNormalize ".\\C:".data = "C:".data ∧
      winNormalize (winNormalize ".\\C:".data) = "C:.".data ∧
      winNormalize (winNormalize ".\\C:".data) ≠ winNormalize ".\\C:".data :=
  ⟨by decide, by decide, by decide⟩

/-- Claim C2 (amended): `posix.normalize` is idempotent on every string;
`win32.normalize` is idempotent on every string that either has a Windows
root (begins with a separator, or with a drive letter followed by a colon)
or whose normalization does not begin with a drive letter followed by a
colon.  (The excluded inputs are exactly the rootless ones that normalize
to a relative drive reference such as `'C:'`, where a second pass
re-parses the drive as a root.) -/
theorem c2_normalize_idem :
    (∀ p : List Char, posNormalize (posNormalize p) = posNormalize p) ∧
      ∀ p : List Char, (WinRooted p ∨ ¬ driveRelLike (winNormalize p)) →
        winNormalize (winNormalize p) = winNormalize p :=
  ⟨posNormalize_idem, fun p h => winNormalize_idem p h⟩

theorem c2_witness :
    (WinRooted "C:\\a\\..\\b".data ∨
        ¬ driveRelLike (winNormalize "C:\\a\\..\\b".data)) ∧
      winNormalize (winNormalize "C:\\a\\..\\b".data) =
        winNormalize "C:\\a\\..\\b".data ∧
      posNormalize (posNormalize "/a/./b//..".data) = posNormalize "/a/./b//..".data :=
  ⟨Or.inl (Or.inr ⟨by decide, by decide⟩),
    c2_normalize_idem.2 "C:\\a\\..\\b".data (Or.inl (Or.inr ⟨by decide, by decide⟩)),
    c2_normalize_idem.1 "/a/./b//..".data⟩

theorem parseScan_run2 (isSep : Nat → Bool) (p : List Char) (start : Nat) :
    ∀ (L A Rest : List Char), p = A ++ L ++ Rest → SepFree isSep L →
      start ≤ A.length →
      ∀ (sd : Int) (sp : Nat) (pd : Int) (e : Int), e ≠ -1 →
        ∃ sd' pd',
          parseScanLoop isSep p start (A.length + L.length - start) sd sp e false pd =
            parseScanLoop isSep p start (A.length - start) sd' sp e false pd' := by
  intro L
  induction L using List.reverseRecOn with
  | nil =>
    intro A Rest hp hLf hstart sd sp pd e he
    exact ⟨sd, pd, by rw [show A.length + ([] : List Char).length - start =
      A.length - start by simp]⟩
  | append_singleton L' x ih =>
    intro A Rest hp hLf hstart sd sp pd e he
    have hfuel : A.length + (L' ++ [x]).length - start =
        (A.length + L'.length - start) + 1 := by
      simp only [List.length_append, List.length_cons, List.length_nil]
      omega
    rw [hfuel, parseScanLoop_succ]
    have hi : start + (A.length + L'.length - start) = A.length + L'.length := by omega
    have hcx : codeAt p (start + (A.length + L'.length - start)) = some x.toNat := by
      rw [hi, hp, show A ++ (L' ++ [x]) ++ Rest = (A ++ L') ++ x :: Rest by simp,
        show A.length + L'.length = (A ++ L').length by simp]
      exact codeAt_mid _ _ _
    rw [hcx, show isSepO isSep (some x.toNat) = isSep x.toNat from rfl,
      hLf x (by simp)]
    simp only [Bool.false_eq_true, if_false]
    rw [if_neg (fun hh => he (beq_iff_eq.mp hh))]
    dsimp only
    exact ih A (x :: Rest) (by rw [hp]; simp) (fun s hs => hLf s (by simp [hs])) hstart
      _ sp _ e he

theorem parseScan_run1 (isSep : Nat → Bool) (p : List Char) (start : Nat)
    (L A Rest : List Char) (hp : p = A ++ L ++ Rest) (hL : SepFree isSep L)
    (hLne : L ≠ []) (hstart : start ≤ A.length) :
    ∀ (sd : Int) (sp : Nat) (pd : Int),
      ∃ sd' pd',
        parseScanLoop isSep p start (A.length + L.length - start) sd sp (-1) true pd =
          parseScanLoop isSep p start (A.length - start) sd' sp
            ((A.length + L.length : Nat) : Int) false pd' := by
  obtain ⟨L', x, rfl⟩ := exists_concat_of_ne_nil hLne
  intro sd sp pd
  have hfuel : A.length + (L' ++ [x]).length - start =
      (A.length + L'.length - start) + 1 := by
    simp only [List.length_append, List.length_cons, List.length_nil]
    omega
  rw [hfuel, parseScanLoop_succ]
  have hi : start + (A.length + L'.length - start) = A.length + L'.length := by omega
  have hcx : codeAt p (start + (A.length + L'.length - start)) = some x.toNat := by
    rw [hi, hp, show A ++ (L' ++ [x]) ++ Rest = (A ++ L') ++ x :: Rest by simp,
      show A.length + L'.length = (A ++ L').length by simp]
    exact codeAt_mid _ _ _
  rw [hcx, show isSepO isSep (some x.toNat) = isSep x.toNat from rfl,
    hL x (by simp)]
  simp only [Bool.false_eq_true, if_false]
  rw [if_pos (by rfl : ((-1 : Int) == -1) = true)]
  dsimp only
  have hcast : ((start + (A.length + L'.length - start) : Nat) : Int) + 1 =
      ((A.length + (L' ++ [x]).length : Nat) : Int) := by
    simp only [List.length_append, List.length_cons, List.length_nil]
    push_cast
    omega
  rw [hcast]
  exact parseScan_run2 isSep p start L' A (x :: Rest)
    (by rw [hp]; simp) (fun s hs => hL s (by simp [hs])) hstart _ sp _ _
    (by
      intro hbad
      have : ((A.length + (L' ++ [x]).length : Nat) : Int) ≥ 0 := by positivity
      omega)

theorem parseScan_SL1 (isSep : Nat → Bool) (A L : List Char)
    (hL : SepFree isSep L) (hLne : L ≠ []) (sp : Nat) :
    ∃ (sd' pd' : Int),
      parseScanLoop isSep (A ++ L) A.length ((A ++ L).length - A.length) (-1) sp (-1)
        true 0 = (sd', sp, ((A ++ L).length : Int), pd') := by
  obtain ⟨sd', pd', h⟩ := parseScan_run1 isSep (A ++ L) A.length L A [] (by simp) hL
    hLne (le_refl _) (-1) sp 0
  refine ⟨sd', pd', ?_⟩
  rw [show (A ++ L).length - A.length = A.length + L.length - A.length by simp, h,
    Nat.sub_self, show ((A.length + L.length : Nat) : Int) = ((A ++ L).length : Int)
      by simp]
  rfl

theorem parseScan_SL2 (isSep : Nat → Bool) (D L : List Char) (c : Char) (start : Nat)
    (hc : isSep c.toNat = true) (hL : SepFree isSep L) (hLne : L ≠ [])
    (hstart : start ≤ D.length) (sp : Nat) :
    ∃ (sd' pd' : Int),
      parseScanLoop isSep (D ++ c :: L) start ((D ++ c :: L).length - start) (-1) sp
        (-1) true 0 =
        (sd', D.length + 1, ((D ++ c :: L).length : Int), pd') := by
  obtain ⟨sd', pd', h⟩ := parseScan_run1 isSep (D ++ c :: L) start L (D ++ [c]) []
    (by simp) hL hLne
    (by simp only [List.length_append, List.length_cons, List.length_nil]; omega)
    (-1) sp 0
  have hlen1 : (D ++ [c]).length + L.length - start = (D ++ c :: L).length - start := by
    simp only [List.length_append, List.length_cons, List.length_nil]
    omega
  have hlen2 : ((D ++ [c]).length + L.length : Nat) = ((D ++ c :: L).length : Nat) := by
    simp only [List.length_append, List.length_cons, List.length_nil]
    omega
  rw [hlen1, hlen2] at h
  refine ⟨sd', pd', (?_ : parseScanLoop isSep (D ++ c :: L) start
    ((D ++ c :: L).length - start) (-1) sp (-1) true 0 = _)⟩
  rw [h, show (D ++ [c]).length - start = (D.length - start) + 1 by
      simp only [List.length_append, List.length_cons, List.length_nil]
      omega,
    parseScanLoop_succ]
  have hcc : codeAt (D ++ c :: L) (start + (D.length - start)) = some c.toNat := by
    rw [show start + (D.length - start) = D.length by omega]
    exact codeAt_mid D c L
  rw [hcc, show isSepO isSep (some c.toNat) = isSep c.toNat from rfl, hc]
  simp only [if_true, Bool.not_false]
  rw [show start + (D.length - start) + 1 = D.length + 1 by omega]

theorem goodStack_of_segs (allow : Bool) (isSep : Nat → Bool)
    (segs : List (List Char))
    (h : ∀ s ∈ segs, s ≠ [] ∧ s ≠ ['.'] ∧ s ≠ ['.', '.'] ∧ SepFree isSep s) :
    GoodStack allow isSep segs.reverse :=
  ⟨fun s hs =>
    have h' := h s (List.mem_reverse.mp hs)
    ⟨h'.1, h'.2.1, h'.2.2.2, fun _ => h'.2.2.1⟩,
    segs.reverse, [], by simp,
    fun s hs => (h s (List.mem_reverse.mp hs)).2.2.1, by simp⟩

theorem joinT_reverse_intercalate (sep : Char) (segs : List (List Char)) :
    joinT sep segs.reverse = List.intercalate [sep] segs := by
  have h := joinT_eq_intercalate sep segs.reverse
  rw [List.reverse_reverse] at h
  exact h.symm

theorem intercalate_ne_nil (sep : Char) (segs : List (List Char)) (hne : segs ≠ [])
    (h : ∀ s ∈ segs, s ≠ []) : List.intercalate [sep] segs ≠ [] := by
  obtain ⟨s0, rest, rfl⟩ : ∃ s0 rest, segs = s0 :: rest := by
    cases segs with
    | nil => exact absurd rfl hne
    | cons a b => exact ⟨a, b, rfl⟩
  cases rest with
  | nil =>
    rw [intercalate_single]
    exact h s0 (List.mem_cons_self _ _)
  | cons x xs =>
    rw [intercalate_cons₂]
    intro hcontra
    exact h s0 (List.mem_cons_self _ _) (List.append_eq_nil.mp hcontra).1

theorem exists_concat_of_ne_nil2 {α : Type} {l : List α} (h : l ≠ []) :
    ∃ Y c, l = Y ++ [c] := by
  induction l using List.reverseRecOn with
  | nil => exact absurd rfl h
  | append_singleton Y c _ => exact ⟨Y, c, rfl⟩

theorem intercalate_append_single (sep : Char) (a : List Char)
    (I : List (List Char)) (t : List Char) :
    List.intercalate [sep] ((a :: I) ++ [t]) =
      List.intercalate [sep] (a :: I) ++ sep :: t := by
  induction I generalizing a with
  | nil =>
    rw [show (a :: []) ++ [t] = [a, t] from rfl, intercalate_cons₂,
      intercalate_single, intercalate_single]
  | cons b I' ih =>
    rw [show (a :: b :: I') ++ [t] = a :: ((b :: I') ++ [t]) from rfl,
      show a :: ((b :: I') ++ [t]) = a :: (b :: (I' ++ [t])) from rfl,
      intercalate_cons₂]
    rw [show b :: (I' ++ [t]) = (b :: I') ++ [t] from rfl, ih b,
      intercalate_cons₂]
    simp [List.cons_append, List.append_assoc]

theorem cleanPos_normalize (p : List Char) (h : CleanPos p) :
    posNormalize p = p := by
  rcases h with rfl | ⟨abs, segs, hne, hgd, rfl⟩
  · decide
  · have hgood : GoodStack (!abs) isPosixPathSeparator segs.reverse :=
      goodStack_of_segs (!abs) isPosixPathSeparator segs (fun s hs => hgd s hs)
    have hrne : segs.reverse ≠ [] := by simpa using hne
    have hjne : joinT '/' segs.reverse ≠ [] :=
      joinT_ne_nil_of_good '/' hgood hrne
    have hA := posNormalize_assembled segs.reverse abs false hgood hjne
    rw [joinT_reverse_intercalate] at hA
    simpa using hA

theorem formatPath_F1 (sep : Char) (P : ParsedPath) (hd : P.dir = [])
    (hr : P.root = []) (hb : P.base ≠ []) : formatPath sep P = P.base := by
  simp [formatPath, hd, hr, hb]

theorem formatPath_F2 (sep : Char) (P : ParsedPath) (hd : P.dir = P.root)
    (hne : P.root ≠ []) (hb : P.base ≠ []) :
    formatPath sep P = P.root ++ P.base := by
  rw [formatPath]
  rw [hd]
  simp [hne, hb]

theorem formatPath_F3 (sep : Char) (P : ParsedPath) (hdne : P.dir ≠ [])
    (hdr : P.dir ≠ P.root) (hb : P.base ≠ []) :
    formatPath sep P = P.dir ++ sep :: P.base := by
  rw [formatPath]
  simp [hdne, hdr, hb]

theorem posParse_of_scan (p : List Char) (h0 : ¬ p.length = 0) (isAbsV : Bool)
    (habs : (codeAt p 0 == some CHAR_FORWARD_SLASH) = isAbsV)
    (start : Nat) (hstart : start = if isAbsV then 1 else 0)
    (sd pd : Int) (sp : Nat)
    (hscan : parseScanLoop isPosixPathSeparator p start (p.length - start) (-1) 0
      (-1) true 0 = (sd, sp, (p.length : Int), pd)) :
    (posParse p).root = (if isAbsV then ['/'] else []) ∧
      (posParse p).dir = (if sp > 0 then sliceNat p 0 (sp - 1)
        else if isAbsV then ['/'] else []) ∧
      (posParse p).base =
        sliceNat p (if (sp == 0 && isAbsV) = true then 1 else sp) p.length := by
  unfold posParse
  rw [if_neg h0]
  dsimp only
  rw [habs, ← hstart, hscan]
  dsimp only
  rw [if_pos (show (((p.length : Nat) : Int) != -1) = true from
    bne_iff_ne.mpr (by omega))]
  refine ⟨rfl, rfl, ?_⟩
  rw [show ((p.length : Nat) : Int).toNat = p.length from by omega]
  split <;> rfl

theorem posPF_single_rel (L : List Char)
    (hLf : SepFree isPosixPathSeparator L) (hLne : L ≠ []) :
    posFormat (posParse L) = L := by
  obtain ⟨l0, L', rfl⟩ : ∃ l0 L', L = l0 :: L' := by
    cases L with
    | nil => exact absurd rfl hLne
    | cons a b => exact ⟨a, b, rfl⟩
  have habs : (codeAt (l0 :: L') 0 == some CHAR_FORWARD_SLASH) = false := by
    rw [codeAt_cons_zero]
    have h := hLf l0 (List.mem_cons_self _ _)
    unfold isPosixPathSeparator at h
    refine beq_eq_false_iff_ne.mpr ?_
    intro hc
    injection hc with hc'
    exact (beq_eq_false_iff_ne.mp h) hc'
  obtain ⟨sd, pd, hscan⟩ :=
    parseScan_SL1 isPosixPathSeparator [] (l0 :: L') hLf hLne 0
  simp only [List.nil_append, List.length_nil] at hscan
  obtain ⟨hroot, hdir, hbase⟩ := posParse_of_scan (l0 :: L') (by simp) false habs
    0 rfl sd pd 0 hscan
  rw [if_neg Bool.false_ne_true] at hroot
  rw [if_neg (by omega : ¬ (0 : Nat) > 0), if_neg Bool.false_ne_true] at hdir
  rw [if_neg (by decide : ¬ ((0 == 0) && false) = true)] at hbase
  rw [sliceNat_drop, List.drop_zero] at hbase
  rw [posFormat, formatPath_F1 '/' _ hdir hroot (by rw [hbase]; exact hLne), hbase]

theorem posPF_single_abs (L : List Char)
    (hLf : SepFree isPosixPathSeparator L) (hLne : L ≠ []) :
    posFormat (posParse ('/' :: L)) = '/' :: L := by
  have habs : (codeAt ('/' :: L) 0 == some CHAR_FORWARD_SLASH) = true := by
    rw [codeAt_cons_zero]
    decide
  obtain ⟨sd, pd, hscan⟩ :=
    parseScan_SL1 isPosixPathSeparator ['/'] L hLf hLne 0
  simp only [List.singleton_append, List.length_cons, List.length_nil,
    Nat.zero_add] at hscan
  obtain ⟨hroot, hdir, hbase⟩ := posParse_of_scan ('/' :: L) (by simp) true habs
    1 rfl sd pd 0 hscan
  rw [if_pos rfl] at hroot
  rw [if_neg (by omega : ¬ (0 : Nat) > 0), if_pos rfl] at hdir
  rw [if_pos (by decide : ((0 == 0) && true) = true)] at hbase
  rw [sliceNat_drop, show ('/' :: L).drop 1 = L from rfl] at hbase
  rw [posFormat, formatPath_F2 '/' _ (hdir.trans hroot.symm)
    (by rw [hroot]; decide) (by rw [hbase]; exact hLne), hroot, hbase]
  rfl

theorem posPF_multi (D L : List Char) (hD : D ≠ []) (hDr : D ≠ ['/'])
    (hLf : SepFree isPosixPathSeparator L) (hLne : L ≠ []) :
    posFormat (posParse (D ++ '/' :: L)) = D ++ '/' :: L := by
  have hlen0 : ¬ (D ++ '/' :: L).length = 0 := by simp
  have hDpos : 0 < D.length := List.length_pos.mpr hD
  have hdirD : sliceNat (D ++ '/' :: L) 0 (D.length + 1 - 1) = D := by
    rw [show D.length + 1 - 1 = D.length from rfl]
    unfold sliceNat
    rw [List.drop_zero, Nat.sub_zero, List.take_left]
  have hbaseL : sliceNat (D ++ '/' :: L) (D.length + 1) (D ++ '/' :: L).length
      = L := by
    rw [sliceNat_drop, show D ++ '/' :: L = (D ++ ['/']) ++ L by simp,
      show D.length + 1 = (D ++ ['/']).length by simp, List.drop_left]
  have hsp0 : ((D.length + 1 : Nat) == 0) = false := by simp
  cases habs : (codeAt (D ++ '/' :: L) 0 == some CHAR_FORWARD_SLASH) with
  | true =>
    obtain ⟨sd, pd, hscan⟩ := parseScan_SL2 isPosixPathSeparator D L '/' 1
      (by decide) hLf hLne hDpos 0
    obtain ⟨hroot, hdir, hbase⟩ := posParse_of_scan (D ++ '/' :: L) hlen0 true
      habs 1 rfl sd pd (D.length + 1) hscan
    rw [if_pos rfl] at hroot
    rw [if_pos (Nat.succ_pos _), hdirD] at hdir
    rw [if_neg (by rw [hsp0]; decide), hbaseL] at hbase
    rw [posFormat, formatPath_F3 '/' _ (by rw [hdir]; exact hD)
      (by rw [hdir, hroot]; exact hDr) (by rw [hbase]; exact hLne), hdir, hbase]
  | false =>
    obtain ⟨sd, pd, hscan⟩ := parseScan_SL2 isPosixPathSeparator D L '/' 0
      (by decide) hLf hLne (Nat.zero_le _) 0
    obtain ⟨hroot, hdir, hbase⟩ := posParse_of_scan (D ++ '/' :: L) hlen0 false
      habs 0 rfl sd pd (D.length + 1) hscan
    rw [if_neg Bool.false_ne_true] at hroot
    rw [if_pos (Nat.succ_pos _), hdirD] at hdir
    rw [if_neg (by rw [hsp0]; decide), hbaseL] at hbase
    rw [posFormat, formatPath_F3 '/' _ (by rw [hdir]; exact hD)
      (by rw [hdir, hroot]; exact hD) (by rw [hbase]; exact hLne), hdir, hbase]

theorem cleanPos_format (p : List Char) (h : CleanPos p) :
    posFormat (posParse p) = p := by
  rcases h with rfl | ⟨abs, segs, hne, hgd, rfl⟩
  · decide
  · obtain ⟨init, t, rfl⟩ := exists_concat_of_ne_nil2 hne
    have hgt := hgd t (by simp)
    cases init with
    | nil =>
      rw [show (([] : List (List Char)) ++ [t]) = [t] from rfl,
        intercalate_single]
      cases abs with
      | true => exact posPF_single_abs t hgt.2.2.2 hgt.1
      | false => exact posPF_single_rel t hgt.2.2.2 hgt.1
    | cons a init' =>
      rw [intercalate_append_single, ← List.append_assoc]
      have hIne : List.intercalate ['/'] (a :: init') ≠ [] :=
        intercalate_ne_nil '/' (a :: init') (by simp)
          (fun s hs => (hgd s (List.mem_append_left _ hs)).1)
      have hgoodI : GoodStack true isPosixPathSeparator (a :: init').reverse :=
        goodStack_of_segs true isPosixPathSeparator (a :: init')
          (fun s hs => hgd s (List.mem_append_left _ hs))
      refine posPF_multi _ t ?_ ?_ hgt.2.2.2 hgt.1
      · cases abs with
        | true => simp
        | false =>
          simp only [Bool.false_eq_true, if_false, List.nil_append]
          exact hIne
      · cases abs with
        | true =>
          show ['/'] ++ List.intercalate ['/'] (a :: init') ≠ ['/']
          intro hc
          rw [List.singleton_append] at hc
          injection hc with _ hc'
          exact hIne hc'
        | false =>
          simp only [Bool.false_eq_true, if_false, List.nil_append]
          obtain ⟨b0, X, hX, hb0⟩ :=
            joinT_first_char '/' hgoodI (by simp)
          rw [joinT_reverse_intercalate] at hX
          rw [hX]
          intro hc
          injection hc with hc0 _
          rw [hc0] at hb0
          exact absurd hb0 (by decide)

theorem segTail_tail2 (isAbs : Bool) (T : List Char) (h : SegTail T) :
    Tail2Form isAbs T := by
  obtain ⟨segs, hne, hgd, rfl⟩ := h
  refine Or.inr (Or.inr ⟨segs.reverse, false, ?_, by simpa using hne, ?_⟩)
  · exact goodStack_of_segs (!isAbs) isPathSeparator segs (fun s hs => hgd s hs)
  · rw [joinT_reverse_intercalate]
    simp

theorem segTail_cases (T : List Char) (h : SegTail T) :
    (∃ t0 T', T = t0 :: T' ∧ isPathSeparator t0.toNat = false ∧
      SepFree isPathSeparator T) ∨
    (∃ i0 I' L, isPathSeparator i0.toNat = false ∧ SepFree isPathSeparator L ∧
      L ≠ [] ∧ T = (i0 :: I') ++ '\\' :: L) := by
  obtain ⟨segs, hne, hgd, rfl⟩ := h
  obtain ⟨init, t, rfl⟩ := exists_concat_of_ne_nil2 hne
  have hgt := hgd t (by simp)
  cases init with
  | nil =>
    rw [show (([] : List (List Char)) ++ [t]) = [t] from rfl, intercalate_single]
    obtain ⟨t0, T', rfl⟩ : ∃ t0 T', t = t0 :: T' := by
      cases t with
      | nil => exact absurd rfl hgt.1
      | cons a b => exact ⟨a, b, rfl⟩
    exact Or.inl ⟨t0, T', rfl, hgt.2.2.2 t0 (List.mem_cons_self _ _), hgt.2.2.2⟩
  | cons a init' =>
    rw [intercalate_append_single]
    have hgoodI : GoodStack true isPathSeparator (a :: init').reverse :=
      goodStack_of_segs true isPathSeparator (a :: init')
        (fun s hs => hgd s (List.mem_append_left _ hs))
    obtain ⟨b0, X, hX, hb0⟩ := joinT_first_char '\\' hgoodI (by simp)
    rw [joinT_reverse_intercalate] at hX
    exact Or.inr ⟨b0, X, t, hb0, hgt.2.2.2, hgt.1, by rw [hX, List.cons_append]⟩

theorem formatPath_rootDir (sep : Char) (p : List Char) (hp : p ≠ []) :
    formatPath sep ⟨p, p, [], [], []⟩ = p := by
  simp [formatPath, formatExt, hp]

theorem winParseRest_of_scan (p : List Char) (rootEnd : Nat)
    (sd pd : Int) (sp : Nat)
    (hscan : parseScanLoop isPathSeparator p rootEnd (p.length - rootEnd) (-1)
      rootEnd (-1) true 0 = (sd, sp, (p.length : Int), pd)) :
    (winParseRest p rootEnd).root = (if rootEnd > 0 then p.take rootEnd else []) ∧
      (winParseRest p rootEnd).dir = (if (sp > 0 && sp != rootEnd) = true then
        sliceNat p 0 (sp - 1) else if rootEnd > 0 then p.take rootEnd else []) ∧
      (winParseRest p rootEnd).base = sliceNat p sp p.length := by
  unfold winParseRest
  dsimp only
  rw [hscan]
  dsimp only
  rw [if_pos (show (((p.length : Nat) : Int) != -1) = true from
    bne_iff_ne.mpr (by omega))]
  refine ⟨rfl, rfl, ?_⟩
  rw [show ((p.length : Nat) : Int).toNat = p.length from by omega]
  split <;> rfl

theorem winPF_rootOnly (p : List Char) (hp : p ≠ []) :
    winFormat (winParseRest p p.length) = p := by
  unfold winParseRest
  rw [show p.length - p.length = 0 from Nat.sub_self _]
  have hscan0 : parseScanLoop isPathSeparator p p.length 0 (-1) p.length (-1)
      true 0 = (-1, p.length, -1, 0) := rfl
  rw [hscan0]
  dsimp only
  rw [if_neg (by decide : ¬ (((-1 : Int) != -1) = true))]
  rw [show (decide (p.length > 0) && ((p.length : Nat) != p.length)) = false
    from by simp]
  simp only [Bool.false_eq_true, if_false]
  rw [if_pos (List.length_pos.mpr hp), List.take_length]
  exact formatPath_rootDir '\\' p hp

theorem winPF_single (R L : List Char) (hL : SepFree isPathSeparator L)
    (hLne : L ≠ []) :
    winFormat (winParseRest (R ++ L) R.length) = R ++ L := by
  obtain ⟨sd, pd, hscan⟩ := parseScan_SL1 isPathSeparator R L hL hLne R.length
  obtain ⟨hroot, hdir, hbase⟩ :=
    winParseRest_of_scan (R ++ L) R.length sd pd R.length hscan
  rw [show ((R.length > 0 : Bool) && ((R.length : Nat) != R.length)) = false
    from by simp] at hdir
  rw [if_neg Bool.false_ne_true] at hdir
  rw [sliceNat_drop, List.drop_left] at hbase
  have hrootR : (if R.length > 0 then (R ++ L).take R.length else []) = R := by
    by_cases hR : R = []
    · subst hR
      simp
    · rw [if_pos (List.length_pos.mpr hR), List.take_left]
  rw [hrootR] at hroot hdir
  by_cases hR : R = []
  · subst hR
    rw [winFormat, formatPath_F1 '\\' _ hdir hroot (by rw [hbase]; exact hLne),
      hbase]
    simp
  · rw [winFormat, formatPath_F2 '\\' _ (hdir.trans hroot.symm)
      (by rw [hroot]; exact hR) (by rw [hbase]; exact hLne), hroot, hbase]

theorem winPF_multi (R I L : List Char) (hI : I ≠ [])
    (hL : SepFree isPathSeparator L) (hLne : L ≠ []) :
    winFormat (winParseRest ((R ++ I) ++ '\\' :: L) R.length) =
      (R ++ I) ++ '\\' :: L := by
  have hRI : R.length ≤ (R ++ I).length := by simp
  obtain ⟨sd, pd, hscan⟩ := parseScan_SL2 isPathSeparator (R ++ I) L '\\' R.length
    (by decide) hL hLne hRI R.length
  obtain ⟨hroot, hdir, hbase⟩ := winParseRest_of_scan ((R ++ I) ++ '\\' :: L)
    R.length sd pd ((R ++ I).length + 1) hscan
  rw [show (((R ++ I).length + 1 > 0 : Bool) &&
      (((R ++ I).length + 1 : Nat) != R.length)) = true from by
    refine (Bool.and_eq_true _ _).mpr ⟨decide_eq_true (Nat.succ_pos _), ?_⟩
    refine bne_iff_ne.mpr ?_
    simp only [List.length_append]
    omega] at hdir
  rw [if_pos rfl] at hdir
  have hdirD : sliceNat ((R ++ I) ++ '\\' :: L) 0 ((R ++ I).length + 1 - 1)
      = R ++ I := by
    rw [show (R ++ I).length + 1 - 1 = (R ++ I).length from rfl]
    unfold sliceNat
    rw [List.drop_zero, Nat.sub_zero, List.take_left]
  rw [hdirD] at hdir
  have hbaseL : sliceNat ((R ++ I) ++ '\\' :: L) ((R ++ I).length + 1)
      ((R ++ I) ++ '\\' :: L).length = L := by
    rw [sliceNat_drop, show (R ++ I) ++ '\\' :: L = ((R ++ I) ++ ['\\']) ++ L
      by simp, show (R ++ I).length + 1 = ((R ++ I) ++ ['\\']).length from by
        simp only [List.length_append, List.length_cons, List.length_nil]
        try omega,
      List.drop_left]
  rw [hbaseL] at hbase
  have hrootR : (if R.length > 0 then ((R ++ I) ++ '\\' :: L).take R.length
      else []) = R := by
    by_cases hR : R = []
    · subst hR
      simp
    · rw [if_pos (List.length_pos.mpr hR),
        show (R ++ I) ++ '\\' :: L = R ++ (I ++ '\\' :: L) by simp,
        List.take_left]
  rw [hrootR] at hroot
  rw [winFormat, formatPath_F3 '\\' _ (by rw [hdir]; simp [hI])
    (by
      rw [hdir, hroot]
      intro hc
      have := congrArg List.length hc
      simp only [List.length_append] at this
      exact hI (List.length_eq_zero.mp (by omega)))
    (by rw [hbase]; exact hLne), hdir, hbase]

theorem winParse_single_nonsep (c : Char) (hns : isPathSeparator c.toNat = false) :
    winParse [c] = ⟨[], [], [c], [], [c]⟩ := by
  unfold winParse
  rw [show (([c] : List Char).length == 0) = false from rfl]
  dsimp only
  rw [show (([c] : List Char).length == 1) = true from rfl]
  rw [codeAt_cons_zero,
    show isSepO isPathSeparator (some c.toNat) = isPathSeparator c.toNat from rfl,
    hns]
  simp only [Bool.false_eq_true, if_false, if_true]

theorem winParse_red_rel (p : List Char) (hlen : 1 < p.length)
    (h0 : isSepO isPathSeparator (codeAt p 0) = false)
    (hdrv : (isWDRO (codeAt p 0) && codeAt p 1 == some CHAR_COLON) = false) :
    winParse p = winParseRest p 0 := by
  unfold winParse
  rw [show (p.length == 0) = false from beq_eq_false_iff_ne.mpr (by omega)]
  dsimp only
  rw [show (p.length == 1) = false from beq_eq_false_iff_ne.mpr (by omega),
    h0, hdrv]
  simp only [Bool.false_eq_true, if_false]

theorem winParse_red_abs (p : List Char) (hlen : 1 < p.length)
    (h0 : isSepO isPathSeparator (codeAt p 0) = true)
    (h1 : isSepO isPathSeparator (codeAt p 1) = false) :
    winParse p = winParseRest p 1 := by
  unfold winParse
  rw [show (p.length == 0) = false from beq_eq_false_iff_ne.mpr (by omega)]
  dsimp only
  rw [show (p.length == 1) = false from beq_eq_false_iff_ne.mpr (by omega),
    h0, h1]
  simp only [Bool.false_eq_true, if_false, if_true]

theorem winParse_red_driveRel (p : List Char) (hlen : 2 < p.length)
    (h0 : isSepO isPathSeparator (codeAt p 0) = false)
    (hdrv : (isWDRO (codeAt p 0) && codeAt p 1 == some CHAR_COLON) = true)
    (h2 : isSepO isPathSeparator (codeAt p 2) = false) :
    winParse p = winParseRest p 2 := by
  unfold winParse
  rw [show (p.length == 0) = false from beq_eq_false_iff_ne.mpr (by omega)]
  dsimp only
  rw [show (p.length == 1) = false from beq_eq_false_iff_ne.mpr (by omega),
    h0, hdrv]
  simp only [Bool.false_eq_true, if_false, if_true]
  rw [if_neg (by omega : ¬ p.length ≤ 2), h2]
  simp only [Bool.false_eq_true, if_false]

theorem winParse_red_driveAbs (p : List Char) (hlen : 2 < p.length)
    (hlen3 : p.length ≠ 3)
    (h0 : isSepO isPathSeparator (codeAt p 0) = false)
    (hdrv : (isWDRO (codeAt p 0) && codeAt p 1 == some CHAR_COLON) = true)
    (h2 : isSepO isPathSeparator (codeAt p 2) = true) :
    winParse p = winParseRest p 3 := by
  unfold winParse
  rw [show (p.length == 0) = false from beq_eq_false_iff_ne.mpr (by omega)]
  dsimp only
  rw [show (p.length == 1) = false from beq_eq_false_iff_ne.mpr (by omega),
    h0, hdrv]
  simp only [Bool.false_eq_true, if_false, if_true]
  rw [if_neg (by omega : ¬ p.length ≤ 2), h2]
  simp only [if_true]
  rw [show (p.length == 3) = false from beq_eq_false_iff_ne.mpr hlen3]
  simp only [Bool.false_eq_true, if_false]

theorem winParse_red_drive3 (p : List Char) (hlen : p.length = 3)
    (h0 : isSepO isPathSeparator (codeAt p 0) = false)
    (hdrv : (isWDRO (codeAt p 0) && codeAt p 1 == some CHAR_COLON) = true)
    (h2 : isSepO isPathSeparator (codeAt p 2) = true) :
    winParse p = ⟨p, p, [], [], []⟩ := by
  unfold winParse
  rw [show (p.length == 0) = false from beq_eq_false_iff_ne.mpr (by omega)]
  dsimp only
  rw [show (p.length == 1) = false from beq_eq_false_iff_ne.mpr (by omega),
    h0, hdrv]
  simp only [Bool.false_eq_true, if_false, if_true]
  rw [if_neg (by omega : ¬ p.length ≤ 2), h2]
  simp only [if_true]
  rw [show (p.length == 3) = true from beq_iff_eq.mpr hlen]
  simp only [if_true]

theorem winParse_red_unc (sv sh T : List Char) (hsvne : sv ≠ [])
    (hsvf : SepFree isPathSeparator sv) (hshne : sh ≠ [])
    (hshf : SepFree isPathSeparator sh) :
    winParse ('\\' :: '\\' :: (sv ++ '\\' :: (sh ++ '\\' :: T))) =
      winParseRest ('\\' :: '\\' :: (sv ++ '\\' :: (sh ++ '\\' :: T)))
        (2 + sv.length + 1 + sh.length + 1) := by
  have hsvlen : 0 < sv.length := List.length_pos.mpr hsvne
  obtain ⟨s0, sh', rfl⟩ : ∃ s0 sh', sh = s0 :: sh' := by
    cases sh with
    | nil => exact absurd rfl hshne
    | cons a b => exact ⟨a, b, rfl⟩
  have holen : ('\\' :: '\\' :: (sv ++ '\\' :: ((s0 :: sh') ++ '\\' :: T))).length =
      sv.length + sh'.length + T.length + 5 := by
    simp only [List.length_cons, List.length_append]
    omega
  have hj1 : scanNonSep ('\\' :: '\\' :: (sv ++ '\\' :: ((s0 :: sh') ++ '\\' :: T))) 2 =
      2 + sv.length := by
    have h := scanNonSep_stops sv ['\\', '\\'] ('\\' :: ((s0 :: sh') ++ '\\' :: T)) hsvf
      (Or.inr ⟨'\\', (s0 :: sh') ++ '\\' :: T, rfl, by decide⟩)
    rw [show (['\\', '\\'] : List Char) ++ sv ++ ('\\' :: ((s0 :: sh') ++ '\\' :: T)) =
      '\\' :: '\\' :: (sv ++ '\\' :: ((s0 :: sh') ++ '\\' :: T)) by simp] at h
    exact h
  have hc_j1 : codeAt ('\\' :: '\\' :: (sv ++ '\\' :: ((s0 :: sh') ++ '\\' :: T)))
      (2 + sv.length) = some '\\'.toNat := by
    have h := codeAt_mid (['\\', '\\'] ++ sv) '\\' ((s0 :: sh') ++ '\\' :: T)
    rw [show ((['\\', '\\'] : List Char) ++ sv) ++ '\\' :: ((s0 :: sh') ++ '\\' :: T) =
      '\\' :: '\\' :: (sv ++ '\\' :: ((s0 :: sh') ++ '\\' :: T)) by simp,
      show ((['\\', '\\'] : List Char) ++ sv).length = 2 + sv.length by
        simp only [List.length_append, List.length_cons, List.length_nil]
        try omega] at h
    exact h
  have hc_j1s : codeAt ('\\' :: '\\' :: (sv ++ '\\' :: ((s0 :: sh') ++ '\\' :: T)))
      (2 + sv.length + 1) = some s0.toNat := by
    have h := codeAt_mid (['\\', '\\'] ++ sv ++ ['\\']) s0 (sh' ++ '\\' :: T)
    rw [show ((['\\', '\\'] : List Char) ++ sv ++ ['\\']) ++ s0 :: (sh' ++ '\\' :: T) =
      '\\' :: '\\' :: (sv ++ '\\' :: ((s0 :: sh') ++ '\\' :: T)) by simp,
      show ((['\\', '\\'] : List Char) ++ sv ++ ['\\']).length = 2 + sv.length + 1 by
        simp only [List.length_append, List.length_cons, List.length_nil]
        try omega] at h
    exact h
  have hj2 : scanSep ('\\' :: '\\' :: (sv ++ '\\' :: ((s0 :: sh') ++ '\\' :: T)))
      (2 + sv.length) = 2 + sv.length + 1 := by
    refine scanSep_one _ _ (by rw [holen]; omega) (by rw [hc_j1]; decide) ?_
    rw [hc_j1s]
    exact hshf s0 (List.mem_cons_self _ _)
  have hj3 : scanNonSep ('\\' :: '\\' :: (sv ++ '\\' :: ((s0 :: sh') ++ '\\' :: T)))
      (2 + sv.length + 1) = 2 + sv.length + 1 + (s0 :: sh').length := by
    have h := scanNonSep_stops (s0 :: sh') (['\\', '\\'] ++ sv ++ ['\\']) ('\\' :: T) hshf
      (Or.inr ⟨'\\', T, rfl, by decide⟩)
    rw [show ((['\\', '\\'] : List Char) ++ sv ++ ['\\']) ++ (s0 :: sh') ++ ('\\' :: T) =
      '\\' :: '\\' :: (sv ++ '\\' :: ((s0 :: sh') ++ '\\' :: T)) by simp,
      show ((['\\', '\\'] : List Char) ++ sv ++ ['\\']).length = 2 + sv.length + 1 by
        simp only [List.length_append, List.length_cons, List.length_nil]
        try omega] at h
    exact h
  unfold winParse
  rw [show (('\\' :: '\\' :: (sv ++ '\\' :: ((s0 :: sh') ++ '\\' :: T))).length == 0) =
    false from beq_eq_false_iff_ne.mpr (by rw [holen]; omega)]
  dsimp only
  rw [show (('\\' :: '\\' :: (sv ++ '\\' :: ((s0 :: sh') ++ '\\' :: T))).length == 1) =
    false from beq_eq_false_iff_ne.mpr (by rw [holen]; omega)]
  rw [show codeAt ('\\' :: '\\' :: (sv ++ '\\' :: ((s0 :: sh') ++ '\\' :: T))) 0 =
    some '\\'.toNat from codeAt_cons_zero _ _]
  rw [show codeAt ('\\' :: '\\' :: (sv ++ '\\' :: ((s0 :: sh') ++ '\\' :: T))) 1 =
    some '\\'.toNat from by
      rw [show (1 : Nat) = 0 + 1 from rfl, codeAt_cons_succ]
      exact codeAt_cons_zero _ _]
  simp only [Bool.false_eq_true, if_false]
  rw [if_pos (by decide : isSepO isPathSeparator (some '\\'.toNat) = true)]
  rw [if_pos (by decide : isSepO isPathSeparator (some '\\'.toNat) = true)]
  rw [hj1]
  rw [if_pos (show (decide (2 + sv.length <
      ('\\' :: '\\' :: (sv ++ '\\' :: ((s0 :: sh') ++ '\\' :: T))).length) &&
      ((2 + sv.length : Nat) != 2)) = true from (Bool.and_eq_true _ _).mpr
    ⟨decide_eq_true (by rw [holen]; omega), bne_iff_ne.mpr (by omega)⟩)]
  rw [hj2]
  rw [if_pos (show (decide (2 + sv.length + 1 <
      ('\\' :: '\\' :: (sv ++ '\\' :: ((s0 :: sh') ++ '\\' :: T))).length) &&
      ((2 + sv.length + 1 : Nat) != (2 + sv.length))) = true from
    (Bool.and_eq_true _ _).mpr
    ⟨decide_eq_true (by rw [holen]; omega), bne_iff_ne.mpr (by omega)⟩)]
  rw [hj3]
  rw [show ((2 + sv.length + 1 + (s0 :: sh').length : Nat) ==
      ('\\' :: '\\' :: (sv ++ '\\' :: ((s0 :: sh') ++ '\\' :: T))).length) = false from
    beq_eq_false_iff_ne.mpr (by rw [holen, List.length_cons]; omega)]
  simp only [Bool.false_eq_true, if_false]
  rw [show ((2 + sv.length + 1 + (s0 :: sh').length : Nat) !=
      (2 + sv.length + 1)) = true from bne_iff_ne.mpr (by
      simp only [List.length_cons]
      omega)]
  simp only [if_true]

theorem cleanWin_normalize (p : List Char) (h : CleanWin p) :
    winNormalize p = p := by
  rcases h with ⟨hST, hnd⟩ | ⟨T, hT, rfl⟩ | ⟨X, T, hX, hST, rfl⟩ |
    ⟨X, T, hX, hT, rfl⟩ | ⟨sv, sh, T, hsvne, hsvf, hshne, hshf, hT, rfl⟩
  · exact winNorm_idem_rel_nodev p (segTail_tail2 false p hST) hnd
  · rcases hT with rfl | hST
    · exact winNorm_idem_abs_nodev [] (Or.inl ⟨rfl, rfl⟩)
    · exact winNorm_idem_abs_nodev T (segTail_tail2 true T hST)
  · exact winNorm_idem_rel_drive X hX T (segTail_tail2 false T hST)
  · rcases hT with rfl | hST
    · exact winNorm_idem_abs_drive X hX [] (Or.inl ⟨rfl, rfl⟩)
    · exact winNorm_idem_abs_drive X hX T (segTail_tail2 true T hST)
  · rcases hT with rfl | hST
    · exact winNorm_idem_abs_unc sv sh hsvne hsvf hshne hshf [] (Or.inl ⟨rfl, rfl⟩)
    · exact winNorm_idem_abs_unc sv sh hsvne hsvf hshne hshf T
        (segTail_tail2 true T hST)

theorem cleanWin_format (p : List Char) (h : CleanWin p) :
    winFormat (winParse p) = p := by
  rcases h with ⟨hST, hnd⟩ | ⟨T, hT, rfl⟩ | ⟨X, T, hX, hST, rfl⟩ |
    ⟨X, T, hX, hT, rfl⟩ | ⟨sv, sh, T, hsvne, hsvf, hshne, hshf, hT, rfl⟩
  · have hbool : (isWDRO (codeAt p 0) && codeAt p 1 == some CHAR_COLON) = false := by
      cases hc : (isWDRO (codeAt p 0) && codeAt p 1 == some CHAR_COLON) with
      | false => rfl
      | true =>
        exfalso
        simp only [Bool.and_eq_true, beq_iff_eq] at hc
        exact hnd ⟨hc.1, hc.2⟩
    rcases segTail_cases p hST with ⟨t0, T', rfl, ht0, hTf⟩ |
      ⟨i0, I', L, hi0, hLf, hLne, rfl⟩
    · cases T' with
      | nil =>
        rw [winParse_single_nonsep t0 ht0, winFormat,
          formatPath_F1 '\\' _ rfl rfl (by simp)]
      | cons t1 T'' =>
        rw [winParse_red_rel _ (by simp)
          (by rw [codeAt_cons_zero]; exact ht0) hbool]
        exact winPF_single [] (t0 :: t1 :: T'') hTf (by simp)
    · rw [winParse_red_rel _
        (by simp only [List.length_append, List.length_cons]; omega)
        (by rw [List.cons_append, codeAt_cons_zero]; exact hi0) hbool]
      exact winPF_multi [] (i0 :: I') L (by simp) hLf hLne
  · rcases hT with rfl | hST
    · decide
    · rcases segTail_cases T hST with ⟨t0, T', rfl, ht0, hTf⟩ |
        ⟨i0, I', L, hi0, hLf, hLne, rfl⟩
      · rw [winParse_red_abs _ (by simp)
          (by rw [codeAt_cons_zero]; decide)
          (by
            rw [show (1 : Nat) = 0 + 1 from rfl, codeAt_cons_succ,
              codeAt_cons_zero]
            exact ht0)]
        exact winPF_single ['\\'] (t0 :: T') hTf (by simp)
      · rw [winParse_red_abs _
          (by simp only [List.length_append, List.length_cons]; omega)
          (by rw [codeAt_cons_zero]; decide)
          (by
            rw [show (1 : Nat) = 0 + 1 from rfl, codeAt_cons_succ,
              List.cons_append, codeAt_cons_zero]
            exact hi0)]
        exact winPF_multi ['\\'] (i0 :: I') L (by simp) hLf hLne
  · have h0 : isSepO isPathSeparator (codeAt (X :: ':' :: T) 0) = false := by
      rw [codeAt_cons_zero]
      exact wdro_not_sep hX
    have hdrv : (isWDRO (codeAt (X :: ':' :: T) 0) &&
        codeAt (X :: ':' :: T) 1 == some CHAR_COLON) = true := by
      rw [codeAt_cons_zero,
        show codeAt (X :: ':' :: T) 1 = some ':'.toNat from by
          rw [show (1 : Nat) = 0 + 1 from rfl, codeAt_cons_succ]
          exact codeAt_cons_zero _ _,
        show isWDRO (some X.toNat) = isWindowsDeviceRoot X.toNat from rfl, hX]
      decide
    rcases segTail_cases T hST with ⟨t0, T', rfl, ht0, hTf⟩ |
      ⟨i0, I', L, hi0, hLf, hLne, rfl⟩
    · rw [winParse_red_driveRel _ (by simp) h0 hdrv
        (by
          rw [show (2 : Nat) = 1 + 1 from rfl, codeAt_cons_succ,
            show (1 : Nat) = 0 + 1 from rfl, codeAt_cons_succ, codeAt_cons_zero]
          exact ht0)]
      exact winPF_single [X, ':'] (t0 :: T') hTf (by simp)
    · rw [winParse_red_driveRel _
        (by simp only [List.length_append, List.length_cons]; omega) h0 hdrv
        (by
          rw [show (2 : Nat) = 1 + 1 from rfl, codeAt_cons_succ,
            show (1 : Nat) = 0 + 1 from rfl, codeAt_cons_succ,
            List.cons_append, codeAt_cons_zero]
          exact hi0)]
      exact winPF_multi [X, ':'] (i0 :: I') L (by simp) hLf hLne
  · have h0 : ∀ (Z : List Char),
        isSepO isPathSeparator (codeAt (X :: ':' :: '\\' :: Z) 0) = false := by
      intro Z
      rw [codeAt_cons_zero]
      exact wdro_not_sep hX
    have hdrv : ∀ (Z : List Char), (isWDRO (codeAt (X :: ':' :: '\\' :: Z) 0) &&
        codeAt (X :: ':' :: '\\' :: Z) 1 == some CHAR_COLON) = true := by
      intro Z
      rw [codeAt_cons_zero,
        show codeAt (X :: ':' :: '\\' :: Z) 1 = some ':'.toNat from by
          rw [show (1 : Nat) = 0 + 1 from rfl, codeAt_cons_succ]
          exact codeAt_cons_zero _ _,
        show isWDRO (some X.toNat) = isWindowsDeviceRoot X.toNat from rfl, hX]
      decide
    have h2 : ∀ (Z : List Char),
        isSepO isPathSeparator (codeAt (X :: ':' :: '\\' :: Z) 2) = true := by
      intro Z
      rw [show (2 : Nat) = 1 + 1 from rfl, codeAt_cons_succ,
        show (1 : Nat) = 0 + 1 from rfl, codeAt_cons_succ, codeAt_cons_zero]
      decide
    rcases hT with rfl | hST
    · rw [winParse_red_drive3 (X :: ':' :: '\\' :: ([] : List Char)) rfl
        (h0 []) (hdrv []) (h2 []), winFormat]
      exact formatPath_rootDir '\\' _ (by simp)
    · rcases segTail_cases T hST with ⟨t0, T', rfl, ht0, hTf⟩ |
        ⟨i0, I', L, hi0, hLf, hLne, rfl⟩
      · rw [winParse_red_driveAbs _ (by simp)
          (by simp only [List.length_cons]; omega) (h0 _) (hdrv _) (h2 _)]
        exact winPF_single [X, ':', '\\'] (t0 :: T') hTf (by simp)
      · rw [winParse_red_driveAbs _
          (by simp only [List.length_append, List.length_cons]; omega)
          (by simp only [List.length_append, List.length_cons]; omega)
          (h0 _) (hdrv _) (h2 _)]
        exact winPF_multi [X, ':', '\\'] (i0 :: I') L (by simp) hLf hLne
  · rcases hT with rfl | hST
    · rw [winParse_red_unc sv sh [] hsvne hsvf hshne hshf,
        show 2 + sv.length + 1 + sh.length + 1 =
          ('\\' :: '\\' :: (sv ++ '\\' :: (sh ++ '\\' :: ([] : List Char)))).length
          from by
            simp only [List.length_cons, List.length_append, List.length_nil]
            omega]
      exact winPF_rootOnly _ (by simp)
    · rcases segTail_cases T hST with ⟨t0, T', rfl, ht0, hTf⟩ |
        ⟨i0, I', L, hi0, hLf, hLne, rfl⟩
      · rw [winParse_red_unc sv sh (t0 :: T') hsvne hsvf hshne hshf,
          show 2 + sv.length + 1 + sh.length + 1 =
            (('\\' :: '\\' :: (sv ++ '\\' :: (sh ++ ['\\']))) : List Char).length
            from by
              simp only [List.length_cons, List.length_append, List.length_nil]
              omega,
          show '\\' :: '\\' :: (sv ++ '\\' :: (sh ++ '\\' :: (t0 :: T'))) =
            ('\\' :: '\\' :: (sv ++ '\\' :: (sh ++ ['\\']))) ++ (t0 :: T')
            from by simp]
        exact winPF_single ('\\' :: '\\' :: (sv ++ '\\' :: (sh ++ ['\\'])))
          (t0 :: T') hTf (by simp)
      · rw [winParse_red_unc sv sh ((i0 :: I') ++ '\\' :: L) hsvne hsvf hshne hshf,
          show 2 + sv.length + 1 + sh.length + 1 =
            (('\\' :: '\\' :: (sv ++ '\\' :: (sh ++ ['\\']))) : List Char).length
            from by
              simp only [List.length_cons, List.length_append, List.length_nil]
              omega,
          show '\\' :: '\\' :: (sv ++ '\\' :: (sh ++ '\\' :: ((i0 :: I') ++ '\\' :: L))) =
            (('\\' :: '\\' :: (sv ++ '\\' :: (sh ++ ['\\']))) ++ (i0 :: I')) ++
              '\\' :: L
            from by simp]
        exact winPF_multi ('\\' :: '\\' :: (sv ++ '\\' :: (sh ++ ['\\'])))
          (i0 :: I') L (by simp) hLf hLne

/-- The unrestricted reading of claim C3 fails: `'a/'` has no redundant
separator and no dot segments, yet POSIX `format(parse('a/'))` drops the
trailing separator that `normalize` preserves; `'C:'` has no separator at
all, yet win32 `normalize('C:')` appends `'.'` while `format(parse('C:'))`
returns `'C:'`; and the empty string normalizes to `'.'` but round-trips
to `''`. -/
theorem c3_counterexample :
    posFormat (posParse "a/".data) ≠ posNormalize "a/".data ∧
      winFormat (winParse "C:".data) ≠ winNormalize "C:".data ∧
      posFormat (posParse "".data) ≠ posNormalize "".data := by
  refine ⟨by decide, by decide, by decide⟩

/-- Claim C3 (amended): for every string `p` with no redundant separators
and no `.`/`..` segments that moreover ends in a segment rather than a
separator — and, on win32, whose root is one the parser recognizes in the
same place the normalizer does (`\`, `X:` with a non-empty tail, `X:\`, a
full UNC root `\\host\share\`, or no root at all when the path does not
begin like `X:`) — `format(parse(p)) = normalize(p)` holds in the
respective dialect (both sides equal `p` itself). -/
theorem c3_format_parse_roundtrip (p q : List Char)
    (hp : CleanPos p) (hq : CleanWin q) :
    posFormat (posParse p) = posNormalize p ∧
      winFormat (winParse q) = winNormalize q :=
  ⟨(cleanPos_format p hp).trans (cleanPos_normalize p hp).symm,
    (cleanWin_format q hq).trans (cleanWin_normalize q hq).symm⟩

theorem c3_witness :
    CleanPos "/a/b.c".data ∧ CleanWin "C:\\x\\y".data ∧
      posFormat (posParse "/a/b.c".data) = posNormalize "/a/b.c".data ∧
      winFormat (winParse "C:\\x\\y".data) = winNormalize "C:\\x\\y".data := by
  have hp : CleanPos "/a/b.c".data := by
    refine Or.inr ⟨true, [['a'], ['b', '.', 'c']], by decide, ?_, by decide⟩
    intro s hs
    rcases List.mem_cons.mp hs with rfl | hs2
    · exact ⟨by decide, by decide, by decide, by intro c hc; fin_cases hc <;> decide⟩
    · rcases List.mem_singleton.mp hs2 with rfl
      exact ⟨by decide, by decide, by decide, by intro c hc; fin_cases hc <;> decide⟩
  have hq : CleanWin "C:\\x\\y".data := by
    refine Or.inr (Or.inr (Or.inr (Or.inl ⟨'C', ['x', '\\', 'y'], by decide,
      Or.inr ⟨[['x'], ['y']], by decide, ?_, by decide⟩, by decide⟩)))
    intro s hs
    rcases List.mem_cons.mp hs with rfl | hs2
    · exact ⟨by decide, by decide, by decide, by intro c hc; fin_cases hc <;> decide⟩
    · rcases List.mem_singleton.mp hs2 with rfl
      exact ⟨by decide, by decide, by decide, by intro c hc; fin_cases hc <;> decide⟩
  exact ⟨hp, hq, (c3_format_parse_roundtrip _ _ hp hq).1,
    (c3_format_parse_roundtrip _ _ hp hq).2⟩

theorem posResolveGoJS_str (paths : List (List Char)) :
    ∀ acc, posResolveGoJS (paths.map JSVal.str) acc =
      Except.ok (posResolveGo paths acc) := by
  induction paths with
  | nil => intro acc; rfl
  | cons p rest ih =>
    intro acc
    show (if p.length = 0 then posResolveGoJS (rest.map JSVal.str) acc
      else
        let acc' := p ++ '/' :: acc
        if codeAt p 0 == some CHAR_FORWARD_SLASH then Except.ok (acc', true)
        else posResolveGoJS (rest.map JSVal.str) acc') = _
    unfold posResolveGo
    by_cases h0 : p.length = 0
    · rw [if_pos h0, if_pos h0]
      exact ih acc
    · rw [if_neg h0, if_neg h0]
      dsimp only
      by_cases habs : (codeAt p 0 == some CHAR_FORWARD_SLASH) = true
      · rw [habs]
        rfl
      · rw [show (codeAt p 0 == some CHAR_FORWARD_SLASH) = false from
          Bool.eq_false_iff.mpr habs]
        simp only [Bool.false_eq_true, if_false]
        exact ih _

theorem posResolveGoJS_abs_stop (p : List Char) (rest : List JSVal)
    (acc : List Char) (hne : ¬ p.length = 0)
    (habs : (codeAt p 0 == some CHAR_FORWARD_SLASH) = true) :
    posResolveGoJS (JSVal.str p :: rest) acc =
      Except.ok (p ++ '/' :: acc, true) := by
  show (if p.length = 0 then posResolveGoJS rest acc
    else
      let acc' := p ++ '/' :: acc
      if codeAt p 0 == some CHAR_FORWARD_SLASH then Except.ok (acc', true)
      else posResolveGoJS rest acc') = _
  rw [if_neg hne]
  dsimp only
  rw [habs]
  rfl

/-- The frozen claim C4 fails on both functions it singles out: win32
`toNamespacedPath` returns a non-string argument unchanged instead of
raising a TypeError, and `resolve` never validates an argument that
precedes an absolute one — `posix.resolve(nonString, '/abs')` returns
`'/abs'` without error. -/
theorem c4_counterexample :
    winToNamespacedPathJS "C:\\x".data (fun _ => none) JSVal.other = JSVal.other ∧
      posResolveJS "/cwd".data [JSVal.other, JSVal.str "/abs".data] =
        Except.ok "/abs".data := by
  exact ⟨rfl, rfl⟩

/-- Claim C4 (amended): win32 `toNamespacedPath` returns a non-string path
argument unchanged; `resolve` validates its arguments from last to first
only until one makes the result absolute — it raises a TypeError when the
last argument is a non-string, ignores a non-string that precedes an
absolute string argument, and never raises on all-string arguments. -/
theorem c4_nonstring_arguments :
    (∀ cwd env, winToNamespacedPathJS cwd env JSVal.other = JSVal.other) ∧
      (∀ (cwd : List Char) (rest : List JSVal),
        posResolveJS cwd (rest ++ [JSVal.other]) = Except.error ()) ∧
      (∀ (cwd : List Char) (pre : List JSVal) (p : List Char), p ≠ [] →
        (codeAt p 0 == some CHAR_FORWARD_SLASH) = true →
        posResolveJS cwd (pre ++ [JSVal.str p]) =
          posResolveJS cwd [JSVal.str p]) ∧
      (∀ (cwd : List Char) (args : List (List Char)),
        posResolveJS cwd (args.map JSVal.str) =
          Except.ok (posResolve cwd args)) := by
  refine ⟨fun cwd env => rfl, ?_, ?_, ?_⟩
  · intro cwd rest
    unfold posResolveJS
    rw [show (rest ++ [JSVal.other]).reverse ++ [JSVal.str cwd] =
      JSVal.other :: (rest.reverse ++ [JSVal.str cwd]) by simp]
    rfl
  · intro cwd pre p hne habs
    unfold posResolveJS
    rw [show (pre ++ [JSVal.str p]).reverse ++ [JSVal.str cwd] =
        JSVal.str p :: (pre.reverse ++ [JSVal.str cwd]) by simp,
      show ([JSVal.str p] : List JSVal).reverse ++ [JSVal.str cwd] =
        JSVal.str p :: ([] ++ [JSVal.str cwd]) by simp,
      posResolveGoJS_abs_stop p _ [] (fun h => hne (List.length_eq_zero.mp h)) habs,
      posResolveGoJS_abs_stop p _ [] (fun h => hne (List.length_eq_zero.mp h)) habs]
  · intro cwd args
    unfold posResolveJS posResolve
    rw [show (args.map JSVal.str).reverse ++ [JSVal.str cwd] =
        (args.reverse ++ [cwd]).map JSVal.str by
      simp [List.map_reverse], posResolveGoJS_str]

theorem c4_witness :
    winToNamespacedPathJS "C:\\x\\y".data (fun _ => none) JSVal.other = JSVal.other ∧
      posResolveJS "/c".data [JSVal.str "a".data, JSVal.other] = Except.error () ∧
      posResolveJS "/c".data [JSVal.other, JSVal.str "/x".data] =
        posResolveJS "/c".data [JSVal.str "/x".data] ∧
      posResolveJS "/c".data [JSVal.str "a".data] =
        Except.ok (posResolve "/c".data ["a".data]) :=
  ⟨c4_nonstring_arguments.1 "C:\\x\\y".data (fun _ => none),
    c4_nonstring_arguments.2.1 "/c".data [JSVal.str "a".data],
    c4_nonstring_arguments.2.2.1 "/c".data [JSVal.other] "/x".data (by decide)
      (by decide),
    c4_nonstring_arguments.2.2.2 "/c".data ["a".data]⟩

theorem intercalate_append₂ (sep : Char) (A B : List (List Char)) (hA : A ≠ [])
    (hB : B ≠ []) :
    List.intercalate [sep] (A ++ B) =
      List.intercalate [sep] A ++ sep :: List.intercalate [sep] B := by
  induction A with
  | nil => exact absurd rfl hA
  | cons a A' ih =>
    cases A' with
    | nil =>
      obtain ⟨b, B', rfl⟩ : ∃ b B', B = b :: B' := by
        cases B with
        | nil => exact absurd rfl hB
        | cons x y => exact ⟨x, y, rfl⟩
      rw [show ([a] : List (List Char)) ++ b :: B' = a :: b :: B' from rfl,
        intercalate_cons₂, intercalate_single]
    | cons a2 A'' =>
      rw [show (a :: a2 :: A'') ++ B = a :: ((a2 :: A'') ++ B) from rfl]
      have hne2 : (a2 :: A'') ++ B ≠ [] := by simp
      obtain ⟨x, xs, hx⟩ : ∃ x xs, (a2 :: A'') ++ B = x :: xs := ⟨a2, A'' ++ B, rfl⟩
      rw [show a :: ((a2 :: A'') ++ B) = a :: x :: xs by rw [hx], intercalate_cons₂,
        ← hx, ih (by simp), intercalate_cons₂]
      simp [List.append_assoc]

theorem posResolve_abs_clean (cwd : List Char) (segs : List (List Char))
    (hne : segs ≠ []) (hgd : ∀ s ∈ segs, GoodSeg isPosixPathSeparator s) :
    posResolve cwd ['/' :: List.intercalate ['/'] segs] =
      '/' :: List.intercalate ['/'] segs := by
  have hgood : GoodStack false isPosixPathSeparator segs.reverse :=
    goodStack_of_segs false isPosixPathSeparator segs (fun s hs => hgd s hs)
  unfold posResolve
  dsimp only
  rw [show (['/' :: List.intercalate ['/'] segs] : List (List Char)).reverse ++ [cwd] =
    ['/' :: List.intercalate ['/'] segs, cwd] by simp]
  rw [show posResolveGo ['/' :: List.intercalate ['/'] segs, cwd] [] =
    (('/' :: List.intercalate ['/'] segs) ++ ['/'], true) from by
      unfold posResolveGo
      rw [if_neg (by simp)]
      dsimp only
      rw [show (codeAt ('/' :: List.intercalate ['/'] segs) 0 ==
        some CHAR_FORWARD_SLASH) = true from by rw [codeAt_cons_zero]; decide]
      rfl]
  dsimp only
  rw [show ('/' :: List.intercalate ['/'] segs) ++ ['/'] =
    '/' :: (List.intercalate ['/'] segs ++ ['/']) from rfl]
  rw [normalizeString_eq_normSpec _ _ _ _ (by decide) (by decide),
    normSpec_cons_sep _ _ _ (by decide), normSpec_snoc_sep _ _ _ (by decide)]
  rw [show (!true) = false from rfl]
  rw [← joinT_reverse_intercalate, normSpec_joinT _ _ _ (by decide) _ hgood,
    joinT_reverse_intercalate]
  rfl

theorem codeAt_one_add (c : Char) (l : List Char) (i : Nat) :
    codeAt (c :: l) (1 + i) = codeAt l i := by
  rw [Nat.add_comm]
  exact codeAt_cons_succ c l i

theorem someBeq_false {m n : Nat} (h : (m == n) = false) :
    ((some m : Option Nat) == some n) = false := by
  refine beq_eq_false_iff_ne.mpr ?_
  intro hc
  injection hc with hc'
  exact (beq_eq_false_iff_ne.mp h) hc'

theorem relScan_succ (f t : List Char) (fuel i : Nat) (lcs : Int) :
    relScanLoop f t 1 1 CHAR_FORWARD_SLASH (fuel + 1) i lcs =
      (if (codeAt f (1 + i) != codeAt t (1 + i)) = true then (i, lcs)
       else relScanLoop f t 1 1 CHAR_FORWARD_SLASH fuel (i + 1)
         (if (codeAt f (1 + i) == some CHAR_FORWARD_SLASH) = true then (i : Int)
          else lcs)) := rfl

theorem relScan_stop (f t : List Char) (i : Nat) (lcs : Int) (fuel : Nat)
    (hne : codeAt f (1 + i) ≠ codeAt t (1 + i)) :
    relScanLoop f t 1 1 CHAR_FORWARD_SLASH (fuel + 1) i lcs = (i, lcs) := by
  rw [relScan_succ, if_pos (bne_iff_ne.mpr hne)]

theorem relScan_seg (D : List Char) (hD : SepFree isPosixPathSeparator D) :
    ∀ (E X Y : List Char) (fuel0 : Nat) (lcs0 : Int),
      relScanLoop ('/' :: (E ++ (D ++ X))) ('/' :: (E ++ (D ++ Y))) 1 1
          CHAR_FORWARD_SLASH (D.length + fuel0) E.length lcs0 =
        relScanLoop ('/' :: (E ++ (D ++ X))) ('/' :: (E ++ (D ++ Y))) 1 1
          CHAR_FORWARD_SLASH fuel0 (E.length + D.length) lcs0 := by
  induction D with
  | nil =>
    intro E X Y fuel0 lcs0
    rw [show ([] : List Char).length + fuel0 = fuel0 by simp,
      show E.length + ([] : List Char).length = E.length by simp]
  | cons d D' ih =>
    intro E X Y fuel0 lcs0
    have hd : ((some d.toNat : Option Nat) == some CHAR_FORWARD_SLASH) = false := by
      have h := hD d (List.mem_cons_self _ _)
      unfold isPosixPathSeparator at h
      exact someBeq_false h
    have hcf : codeAt ('/' :: (E ++ ((d :: D') ++ X))) (1 + E.length) =
        some d.toNat := by
      rw [codeAt_one_add, show E ++ ((d :: D') ++ X) = E ++ d :: (D' ++ X) from rfl]
      exact codeAt_mid _ _ _
    have hct : codeAt ('/' :: (E ++ ((d :: D') ++ Y))) (1 + E.length) =
        some d.toNat := by
      rw [codeAt_one_add, show E ++ ((d :: D') ++ Y) = E ++ d :: (D' ++ Y) from rfl]
      exact codeAt_mid _ _ _
    rw [show (d :: D').length + fuel0 = (D'.length + fuel0) + 1 by
        simp only [List.length_cons]
        omega,
      relScan_succ, hcf, hct, bne_self_eq_false]
    rw [if_neg Bool.false_ne_true, hd]
    rw [if_neg Bool.false_ne_true]
    have hih := ih (fun s hs => hD s (List.mem_cons_of_mem _ hs)) (E ++ [d]) X Y
      fuel0 lcs0
    rw [show (E ++ [d]) ++ (D' ++ X) = E ++ ((d :: D') ++ X) by simp,
      show (E ++ [d]) ++ (D' ++ Y) = E ++ ((d :: D') ++ Y) by simp,
      show (E ++ [d]).length = E.length + 1 by simp; try omega] at hih
    rw [show E.length + (d :: D').length = E.length + 1 + D'.length by
      simp only [List.length_cons]
      omega]
    exact hih

theorem relScan_sepStep (E X Y : List Char) (fuel0 : Nat) (lcs0 : Int) :
    relScanLoop ('/' :: (E ++ '/' :: X)) ('/' :: (E ++ '/' :: Y)) 1 1
        CHAR_FORWARD_SLASH (fuel0 + 1) E.length lcs0 =
      relScanLoop ('/' :: (E ++ '/' :: X)) ('/' :: (E ++ '/' :: Y)) 1 1
        CHAR_FORWARD_SLASH fuel0 (E.length + 1) ((E.length : Nat) : Int) := by
  have hcf : codeAt ('/' :: (E ++ '/' :: X)) (1 + E.length) = some '/'.toNat := by
    rw [codeAt_one_add]
    exact codeAt_mid _ _ _
  have hct : codeAt ('/' :: (E ++ '/' :: Y)) (1 + E.length) = some '/'.toNat := by
    rw [codeAt_one_add]
    exact codeAt_mid _ _ _
  rw [relScan_succ, hcf, hct, bne_self_eq_false]
  rw [if_neg Bool.false_ne_true,
    show ((some '/'.toNat : Option Nat) == some CHAR_FORWARD_SLASH) = true
      from by decide]
  rw [if_pos rfl]

theorem relScan_CSlash (C : List (List Char))
    (hC : ∀ s ∈ C, SepFree isPosixPathSeparator s) (hCne : C ≠ []) :
    ∀ (E X Y : List Char) (fuel0 : Nat) (lcs0 : Int),
      relScanLoop ('/' :: (E ++ ((List.intercalate ['/'] C ++ ['/']) ++ X)))
          ('/' :: (E ++ ((List.intercalate ['/'] C ++ ['/']) ++ Y))) 1 1
          CHAR_FORWARD_SLASH ((List.intercalate ['/'] C).length + 1 + fuel0)
          E.length lcs0 =
        relScanLoop ('/' :: (E ++ ((List.intercalate ['/'] C ++ ['/']) ++ X)))
          ('/' :: (E ++ ((List.intercalate ['/'] C ++ ['/']) ++ Y))) 1 1
          CHAR_FORWARD_SLASH fuel0
          (E.length + (List.intercalate ['/'] C).length + 1)
          ((E.length + (List.intercalate ['/'] C).length : Nat) : Int) := by
  induction C with
  | nil => exact absurd rfl hCne
  | cons c C' ih =>
    intro E X Y fuel0 lcs0
    cases C' with
    | nil =>
      rw [intercalate_single]
      have h1 := relScan_seg c (hC c (List.mem_cons_self _ _)) E ('/' :: X)
        ('/' :: Y) (fuel0 + 1) lcs0
      rw [show E ++ (c ++ '/' :: X) = E ++ ((c ++ ['/']) ++ X) by simp,
        show E ++ (c ++ '/' :: Y) = E ++ ((c ++ ['/']) ++ Y) by simp] at h1
      rw [show c.length + 1 + fuel0 = c.length + (fuel0 + 1) by omega, h1]
      have h2 := relScan_sepStep (E ++ c) X Y fuel0 lcs0
      rw [show (E ++ c) ++ '/' :: X = E ++ ((c ++ ['/']) ++ X) by simp,
        show (E ++ c) ++ '/' :: Y = E ++ ((c ++ ['/']) ++ Y) by simp,
        show (E ++ c).length = E.length + c.length by simp; try omega] at h2
      exact h2
    | cons c2 C'' =>
      have hlen : (List.intercalate ['/'] (c :: c2 :: C'')).length =
          c.length + 1 + (List.intercalate ['/'] (c2 :: C'')).length := by
        rw [intercalate_cons₂]
        simp only [List.length_append, List.length_cons]
        omega
      have hform : ∀ (Z : List Char),
          E ++ ((List.intercalate ['/'] (c :: c2 :: C'') ++ ['/']) ++ Z) =
            (E ++ c ++ ['/']) ++
              ((List.intercalate ['/'] (c2 :: C'') ++ ['/']) ++ Z) := by
        intro Z
        rw [intercalate_cons₂]
        simp [List.append_assoc]
      rw [hform X, hform Y]
      have h1 := relScan_seg c (hC c (List.mem_cons_self _ _)) E
        ('/' :: ((List.intercalate ['/'] (c2 :: C'') ++ ['/']) ++ X))
        ('/' :: ((List.intercalate ['/'] (c2 :: C'') ++ ['/']) ++ Y))
        (((List.intercalate ['/'] (c2 :: C'')).length + 1 + fuel0) + 1) lcs0
      rw [show E ++ (c ++ '/' :: ((List.intercalate ['/'] (c2 :: C'') ++ ['/']) ++ X)) =
          (E ++ c ++ ['/']) ++ ((List.intercalate ['/'] (c2 :: C'') ++ ['/']) ++ X)
          by simp,
        show E ++ (c ++ '/' :: ((List.intercalate ['/'] (c2 :: C'') ++ ['/']) ++ Y)) =
          (E ++ c ++ ['/']) ++ ((List.intercalate ['/'] (c2 :: C'') ++ ['/']) ++ Y)
          by simp] at h1
      rw [show (List.intercalate ['/'] (c :: c2 :: C'')).length + 1 + fuel0 =
        c.length + ((((List.intercalate ['/'] (c2 :: C'')).length + 1 + fuel0)) + 1) by
          rw [hlen]
          omega, h1]
      have h2 := relScan_sepStep (E ++ c)
        ((List.intercalate ['/'] (c2 :: C'') ++ ['/']) ++ X)
        ((List.intercalate ['/'] (c2 :: C'') ++ ['/']) ++ Y)
        ((List.intercalate ['/'] (c2 :: C'')).length + 1 + fuel0) lcs0
      rw [show (E ++ c) ++ '/' :: ((List.intercalate ['/'] (c2 :: C'') ++ ['/']) ++ X) =
          (E ++ c ++ ['/']) ++ ((List.intercalate ['/'] (c2 :: C'') ++ ['/']) ++ X)
          by simp,
        show (E ++ c) ++ '/' :: ((List.intercalate ['/'] (c2 :: C'') ++ ['/']) ++ Y) =
          (E ++ c ++ ['/']) ++ ((List.intercalate ['/'] (c2 :: C'') ++ ['/']) ++ Y)
          by simp,
        show (E ++ c).length = E.length + c.length by simp; try omega] at h2
      rw [h2]
      have h3 := ih (fun s hs => hC s (List.mem_cons_of_mem _ hs)) (by simp)
        (E ++ c ++ ['/'])
        X Y fuel0 ((E.length + c.length : Nat) : Int)
      rw [show (E ++ c ++ ['/']).length = E.length + c.length + 1 by simp; try omega] at h3
      rw [h3]
      rw [show E.length + c.length + 1 + (List.intercalate ['/'] (c2 :: C'')).length =
        E.length + (List.intercalate ['/'] (c :: c2 :: C'')).length by
          rw [hlen]
          omega]

theorem relScan_CEnd2 (C : List (List Char))
    (hC : ∀ s ∈ C, SepFree isPosixPathSeparator s) (hCne : C ≠ []) :
    ∀ (E X Y : List Char) (lcs0 : Int),
      ∃ lcs',
        relScanLoop ('/' :: (E ++ (List.intercalate ['/'] C ++ X)))
            ('/' :: (E ++ (List.intercalate ['/'] C ++ Y))) 1 1
            CHAR_FORWARD_SLASH (List.intercalate ['/'] C).length E.length lcs0 =
          (E.length + (List.intercalate ['/'] C).length, lcs') := by
  induction C with
  | nil => exact absurd rfl hCne
  | cons c C' ih =>
    intro E X Y lcs0
    cases C' with
    | nil =>
      rw [intercalate_single]
      refine ⟨lcs0, ?_⟩
      have h1 := relScan_seg c (hC c (List.mem_cons_self _ _)) E X Y 0 lcs0
      rw [show c.length + 0 = c.length by omega] at h1
      rw [h1]
      rfl
    | cons c2 C'' =>
      have hlen : (List.intercalate ['/'] (c :: c2 :: C'')).length =
          c.length + 1 + (List.intercalate ['/'] (c2 :: C'')).length := by
        rw [intercalate_cons₂]
        simp only [List.length_append, List.length_cons]
        omega
      have hform : ∀ (Z : List Char),
          E ++ (List.intercalate ['/'] (c :: c2 :: C'') ++ Z) =
            (E ++ c ++ ['/']) ++ (List.intercalate ['/'] (c2 :: C'') ++ Z) := by
        intro Z
        rw [intercalate_cons₂]
        simp [List.append_assoc]
      rw [hform X, hform Y]
      have h1 := relScan_seg c (hC c (List.mem_cons_self _ _)) E
        ('/' :: (List.intercalate ['/'] (c2 :: C'') ++ X))
        ('/' :: (List.intercalate ['/'] (c2 :: C'') ++ Y))
        ((List.intercalate ['/'] (c2 :: C'')).length + 1) lcs0
      rw [show E ++ (c ++ '/' :: (List.intercalate ['/'] (c2 :: C'') ++ X)) =
          (E ++ c ++ ['/']) ++ (List.intercalate ['/'] (c2 :: C'') ++ X) by simp,
        show E ++ (c ++ '/' :: (List.intercalate ['/'] (c2 :: C'') ++ Y)) =
          (E ++ c ++ ['/']) ++ (List.intercalate ['/'] (c2 :: C'') ++ Y) by simp]
        at h1
      rw [show (List.intercalate ['/'] (c :: c2 :: C'')).length =
        c.length + ((List.intercalate ['/'] (c2 :: C'')).length + 1) by
          rw [hlen]
          omega, h1]
      have h2 := relScan_sepStep (E ++ c)
        (List.intercalate ['/'] (c2 :: C'') ++ X)
        (List.intercalate ['/'] (c2 :: C'') ++ Y)
        (List.intercalate ['/'] (c2 :: C'')).length lcs0
      rw [show (E ++ c) ++ '/' :: (List.intercalate ['/'] (c2 :: C'') ++ X) =
          (E ++ c ++ ['/']) ++ (List.intercalate ['/'] (c2 :: C'') ++ X) by simp,
        show (E ++ c) ++ '/' :: (List.intercalate ['/'] (c2 :: C'') ++ Y) =
          (E ++ c ++ ['/']) ++ (List.intercalate ['/'] (c2 :: C'') ++ Y) by simp,
        show (E ++ c).length = E.length + c.length by simp; try omega] at h2
      rw [h2]
      obtain ⟨lcs', h3⟩ := ih (fun s hs => hC s (List.mem_cons_of_mem _ hs))
        (by simp) (E ++ c ++ ['/']) X Y ((E.length + c.length : Nat) : Int)
      rw [show (E ++ c ++ ['/']).length = E.length + c.length + 1 by simp; try omega] at h3
      refine ⟨lcs', ?_⟩
      rw [h3, show E.length + c.length + 1 +
          (List.intercalate ['/'] (c2 :: C'')).length =
        E.length + (List.intercalate ['/'] (c :: c2 :: C'')).length by
          rw [hlen]
          omega,
        show E.length + (List.intercalate ['/'] (c :: c2 :: C'')).length =
          E.length + (c.length + ((List.intercalate ['/'] (c2 :: C'')).length + 1))
          from by
            rw [hlen]
            omega]

theorem relOut_succ (f : List Char) (fromEnd fuel i : Nat) (out : List Char) :
    relOutLoop f fromEnd CHAR_FORWARD_SLASH '/' (fuel + 1) i out =
      relOutLoop f fromEnd CHAR_FORWARD_SLASH '/' fuel (i + 1)
        (if (i == fromEnd || codeAt f i == some CHAR_FORWARD_SLASH) = true then
          (if (out.length == 0) = true then ['.', '.'] else out ++ '/' :: ['.', '.'])
         else out) := rfl

theorem relOut_skip (D : List Char) (hD : SepFree isPosixPathSeparator D) :
    ∀ (A X : List Char) (fuel0 : Nat) (out : List Char),
      relOutLoop (A ++ (D ++ X)) (A ++ (D ++ X)).length CHAR_FORWARD_SLASH '/'
          (D.length + fuel0) A.length out =
        relOutLoop (A ++ (D ++ X)) (A ++ (D ++ X)).length CHAR_FORWARD_SLASH '/'
          fuel0 (A.length + D.length) out := by
  induction D with
  | nil =>
    intro A X fuel0 out
    rw [show ([] : List Char).length + fuel0 = fuel0 by simp,
      show A.length + ([] : List Char).length = A.length by simp]
  | cons d D' ih =>
    intro A X fuel0 out
    have hd : ((some d.toNat : Option Nat) == some CHAR_FORWARD_SLASH) = false := by
      have h := hD d (List.mem_cons_self _ _)
      unfold isPosixPathSeparator at h
      exact someBeq_false h
    have hcf : codeAt (A ++ ((d :: D') ++ X)) A.length = some d.toNat := by
      rw [show A ++ ((d :: D') ++ X) = A ++ d :: (D' ++ X) from rfl]
      exact codeAt_mid _ _ _
    have hiend : ((A.length : Nat) == (A ++ ((d :: D') ++ X)).length) = false := by
      refine beq_eq_false_iff_ne.mpr ?_
      simp only [List.length_append, List.length_cons]
      omega
    rw [show (d :: D').length + fuel0 = (D'.length + fuel0) + 1 by
        simp only [List.length_cons]
        omega,
      relOut_succ, hiend, hcf, hd]
    rw [show ((false : Bool) || false) = false from rfl]
    rw [if_neg Bool.false_ne_true]
    have hih := ih (fun s hs => hD s (List.mem_cons_of_mem _ hs)) (A ++ [d]) X
      fuel0 out
    rw [show (A ++ [d]) ++ (D' ++ X) = A ++ ((d :: D') ++ X) by simp,
      show (A ++ [d]).length = A.length + 1 by simp; try omega] at hih
    rw [show A.length + (d :: D').length = A.length + 1 + D'.length by
      simp only [List.length_cons]
      omega]
    exact hih

theorem relOut_sep (A X : List Char) (fuel0 : Nat) (out : List Char) :
    relOutLoop (A ++ '/' :: X) (A ++ '/' :: X).length CHAR_FORWARD_SLASH '/'
        (fuel0 + 1) A.length out =
      relOutLoop (A ++ '/' :: X) (A ++ '/' :: X).length CHAR_FORWARD_SLASH '/'
        fuel0 (A.length + 1)
        (if (out.length == 0) = true then ['.', '.']
         else out ++ '/' :: ['.', '.']) := by
  have hcf : codeAt (A ++ '/' :: X) A.length = some '/'.toNat := codeAt_mid _ _ _
  rw [relOut_succ, hcf,
    show ((some '/'.toNat : Option Nat) == some CHAR_FORWARD_SLASH) = true
      from by decide, Bool.or_true]
  rw [if_pos rfl]

theorem relOut_end (f : List Char) (out : List Char) :
    relOutLoop f f.length CHAR_FORWARD_SLASH '/' 1 f.length out =
      (if (out.length == 0) = true then ['.', '.']
       else out ++ '/' :: ['.', '.']) := by
  rw [show (1 : Nat) = 0 + 1 from rfl, relOut_succ,
    show ((f.length : Nat) == f.length) = true from beq_iff_eq.mpr rfl,
    Bool.true_or]
  rw [if_pos rfl]
  rfl

theorem relOut_dots_go (F : List (List Char))
    (hF : ∀ s ∈ F, SepFree isPosixPathSeparator s) (hFne : F ≠ []) :
    ∀ (A out0 : List Char), out0 ≠ [] →
      relOutLoop (A ++ List.intercalate ['/'] F)
          (A ++ List.intercalate ['/'] F).length CHAR_FORWARD_SLASH '/'
          ((List.intercalate ['/'] F).length + 1) A.length out0 =
        out0 ++ '/' ::
          List.intercalate ['/'] (List.replicate F.length ['.', '.']) := by
  induction F with
  | nil => exact absurd rfl hFne
  | cons f1 F' ih =>
    intro A out0 hout
    have hemit : ((out0.length : Nat) == 0) = false := by
      simp [hout]
    cases F' with
    | nil =>
      rw [intercalate_single]
      have h1 := relOut_skip f1 (hF f1 (List.mem_cons_self _ _)) A [] 1 out0
      rw [List.append_nil] at h1
      rw [h1, show A.length + f1.length = (A ++ f1).length by simp,
        relOut_end (A ++ f1) out0, hemit]
      rw [if_neg Bool.false_ne_true]
      rfl
    | cons f2 F'' =>
      have hform : ∀ (Z : List (List Char)), Z ≠ [] →
          A ++ List.intercalate ['/'] (f1 :: Z) =
            (A ++ f1) ++ '/' :: List.intercalate ['/'] Z := by
        intro Z hZ
        obtain ⟨z, zs, rfl⟩ : ∃ z zs, Z = z :: zs := by
          cases Z with
          | nil => exact absurd rfl hZ
          | cons a b => exact ⟨a, b, rfl⟩
        rw [intercalate_cons₂]
        simp
      rw [hform (f2 :: F'') (by simp)]
      have hlen : (List.intercalate ['/'] (f1 :: f2 :: F'')).length =
          f1.length + 1 + (List.intercalate ['/'] (f2 :: F'')).length := by
        rw [intercalate_cons₂]
        simp only [List.length_append, List.length_cons]
        omega
      have h1 := relOut_skip f1 (hF f1 (List.mem_cons_self _ _)) A
        ('/' :: List.intercalate ['/'] (f2 :: F''))
        ((List.intercalate ['/'] (f2 :: F'')).length + 2) out0
      rw [show A ++ (f1 ++ '/' :: List.intercalate ['/'] (f2 :: F'')) =
        (A ++ f1) ++ '/' :: List.intercalate ['/'] (f2 :: F'') by simp] at h1
      rw [show (List.intercalate ['/'] (f1 :: f2 :: F'')).length + 1 =
        f1.length + ((List.intercalate ['/'] (f2 :: F'')).length + 2) by
          rw [hlen]
          omega, h1]
      have h2 := relOut_sep (A ++ f1) (List.intercalate ['/'] (f2 :: F''))
        ((List.intercalate ['/'] (f2 :: F'')).length + 1) out0
      rw [show (A ++ f1).length = A.length + f1.length by simp; try omega] at h2
      rw [h2, hemit]
      rw [if_neg Bool.false_ne_true]
      have h3 := ih (fun s hs => hF s (List.mem_cons_of_mem _ hs)) (by simp)
        (A ++ f1 ++ ['/']) (out0 ++ '/' :: ['.', '.']) (by simp)
      rw [show (A ++ f1 ++ ['/']) ++ List.intercalate ['/'] (f2 :: F'') =
          (A ++ f1) ++ '/' :: List.intercalate ['/'] (f2 :: F'') by simp,
        show (A ++ f1 ++ ['/']).length = A.length + f1.length + 1 by simp; try omega]
        at h3
      rw [h3]
      rw [show List.replicate (f1 :: f2 :: F'').length ['.', '.'] =
        ['.', '.'] :: ['.', '.'] :: List.replicate F''.length ['.', '.'] from rfl,
        intercalate_cons₂]
      rw [show (['.', '.'] :: List.replicate F''.length ['.', '.']) =
        List.replicate (f2 :: F'').length ['.', '.'] from rfl]
      simp

theorem relOut_dots (F : List (List Char))
    (hF : ∀ s ∈ F, SepFree isPosixPathSeparator s) (hFne : F ≠ []) (A : List Char) :
    relOutLoop (A ++ List.intercalate ['/'] F)
        (A ++ List.intercalate ['/'] F).length CHAR_FORWARD_SLASH '/'
        ((List.intercalate ['/'] F).length + 1) A.length [] =
      List.intercalate ['/'] (List.replicate F.length ['.', '.']) := by
  obtain ⟨f1, F', rfl⟩ : ∃ f1 F', F = f1 :: F' := by
    cases F with
    | nil => exact absurd rfl hFne
    | cons a b => exact ⟨a, b, rfl⟩
  cases F' with
  | nil =>
    rw [intercalate_single]
    have h1 := relOut_skip f1 (hF f1 (List.mem_cons_self _ _)) A [] 1 []
    rw [List.append_nil] at h1
    rw [h1, show A.length + f1.length = (A ++ f1).length by simp,
      relOut_end (A ++ f1) []]
    rfl
  | cons f2 F'' =>
    have hform : A ++ List.intercalate ['/'] (f1 :: f2 :: F'') =
        (A ++ f1) ++ '/' :: List.intercalate ['/'] (f2 :: F'') := by
      rw [intercalate_cons₂]
      simp
    rw [hform]
    have hlen : (List.intercalate ['/'] (f1 :: f2 :: F'')).length =
        f1.length + 1 + (List.intercalate ['/'] (f2 :: F'')).length := by
      rw [intercalate_cons₂]
      simp only [List.length_append, List.length_cons]
      omega
    have h1 := relOut_skip f1 (hF f1 (List.mem_cons_self _ _)) A
      ('/' :: List.intercalate ['/'] (f2 :: F''))
      ((List.intercalate ['/'] (f2 :: F'')).length + 2) []
    rw [show A ++ (f1 ++ '/' :: List.intercalate ['/'] (f2 :: F'')) =
      (A ++ f1) ++ '/' :: List.intercalate ['/'] (f2 :: F'') by simp] at h1
    rw [show (List.intercalate ['/'] (f1 :: f2 :: F'')).length + 1 =
      f1.length + ((List.intercalate ['/'] (f2 :: F'')).length + 2) by
        rw [hlen]
        omega, h1]
    have h2 := relOut_sep (A ++ f1) (List.intercalate ['/'] (f2 :: F''))
      ((List.intercalate ['/'] (f2 :: F'')).length + 1) []
    rw [show (A ++ f1).length = A.length + f1.length by simp; try omega] at h2
    rw [h2]
    rw [show (if ((([] : List Char)).length == 0) = true then ['.', '.']
      else ([] : List Char) ++ '/' :: ['.', '.']) = ['.', '.'] from rfl]
    have h3 := relOut_dots_go (f2 :: F'')
      (fun s hs => hF s (List.mem_cons_of_mem _ hs)) (by simp)
      (A ++ f1 ++ ['/']) ['.', '.'] (by simp)
    rw [show (A ++ f1 ++ ['/']) ++ List.intercalate ['/'] (f2 :: F'') =
        (A ++ f1) ++ '/' :: List.intercalate ['/'] (f2 :: F'') by simp,
      show (A ++ f1 ++ ['/']).length = A.length + f1.length + 1 by simp; try omega]
      at h3
    rw [h3]
    rw [show List.replicate (f1 :: f2 :: F'').length ['.', '.'] =
      ['.', '.'] :: List.replicate (f2 :: F'').length ['.', '.'] from rfl]
    rw [show List.replicate (f2 :: F'').length ['.', '.'] =
      ['.', '.'] :: List.replicate F''.length ['.', '.'] from rfl,
      intercalate_cons₂]

theorem intercalate_head_cons (sep : Char) (c0 : Char) (f0' : List Char)
    (F' : List (List Char)) :
    List.intercalate [sep] ((c0 :: f0') :: F') =
      c0 :: List.intercalate [sep] (f0' :: F') := by
  cases F' with
  | nil => rw [intercalate_single, intercalate_single]
  | cons g G =>
    rw [intercalate_cons₂, intercalate_cons₂]
    rfl

theorem exists_lcp : ∀ (f0 t0 : List Char), f0 ≠ t0 →
    ∃ K X Y, f0 = K ++ X ∧ t0 = K ++ Y ∧
      (∀ x X' y Y', X = x :: X' → Y = y :: Y' → x ≠ y) ∧ (X ≠ [] ∨ Y ≠ []) := by
  intro f0
  induction f0 with
  | nil =>
    intro t0 hne
    refine ⟨[], [], t0, rfl, rfl, ?_, Or.inr (fun h => hne h.symm)⟩
    intro x X' y Y' hX _
    exact absurd hX (by simp)
  | cons a f0'' ih =>
    intro t0 hne
    cases t0 with
    | nil =>
      refine ⟨[], a :: f0'', [], rfl, rfl, ?_, Or.inl (by simp)⟩
      intro x X' y Y' _ hY
      exact absurd hY (by simp)
    | cons b t0'' =>
      by_cases hab : a = b
      · subst hab
        have hne'' : f0'' ≠ t0'' := fun h => hne (by rw [h])
        obtain ⟨K, X, Y, h1, h2, h3, h4⟩ := ih t0'' hne''
        exact ⟨a :: K, X, Y, by rw [List.cons_append, ← h1],
          by rw [List.cons_append, ← h2], h3, h4⟩
      · refine ⟨[], a :: f0'', b :: t0'', rfl, rfl, ?_, Or.inl (by simp)⟩
        intro x X' y Y' hX hY
        cases hX
        cases hY
        exact hab

theorem replicate_dots_ne_nil (n : Nat) (hn : n ≠ 0) :
    List.replicate n (['.', '.'] : List Char) ≠ [] := by
  cases n with
  | zero => exact absurd rfl hn
  | succ m => simp [List.replicate]

theorem posRelFinish_endgame (C F T : List (List Char))
    (hCsf : ∀ s ∈ C, SepFree isPosixPathSeparator s)
    (hFsf : ∀ s ∈ F, SepFree isPosixPathSeparator s)
    (hFne : F ≠ []) (hTne : T ≠ []) :
    posRelFinish ('/' :: List.intercalate ['/'] (C ++ F))
        ('/' :: List.intercalate ['/'] (C ++ T)) 1
        ('/' :: List.intercalate ['/'] (C ++ F)).length 1
        (if C = [] then (-1 : Int) else ((List.intercalate ['/'] C).length : Int)) =
      List.intercalate ['/'] (List.replicate F.length ['.', '.'] ++ T) := by
  have hFlen : F.length ≠ 0 := by
    intro h
    exact hFne (List.length_eq_zero.mp h)
  have hrep : List.replicate F.length (['.', '.'] : List Char) ≠ [] :=
    replicate_dots_ne_nil F.length hFlen
  by_cases hC0 : C = []
  · subst hC0
    rw [if_pos rfl]
    simp only [List.nil_append]
    unfold posRelFinish
    dsimp only
    rw [show (((1 : Nat) : Int) + -1 + 1).toNat = 1 from by decide]
    have hout := relOut_dots F hFsf hFne ['/']
    rw [show ((['/'] : List Char) ++ List.intercalate ['/'] F) =
        '/' :: List.intercalate ['/'] F from rfl,
      show ((['/'] : List Char)).length = 1 from rfl] at hout
    rw [show ('/' :: List.intercalate ['/'] F).length + 1 - 1 =
      (List.intercalate ['/'] F).length + 1 from by simp]
    rw [hout]
    rw [show (((1 : Nat) : Int) + -1).toNat = 0 from by decide, List.drop_zero]
    rw [intercalate_append₂ '/' _ T hrep hTne]
  · rw [if_neg hC0]
    have hCFi : List.intercalate ['/'] (C ++ F) =
        List.intercalate ['/'] C ++ '/' :: List.intercalate ['/'] F :=
      intercalate_append₂ '/' C F hC0 hFne
    have hCTi : List.intercalate ['/'] (C ++ T) =
        List.intercalate ['/'] C ++ '/' :: List.intercalate ['/'] T :=
      intercalate_append₂ '/' C T hC0 hTne
    rw [hCFi, hCTi]
    unfold posRelFinish
    dsimp only
    rw [show (((1 : Nat) : Int) + ((List.intercalate ['/'] C).length : Int) + 1).toNat
      = ('/' :: List.intercalate ['/'] C ++ ['/']).length from by
        simp only [List.length_cons, List.length_append, List.length_nil]
        omega]
    have hout := relOut_dots F hFsf hFne ('/' :: List.intercalate ['/'] C ++ ['/'])
    rw [show (('/' :: List.intercalate ['/'] C ++ ['/']) ++
        List.intercalate ['/'] F) =
      '/' :: (List.intercalate ['/'] C ++ '/' :: List.intercalate ['/'] F)
      from by simp] at hout
    rw [show ('/' :: (List.intercalate ['/'] C ++ '/' :: List.intercalate ['/'] F)).length
        + 1 - ('/' :: List.intercalate ['/'] C ++ ['/']).length =
      (List.intercalate ['/'] F).length + 1 from by
        simp only [List.length_cons, List.length_append, List.length_nil]
        omega]
    rw [hout]
    rw [show (((1 : Nat) : Int) + ((List.intercalate ['/'] C).length : Int)).toNat =
      ('/' :: List.intercalate ['/'] C).length from by
        simp only [List.length_cons]
        omega]
    rw [show ('/' :: (List.intercalate ['/'] C ++ '/' :: List.intercalate ['/'] T)) =
      ('/' :: List.intercalate ['/'] C) ++ '/' :: List.intercalate ['/'] T
      from by simp, List.drop_left]
    rw [intercalate_append₂ '/' _ T hrep hTne]

theorem codeAt_len (l : List Char) : codeAt l l.length = none := by
  unfold codeAt
  rw [List.getElem?_eq_none (le_refl _)]
  rfl

theorem posRel_C_nil (cwd : List Char) (f0 t0 : List Char) (F' T' : List (List Char))
    (hF : ∀ s ∈ f0 :: F', GoodSeg isPosixPathSeparator s)
    (hT : ∀ s ∈ t0 :: T', GoodSeg isPosixPathSeparator s)
    (hft : f0 ≠ t0) :
    posRelative cwd ('/' :: List.intercalate ['/'] (f0 :: F'))
        ('/' :: List.intercalate ['/'] (t0 :: T')) =
      List.intercalate ['/']
        (List.replicate (f0 :: F').length ['.', '.'] ++ (t0 :: T')) := by
  obtain ⟨K, X, Y, rfl, rfl, hXY, hne0⟩ := exists_lcp f0 t0 hft
  have hfsf : SepFree isPosixPathSeparator (K ++ X) :=
    (hF _ (List.mem_cons_self _ _)).2.2.2
  have htsf : SepFree isPosixPathSeparator (K ++ Y) :=
    (hT _ (List.mem_cons_self _ _)).2.2.2
  have hKsf : SepFree isPosixPathSeparator K :=
    fun c hc => hfsf c (List.mem_append_left _ hc)
  have hXsf : SepFree isPosixPathSeparator X :=
    fun c hc => hfsf c (List.mem_append_right _ hc)
  have hYsf : SepFree isPosixPathSeparator Y :=
    fun c hc => htsf c (List.mem_append_right _ hc)
  obtain ⟨Rf, hRf, hRfc⟩ : ∃ Rf,
      List.intercalate ['/'] ((K ++ X) :: F') = K ++ (X ++ Rf) ∧
        ((Rf = [] ∧ F' = []) ∨ ∃ Rf', Rf = '/' :: Rf') := by
    cases F' with
    | nil =>
      exact ⟨[], by rw [intercalate_single, List.append_nil],
        Or.inl ⟨rfl, rfl⟩⟩
    | cons g G =>
      refine ⟨'/' :: List.intercalate ['/'] (g :: G), ?_, Or.inr ⟨_, rfl⟩⟩
      rw [intercalate_cons₂]
      simp [List.append_assoc]
  obtain ⟨Rt, hRt, hRtc⟩ : ∃ Rt,
      List.intercalate ['/'] ((K ++ Y) :: T') = K ++ (Y ++ Rt) ∧
        ((Rt = [] ∧ T' = []) ∨ ∃ Rt', Rt = '/' :: Rt') := by
    cases T' with
    | nil =>
      exact ⟨[], by rw [intercalate_single, List.append_nil],
        Or.inl ⟨rfl, rfl⟩⟩
    | cons g G =>
      refine ⟨'/' :: List.intercalate ['/'] (g :: G), ?_, Or.inr ⟨_, rfl⟩⟩
      rw [intercalate_cons₂]
      simp [List.append_assoc]
  have hKne : K ++ X ≠ [] := (hF _ (List.mem_cons_self _ _)).1
  have hKYne : K ++ Y ≠ [] := (hT _ (List.mem_cons_self _ _)).1
  have hXRne : X ++ Rf ≠ Y ++ Rt := by
    cases X with
    | cons x X' =>
      cases Y with
      | cons y Y' =>
        intro h
        simp only [List.cons_append] at h
        injection h with h1 _
        exact (hXY x X' y Y' rfl rfl) h1
      | nil =>
        rcases hRtc with ⟨hRt0, -⟩ | ⟨Rt', rfl⟩
        · subst hRt0
          intro h
          exact absurd h (by simp)
        · intro h
          simp only [List.cons_append, List.nil_append] at h
          injection h with h1 _
          have := hXsf x (List.mem_cons_self _ _)
          rw [h1] at this
          exact absurd this (by decide)
    | nil =>
      cases Y with
      | cons y Y' =>
        rcases hRfc with ⟨hRf0, -⟩ | ⟨Rf', rfl⟩
        · subst hRf0
          intro h
          exact absurd h.symm (by simp)
        · intro h
          simp only [List.cons_append, List.nil_append] at h
          injection h with h1 _
          have := hYsf y (List.mem_cons_self _ _)
          rw [← h1] at this
          exact absurd this (by decide)
      | nil =>
        rcases hne0 with h | h
        · exact absurd rfl h
        · exact absurd rfl h
  have hPT : ¬ ('/' :: List.intercalate ['/'] ((K ++ X) :: F')) =
      '/' :: List.intercalate ['/'] ((K ++ Y) :: T') := by
    intro h
    injection h with _ h2
    rw [hRf, hRt] at h2
    exact hXRne (List.append_cancel_left h2)
  have hlenF : (List.intercalate ['/'] ((K ++ X) :: F')).length =
      K.length + (X ++ Rf).length := by
    rw [hRf]
    simp
  have hlenT : (List.intercalate ['/'] ((K ++ Y) :: T')).length =
      K.length + (Y ++ Rt).length := by
    rw [hRt]
    simp
  have hmis : codeAt ('/' :: List.intercalate ['/'] ((K ++ X) :: F'))
        (1 + K.length) ≠
      codeAt ('/' :: List.intercalate ['/'] ((K ++ Y) :: T')) (1 + K.length) := by
    rw [codeAt_one_add, codeAt_one_add, hRf, hRt]
    have hcf : ∀ (Z : List Char), Z ≠ [] →
        ∀ z, Z.headD ' ' = z → Z = z :: Z.tail → True := fun _ _ _ _ _ => trivial
    cases X with
    | cons x X' =>
      have hx : codeAt (K ++ ((x :: X') ++ Rf)) K.length = some x.toNat := by
        rw [show K ++ ((x :: X') ++ Rf) = K ++ x :: (X' ++ Rf) from rfl]
        exact codeAt_mid _ _ _
      rw [hx]
      have hxns := hXsf x (List.mem_cons_self _ _)
      cases Y with
      | cons y Y' =>
        have hy : codeAt (K ++ ((y :: Y') ++ Rt)) K.length = some y.toNat := by
          rw [show K ++ ((y :: Y') ++ Rt) = K ++ y :: (Y' ++ Rt) from rfl]
          exact codeAt_mid _ _ _
        rw [hy]
        intro h
        injection h with h1
        exact (hXY x X' y Y' rfl rfl) (char_toNat_inj h1)
      | nil =>
        rcases hRtc with ⟨hRt0, -⟩ | ⟨Rt', rfl⟩
        · subst hRt0
          rw [show K ++ (([] : List Char) ++ []) = K from by simp, codeAt_len]
          simp
        · rw [show K ++ (([] : List Char) ++ '/' :: Rt') = K ++ '/' :: Rt'
            from by simp, codeAt_mid]
          intro h
          injection h with h1
          have := char_toNat_inj h1
          rw [this] at hxns
          exact absurd hxns (by decide)
    | nil =>
      cases Y with
      | cons y Y' =>
        have hy : codeAt (K ++ ((y :: Y') ++ Rt)) K.length = some y.toNat := by
          rw [show K ++ ((y :: Y') ++ Rt) = K ++ y :: (Y' ++ Rt) from rfl]
          exact codeAt_mid _ _ _
        rw [hy]
        have hyns := hYsf y (List.mem_cons_self _ _)
        rcases hRfc with ⟨hRf0, -⟩ | ⟨Rf', rfl⟩
        · subst hRf0
          rw [show K ++ (([] : List Char) ++ []) = K from by simp, codeAt_len]
          simp
        · rw [show K ++ (([] : List Char) ++ '/' :: Rf') = K ++ '/' :: Rf'
            from by simp, codeAt_mid]
          intro h
          injection h with h1
          have := char_toNat_inj h1
          rw [← this] at hyns
          exact absurd hyns (by decide)
      | nil =>
        rcases hne0 with h | h
        · exact absurd rfl h
        · exact absurd rfl h
  unfold posRelative
  rw [if_neg hPT]
  dsimp only
  rw [posResolve_abs_clean cwd ((K ++ X) :: F') (by simp) hF,
    posResolve_abs_clean cwd ((K ++ Y) :: T') (by simp) hT]
  rw [if_neg hPT]
  rw [show ('/' :: List.intercalate ['/'] ((K ++ X) :: F')).length - 1 =
      (List.intercalate ['/'] ((K ++ X) :: F')).length from by simp,
    show ('/' :: List.intercalate ['/'] ((K ++ Y) :: T')).length - 1 =
      (List.intercalate ['/'] ((K ++ Y) :: T')).length from by simp]
  generalize hL : (if (List.intercalate ['/'] ((K ++ X) :: F')).length <
      (List.intercalate ['/'] ((K ++ Y) :: T')).length then
        (List.intercalate ['/'] ((K ++ X) :: F')).length
      else (List.intercalate ['/'] ((K ++ Y) :: T')).length) = L
  have hLf : L ≤ (List.intercalate ['/'] ((K ++ X) :: F')).length ∧
      L ≤ (List.intercalate ['/'] ((K ++ Y) :: T')).length ∧
      (L = (List.intercalate ['/'] ((K ++ X) :: F')).length ∨
        L = (List.intercalate ['/'] ((K ++ Y) :: T')).length) := by
    rw [← hL]
    split
    · exact ⟨le_refl _, by omega, Or.inl rfl⟩
    · exact ⟨by omega, le_refl _, Or.inr rfl⟩
  have hKL : K.length ≤ L := by
    rcases hLf.2.2 with h | h
    · rw [h, hlenF]
      omega
    · rw [h, hlenT]
      omega
  have hscan : relScanLoop ('/' :: List.intercalate ['/'] ((K ++ X) :: F'))
      ('/' :: List.intercalate ['/'] ((K ++ Y) :: T')) 1 1 CHAR_FORWARD_SLASH
      L 0 (-1) = (K.length, -1) := by
    have hrun := relScan_seg K hKsf [] (X ++ Rf) (Y ++ Rt) (L - K.length) (-1)
    simp only [List.nil_append, List.length_nil, Nat.zero_add] at hrun
    rw [show K.length + (L - K.length) = L from by omega, ← hRf, ← hRt] at hrun
    rw [hrun]
    cases hfuel : L - K.length with
    | zero => rfl
    | succ m => exact relScan_stop _ _ K.length (-1) m hmis
  rw [hscan]
  dsimp only
  by_cases hKLe : K.length = L
  · rw [show ((K.length : Nat) == L) = true from beq_iff_eq.mpr hKLe, if_pos rfl]
    by_cases hTL : (List.intercalate ['/'] ((K ++ Y) :: T')).length > L
    · rw [if_pos hTL]
      have hLeqF : L = (List.intercalate ['/'] ((K ++ X) :: F')).length := by
        rcases hLf.2.2 with h | h
        · exact h
        · omega
      have hXRf0 : X ++ Rf = [] := by
        have := hlenF
        rw [← hLeqF, ← hKLe] at this
        have hl0 : (X ++ Rf).length = 0 := by omega
        exact List.length_eq_zero.mp hl0
      have hX0 : X = [] := (List.append_eq_nil.mp hXRf0).1
      have hY : Y ≠ [] := by
        rcases hne0 with h | h
        · exact absurd hX0 h
        · exact h
      obtain ⟨y, Y', rfl⟩ : ∃ y Y', Y = y :: Y' := by
        cases Y with
        | nil => exact absurd rfl hY
        | cons a b => exact ⟨a, b, rfl⟩
      have hycode : codeAt ('/' :: List.intercalate ['/'] ((K ++ (y :: Y')) :: T'))
          (1 + K.length) = some y.toNat := by
        rw [codeAt_one_add, hRt,
          show K ++ ((y :: Y') ++ Rt) = K ++ y :: (Y' ++ Rt) from rfl]
        exact codeAt_mid _ _ _
      rw [hycode]
      rw [show ((some y.toNat : Option Nat) == some CHAR_FORWARD_SLASH) = false
        from by
          have := hYsf y (List.mem_cons_self _ _)
          unfold isPosixPathSeparator at this
          exact someBeq_false this]
      rw [if_neg Bool.false_ne_true]
      have hKne' : K ≠ [] := by
        rw [hX0, List.append_nil] at hKne
        exact hKne
      rw [show ((K.length : Nat) == 0) = false from by
        refine beq_eq_false_iff_ne.mpr ?_
        have := List.length_pos.mpr hKne'
        omega]
      rw [if_neg Bool.false_ne_true]
      have hend := posRelFinish_endgame [] ((K ++ X) :: F') ((K ++ (y :: Y')) :: T')
        (by simp) (fun s hs => (hF s hs).2.2.2) (by simp) (by simp)
      rw [if_pos rfl] at hend
      simp only [List.nil_append] at hend
      exact hend
    · rw [if_neg hTL]
      have hLeqT : L = (List.intercalate ['/'] ((K ++ Y) :: T')).length := by
        omega
      have hYRt0 : Y ++ Rt = [] := by
        have := hlenT
        rw [← hLeqT, ← hKLe] at this
        have hl0 : (Y ++ Rt).length = 0 := by omega
        exact List.length_eq_zero.mp hl0
      have hY0 : Y = [] := (List.append_eq_nil.mp hYRt0).1
      have hX : X ≠ [] := by
        rcases hne0 with h | h
        · exact h
        · exact absurd hY0 h
      obtain ⟨x, X', rfl⟩ : ∃ x X', X = x :: X' := by
        cases X with
        | nil => exact absurd rfl hX
        | cons a b => exact ⟨a, b, rfl⟩
      have hFL : (List.intercalate ['/'] ((K ++ (x :: X')) :: F')).length > L := by
        rw [hlenF, ← hKLe]
        simp only [List.length_append, List.length_cons]
        omega
      rw [if_pos hFL]
      have hxcode : codeAt ('/' :: List.intercalate ['/'] ((K ++ (x :: X')) :: F'))
          (1 + K.length) = some x.toNat := by
        rw [codeAt_one_add, hRf,
          show K ++ ((x :: X') ++ Rf) = K ++ x :: (X' ++ Rf) from rfl]
        exact codeAt_mid _ _ _
      rw [hxcode]
      rw [show ((some x.toNat : Option Nat) == some CHAR_FORWARD_SLASH) = false
        from by
          have := hXsf x (List.mem_cons_self _ _)
          unfold isPosixPathSeparator at this
          exact someBeq_false this]
      rw [if_neg Bool.false_ne_true]
      have hKne' : K ≠ [] := by
        rw [hY0, List.append_nil] at hKYne
        exact hKYne
      rw [show ((K.length : Nat) == 0) = false from by
        refine beq_eq_false_iff_ne.mpr ?_
        have := List.length_pos.mpr hKne'
        omega]
      rw [if_neg Bool.false_ne_true]
      have hend := posRelFinish_endgame [] ((K ++ (x :: X')) :: F') ((K ++ Y) :: T')
        (by simp) (fun s hs => (hF s hs).2.2.2) (by simp) (by simp)
      rw [if_pos rfl] at hend
      simp only [List.nil_append] at hend
      exact hend
  · rw [show ((K.length : Nat) == L) = false from beq_eq_false_iff_ne.mpr hKLe,
      if_neg Bool.false_ne_true]
    have hend := posRelFinish_endgame [] ((K ++ X) :: F') ((K ++ Y) :: T')
      (by simp) (fun s hs => (hF s hs).2.2.2) (by simp) (by simp)
    rw [if_pos rfl] at hend
    simp only [List.nil_append] at hend
    exact hend

theorem mis_at (A X Y Rf Rt : List Char)
    (hXsf : SepFree isPosixPathSeparator X)
    (hYsf : SepFree isPosixPathSeparator Y)
    (hXY : ∀ x X' y Y', X = x :: X' → Y = y :: Y' → x ≠ y)
    (hne0 : X ≠ [] ∨ Y ≠ [])
    (hRfc : Rf = [] ∨ ∃ Rf', Rf = '/' :: Rf')
    (hRtc : Rt = [] ∨ ∃ Rt', Rt = '/' :: Rt') :
    codeAt (A ++ (X ++ Rf)) A.length ≠ codeAt (A ++ (Y ++ Rt)) A.length := by
  cases X with
  | cons x X' =>
    have hx : codeAt (A ++ ((x :: X') ++ Rf)) A.length = some x.toNat := by
      rw [show A ++ ((x :: X') ++ Rf) = A ++ x :: (X' ++ Rf) from rfl]
      exact codeAt_mid _ _ _
    rw [hx]
    have hxns := hXsf x (List.mem_cons_self _ _)
    cases Y with
    | cons y Y' =>
      have hy : codeAt (A ++ ((y :: Y') ++ Rt)) A.length = some y.toNat := by
        rw [show A ++ ((y :: Y') ++ Rt) = A ++ y :: (Y' ++ Rt) from rfl]
        exact codeAt_mid _ _ _
      rw [hy]
      intro h
      injection h with h1
      exact (hXY x X' y Y' rfl rfl) (char_toNat_inj h1)
    | nil =>
      rcases hRtc with rfl | ⟨Rt', rfl⟩
      · rw [show A ++ (([] : List Char) ++ []) = A from by simp, codeAt_len]
        simp
      · rw [show A ++ (([] : List Char) ++ '/' :: Rt') = A ++ '/' :: Rt'
          from by simp, codeAt_mid]
        intro h
        injection h with h1
        have := char_toNat_inj h1
        rw [this] at hxns
        exact absurd hxns (by decide)
  | nil =>
    cases Y with
    | cons y Y' =>
      have hy : codeAt (A ++ ((y :: Y') ++ Rt)) A.length = some y.toNat := by
        rw [show A ++ ((y :: Y') ++ Rt) = A ++ y :: (Y' ++ Rt) from rfl]
        exact codeAt_mid _ _ _
      rw [hy]
      have hyns := hYsf y (List.mem_cons_self _ _)
      rcases hRfc with rfl | ⟨Rf', rfl⟩
      · rw [show A ++ (([] : List Char) ++ []) = A from by simp, codeAt_len]
        simp
      · rw [show A ++ (([] : List Char) ++ '/' :: Rf') = A ++ '/' :: Rf'
          from by simp, codeAt_mid]
        intro h
        injection h with h1
        have := char_toNat_inj h1
        rw [← this] at hyns
        exact absurd hyns (by decide)
    | nil =>
      rcases hne0 with h | h
      · exact absurd rfl h
      · exact absurd rfl h

theorem posRel_C_cons (cwd : List Char) (C : List (List Char)) (hCne : C ≠ [])
    (f0 t0 : List Char) (F' T' : List (List Char))
    (hC : ∀ s ∈ C, GoodSeg isPosixPathSeparator s)
    (hF : ∀ s ∈ f0 :: F', GoodSeg isPosixPathSeparator s)
    (hT : ∀ s ∈ t0 :: T', GoodSeg isPosixPathSeparator s)
    (hft : f0 ≠ t0) :
    posRelative cwd ('/' :: List.intercalate ['/'] (C ++ f0 :: F'))
        ('/' :: List.intercalate ['/'] (C ++ t0 :: T')) =
      List.intercalate ['/']
        (List.replicate (f0 :: F').length ['.', '.'] ++ (t0 :: T')) := by
  obtain ⟨K, X, Y, rfl, rfl, hXY, hne0⟩ := exists_lcp f0 t0 hft
  have hfsf : SepFree isPosixPathSeparator (K ++ X) :=
    (hF _ (List.mem_cons_self _ _)).2.2.2
  have htsf : SepFree isPosixPathSeparator (K ++ Y) :=
    (hT _ (List.mem_cons_self _ _)).2.2.2
  have hKsf : SepFree isPosixPathSeparator K :=
    fun c hc => hfsf c (List.mem_append_left _ hc)
  have hXsf : SepFree isPosixPathSeparator X :=
    fun c hc => hfsf c (List.mem_append_right _ hc)
  have hYsf : SepFree isPosixPathSeparator Y :=
    fun c hc => htsf c (List.mem_append_right _ hc)
  obtain ⟨Rf, hRf, hRfc⟩ : ∃ Rf,
      List.intercalate ['/'] ((K ++ X) :: F') = K ++ (X ++ Rf) ∧
        (Rf = [] ∨ ∃ Rf', Rf = '/' :: Rf') := by
    cases F' with
    | nil =>
      exact ⟨[], by rw [intercalate_single, List.append_nil], Or.inl rfl⟩
    | cons g G =>
      refine ⟨'/' :: List.intercalate ['/'] (g :: G), ?_, Or.inr ⟨_, rfl⟩⟩
      rw [intercalate_cons₂]
      simp [List.append_assoc]
  obtain ⟨Rt, hRt, hRtc⟩ : ∃ Rt,
      List.intercalate ['/'] ((K ++ Y) :: T') = K ++ (Y ++ Rt) ∧
        (Rt = [] ∨ ∃ Rt', Rt = '/' :: Rt') := by
    cases T' with
    | nil =>
      exact ⟨[], by rw [intercalate_single, List.append_nil], Or.inl rfl⟩
    | cons g G =>
      refine ⟨'/' :: List.intercalate ['/'] (g :: G), ?_, Or.inr ⟨_, rfl⟩⟩
      rw [intercalate_cons₂]
      simp [List.append_assoc]
  have hKne : K ++ X ≠ [] := (hF _ (List.mem_cons_self _ _)).1
  have hKYne : K ++ Y ≠ [] := (hT _ (List.mem_cons_self _ _)).1
  have hsplitF : List.intercalate ['/'] (C ++ (K ++ X) :: F') =
      List.intercalate ['/'] C ++ '/' :: List.intercalate ['/'] ((K ++ X) :: F') :=
    intercalate_append₂ '/' C _ hCne (by simp)
  have hsplitT : List.intercalate ['/'] (C ++ (K ++ Y) :: T') =
      List.intercalate ['/'] C ++ '/' :: List.intercalate ['/'] ((K ++ Y) :: T') :=
    intercalate_append₂ '/' C _ hCne (by simp)
  have hXRne : X ++ Rf ≠ Y ++ Rt := by
    have h := mis_at (List.intercalate ['/'] C ++ ['/'] ++ K) X Y Rf Rt hXsf hYsf
      hXY hne0 hRfc hRtc
    intro heq
    rw [heq] at h
    exact h rfl
  have hPT : ¬ ('/' :: List.intercalate ['/'] (C ++ (K ++ X) :: F')) =
      '/' :: List.intercalate ['/'] (C ++ (K ++ Y) :: T') := by
    intro h
    injection h with _ h2
    rw [hsplitF, hsplitT] at h2
    have h3 := List.append_cancel_left h2
    injection h3 with _ h4
    rw [hRf, hRt] at h4
    exact hXRne (List.append_cancel_left h4)
  have hformF : '/' :: List.intercalate ['/'] (C ++ (K ++ X) :: F') =
      '/' :: (((List.intercalate ['/'] C ++ ['/']) ++ K) ++ (X ++ Rf)) := by
    rw [hsplitF, hRf]
    simp [List.append_assoc]
  have hformT : '/' :: List.intercalate ['/'] (C ++ (K ++ Y) :: T') =
      '/' :: (((List.intercalate ['/'] C ++ ['/']) ++ K) ++ (Y ++ Rt)) := by
    rw [hsplitT, hRt]
    simp [List.append_assoc]
  have hlenF : (List.intercalate ['/'] (C ++ (K ++ X) :: F')).length =
      (List.intercalate ['/'] C).length + 1 + K.length + (X ++ Rf).length := by
    have := congrArg List.length hformF
    simp only [List.length_cons, List.length_append, List.length_nil] at this ⊢
    omega
  have hlenT : (List.intercalate ['/'] (C ++ (K ++ Y) :: T')).length =
      (List.intercalate ['/'] C).length + 1 + K.length + (Y ++ Rt).length := by
    have := congrArg List.length hformT
    simp only [List.length_cons, List.length_append, List.length_nil] at this ⊢
    omega
  unfold posRelative
  rw [if_neg hPT]
  dsimp only
  rw [posResolve_abs_clean cwd (C ++ (K ++ X) :: F') (by simp [hCne]) (by
      intro s hs
      rcases List.mem_append.mp hs with h | h
      · exact hC s h
      · exact hF s h),
    posResolve_abs_clean cwd (C ++ (K ++ Y) :: T') (by simp [hCne]) (by
      intro s hs
      rcases List.mem_append.mp hs with h | h
      · exact hC s h
      · exact hT s h)]
  rw [if_neg hPT]
  rw [show ('/' :: List.intercalate ['/'] (C ++ (K ++ X) :: F')).length - 1 =
      (List.intercalate ['/'] (C ++ (K ++ X) :: F')).length from by simp,
    show ('/' :: List.intercalate ['/'] (C ++ (K ++ Y) :: T')).length - 1 =
      (List.intercalate ['/'] (C ++ (K ++ Y) :: T')).length from by simp]
  generalize hL : (if (List.intercalate ['/'] (C ++ (K ++ X) :: F')).length <
      (List.intercalate ['/'] (C ++ (K ++ Y) :: T')).length then
        (List.intercalate ['/'] (C ++ (K ++ X) :: F')).length
      else (List.intercalate ['/'] (C ++ (K ++ Y) :: T')).length) = L
  have hLf : L ≤ (List.intercalate ['/'] (C ++ (K ++ X) :: F')).length ∧
      L ≤ (List.intercalate ['/'] (C ++ (K ++ Y) :: T')).length ∧
      (L = (List.intercalate ['/'] (C ++ (K ++ X) :: F')).length ∨
        L = (List.intercalate ['/'] (C ++ (K ++ Y) :: T')).length) := by
    rw [← hL]
    split
    · exact ⟨le_refl _, by omega, Or.inl rfl⟩
    · exact ⟨by omega, le_refl _, Or.inr rfl⟩
  have hKL : (List.intercalate ['/'] C).length + 1 + K.length ≤ L := by
    rcases hLf.2.2 with h | h
    · rw [h, hlenF]
      omega
    · rw [h, hlenT]
      omega
  have hmis : codeAt ('/' :: List.intercalate ['/'] (C ++ (K ++ X) :: F'))
        (1 + ((List.intercalate ['/'] C).length + 1 + K.length)) ≠
      codeAt ('/' :: List.intercalate ['/'] (C ++ (K ++ Y) :: T'))
        (1 + ((List.intercalate ['/'] C).length + 1 + K.length)) := by
    rw [hformF, hformT, codeAt_one_add, codeAt_one_add]
    rw [show (List.intercalate ['/'] C).length + 1 + K.length =
      ((List.intercalate ['/'] C ++ ['/']) ++ K).length from by
        simp only [List.length_append, List.length_cons, List.length_nil]
        try omega]
    exact mis_at _ X Y Rf Rt hXsf hYsf hXY hne0 hRfc hRtc
  have hscan : relScanLoop ('/' :: List.intercalate ['/'] (C ++ (K ++ X) :: F'))
      ('/' :: List.intercalate ['/'] (C ++ (K ++ Y) :: T')) 1 1 CHAR_FORWARD_SLASH
      L 0 (-1) = ((List.intercalate ['/'] C).length + 1 + K.length,
        ((List.intercalate ['/'] C).length : Int)) := by
    rw [hformF, hformT]
    have hrun1 := relScan_CSlash C (fun s hs => (hC s hs).2.2.2) hCne []
      (K ++ (X ++ Rf)) (K ++ (Y ++ Rt)) (L - ((List.intercalate ['/'] C).length + 1))
      (-1)
    simp only [List.nil_append, List.length_nil, Nat.zero_add] at hrun1
    rw [show (List.intercalate ['/'] C).length + 1 +
        (L - ((List.intercalate ['/'] C).length + 1)) = L from by omega] at hrun1
    rw [show ((List.intercalate ['/'] C ++ ['/']) ++ K) ++ (X ++ Rf) =
        (List.intercalate ['/'] C ++ ['/']) ++ (K ++ (X ++ Rf)) from by
        simp [List.append_assoc],
      show ((List.intercalate ['/'] C ++ ['/']) ++ K) ++ (Y ++ Rt) =
        (List.intercalate ['/'] C ++ ['/']) ++ (K ++ (Y ++ Rt)) from by
        simp [List.append_assoc]]
    rw [hrun1]
    have hrun2 := relScan_seg K hKsf (List.intercalate ['/'] C ++ ['/'])
      (X ++ Rf) (Y ++ Rt) (L - ((List.intercalate ['/'] C).length + 1 + K.length))
      (((List.intercalate ['/'] C).length : Int))
    rw [show (List.intercalate ['/'] C ++ ['/']).length =
      (List.intercalate ['/'] C).length + 1 from by
        simp only [List.length_append, List.length_cons, List.length_nil]
        try omega] at hrun2
    rw [show L - ((List.intercalate ['/'] C).length + 1) =
      K.length + (L - ((List.intercalate ['/'] C).length + 1 + K.length)) from by
        omega]
    rw [hrun2]
    rw [show (List.intercalate ['/'] C).length + 1 + K.length =
      ((List.intercalate ['/'] C ++ ['/']) ++ K).length from by
        simp only [List.length_append, List.length_cons, List.length_nil]
        try omega] at hmis
    rw [hformF, hformT] at hmis
    cases hfuel : L - ((List.intercalate ['/'] C).length + 1 + K.length) with
    | zero =>
      rw [show (List.intercalate ['/'] C).length + 1 + K.length =
        ((List.intercalate ['/'] C ++ ['/']) ++ K).length from by
          simp only [List.length_append, List.length_cons, List.length_nil]
          try omega]
      rfl
    | succ m =>
      rw [show (List.intercalate ['/'] C).length + 1 + K.length =
        ((List.intercalate ['/'] C ++ ['/']) ++ K).length from by
          simp only [List.length_append, List.length_cons, List.length_nil]
          try omega]
      refine relScan_stop _ _ _ _ m ?_
      rw [codeAt_one_add, codeAt_one_add]
      rw [codeAt_one_add, codeAt_one_add] at hmis
      rw [show (List.intercalate ['/'] C ++ ['/']) ++ (K ++ (X ++ Rf)) =
          ((List.intercalate ['/'] C ++ ['/']) ++ K) ++ (X ++ Rf) from by simp,
        show (List.intercalate ['/'] C ++ ['/']) ++ (K ++ (Y ++ Rt)) =
          ((List.intercalate ['/'] C ++ ['/']) ++ K) ++ (Y ++ Rt) from by simp]
      exact hmis
  rw [hscan]
  dsimp only
  by_cases hKLe : (List.intercalate ['/'] C).length + 1 + K.length = L
  · rw [show (((List.intercalate ['/'] C).length + 1 + K.length : Nat) == L) = true
      from beq_iff_eq.mpr hKLe, if_pos rfl]
    by_cases hTL : (List.intercalate ['/'] (C ++ (K ++ Y) :: T')).length > L
    · rw [if_pos hTL]
      have hXRf0 : X ++ Rf = [] := by
        have hLeqF : L = (List.intercalate ['/'] (C ++ (K ++ X) :: F')).length := by
          rcases hLf.2.2 with h | h
          · exact h
          · omega
        rw [hlenF, ← hKLe] at hLeqF
        exact List.length_eq_zero.mp (by omega)
      have hX0 : X = [] := (List.append_eq_nil.mp hXRf0).1
      have hY : Y ≠ [] := by
        rcases hne0 with h | h
        · exact absurd hX0 h
        · exact h
      obtain ⟨y, Y', rfl⟩ : ∃ y Y', Y = y :: Y' := by
        cases Y with
        | nil => exact absurd rfl hY
        | cons a b => exact ⟨a, b, rfl⟩
      have hycode : codeAt ('/' :: List.intercalate ['/'] (C ++ (K ++ (y :: Y')) :: T'))
          (1 + ((List.intercalate ['/'] C).length + 1 + K.length)) =
          some y.toNat := by
        rw [hformT, codeAt_one_add,
          show (List.intercalate ['/'] C).length + 1 + K.length =
            ((List.intercalate ['/'] C ++ ['/']) ++ K).length from by
            simp only [List.length_append, List.length_cons, List.length_nil]
            try omega,
          show ((List.intercalate ['/'] C ++ ['/']) ++ K) ++ ((y :: Y') ++ Rt) =
            ((List.intercalate ['/'] C ++ ['/']) ++ K) ++ y :: (Y' ++ Rt) from rfl]
        exact codeAt_mid _ _ _
      rw [hycode]
      rw [show ((some y.toNat : Option Nat) == some CHAR_FORWARD_SLASH) = false
        from by
          have := hYsf y (List.mem_cons_self _ _)
          unfold isPosixPathSeparator at this
          exact someBeq_false this]
      rw [if_neg Bool.false_ne_true]
      rw [show (((List.intercalate ['/'] C).length + 1 + K.length : Nat) == 0) =
        false from by
          refine beq_eq_false_iff_ne.mpr ?_
          omega]
      rw [if_neg Bool.false_ne_true]
      have hend := posRelFinish_endgame C ((K ++ X) :: F') ((K ++ (y :: Y')) :: T')
        (fun s hs => (hC s hs).2.2.2) (fun s hs => (hF s hs).2.2.2)
        (by simp) (by simp)
      rw [if_neg hCne] at hend
      exact hend
    · rw [if_neg hTL]
      have hYRt0 : Y ++ Rt = [] := by
        have hLeqT : L = (List.intercalate ['/'] (C ++ (K ++ Y) :: T')).length := by
          omega
        rw [hlenT, ← hKLe] at hLeqT
        exact List.length_eq_zero.mp (by omega)
      have hY0 : Y = [] := (List.append_eq_nil.mp hYRt0).1
      have hX : X ≠ [] := by
        rcases hne0 with h | h
        · exact h
        · exact absurd hY0 h
      obtain ⟨x, X', rfl⟩ : ∃ x X', X = x :: X' := by
        cases X with
        | nil => exact absurd rfl hX
        | cons a b => exact ⟨a, b, rfl⟩
      have hFL : (List.intercalate ['/'] (C ++ (K ++ (x :: X')) :: F')).length > L := by
        rw [hlenF, ← hKLe]
        simp only [List.length_append, List.length_cons]
        omega
      rw [if_pos hFL]
      have hxcode : codeAt ('/' :: List.intercalate ['/'] (C ++ (K ++ (x :: X')) :: F'))
          (1 + ((List.intercalate ['/'] C).length + 1 + K.length)) =
          some x.toNat := by
        rw [hformF, codeAt_one_add,
          show (List.intercalate ['/'] C).length + 1 + K.length =
            ((List.intercalate ['/'] C ++ ['/']) ++ K).length from by
            simp only [List.length_append, List.length_cons, List.length_nil]
            try omega,
          show ((List.intercalate ['/'] C ++ ['/']) ++ K) ++ ((x :: X') ++ Rf) =
            ((List.intercalate ['/'] C ++ ['/']) ++ K) ++ x :: (X' ++ Rf) from rfl]
        exact codeAt_mid _ _ _
      rw [hxcode]
      rw [show ((some x.toNat : Option Nat) == some CHAR_FORWARD_SLASH) = false
        from by
          have := hXsf x (List.mem_cons_self _ _)
          unfold isPosixPathSeparator at this
          exact someBeq_false this]
      rw [if_neg Bool.false_ne_true]
      rw [show (((List.intercalate ['/'] C).length + 1 + K.length : Nat) == 0) =
        false from by
          refine beq_eq_false_iff_ne.mpr ?_
          omega]
      rw [if_neg Bool.false_ne_true]
      have hend := posRelFinish_endgame C ((K ++ (x :: X')) :: F') ((K ++ Y) :: T')
        (fun s hs => (hC s hs).2.2.2) (fun s hs => (hF s hs).2.2.2)
        (by simp) (by simp)
      rw [if_neg hCne] at hend
      exact hend
  · rw [show (((List.intercalate ['/'] C).length + 1 + K.length : Nat) == L) = false
      from beq_eq_false_iff_ne.mpr hKLe, if_neg Bool.false_ne_true]
    have hend := posRelFinish_endgame C ((K ++ X) :: F') ((K ++ Y) :: T')
      (fun s hs => (hC s hs).2.2.2) (fun s hs => (hF s hs).2.2.2)
      (by simp) (by simp)
    rw [if_neg hCne] at hend
    exact hend

theorem posResolve_root (cwd : List Char) : posResolve cwd [['/']] = ['/'] := rfl

theorem posRel_A1 (cwd : List Char) (T : List (List Char))
    (hT : ∀ s ∈ T, GoodSeg isPosixPathSeparator s) (hTne : T ≠ []) :
    posRelative cwd ['/'] ('/' :: List.intercalate ['/'] T) =
      List.intercalate ['/'] T := by
  have hiT : List.intercalate ['/'] T ≠ [] :=
    intercalate_ne_nil '/' T hTne (fun s hs => (hT s hs).1)
  have hPT : ¬ (['/'] : List Char) = '/' :: List.intercalate ['/'] T := by
    intro h
    injection h with _ h2
    exact hiT h2.symm
  obtain ⟨t0, T', rfl⟩ : ∃ t0 T', T = t0 :: T' := by
    cases T with
    | nil => exact absurd rfl hTne
    | cons a b => exact ⟨a, b, rfl⟩
  obtain ⟨c, t0t, rfl⟩ : ∃ c t0t, t0 = c :: t0t := by
    cases t0 with
    | nil => exact absurd rfl (hT _ (List.mem_cons_self _ _)).1
    | cons a b => exact ⟨a, b, rfl⟩
  have hchead : List.intercalate ['/'] ((c :: t0t) :: T') =
      c :: List.intercalate ['/'] (t0t :: T') := intercalate_head_cons '/' c t0t T'
  unfold posRelative
  rw [if_neg hPT]
  dsimp only
  rw [posResolve_root,
    posResolve_abs_clean cwd ((c :: t0t) :: T') (by simp) hT]
  rw [if_neg hPT]
  rw [show (['/'] : List Char).length - 1 = 0 from rfl,
    show ('/' :: List.intercalate ['/'] ((c :: t0t) :: T')).length - 1 =
      (List.intercalate ['/'] ((c :: t0t) :: T')).length from by simp]
  have h0 : 0 < (List.intercalate ['/'] ((c :: t0t) :: T')).length := by
    rw [hchead]
    simp
  rw [if_pos h0]
  rw [show relScanLoop ['/'] ('/' :: List.intercalate ['/'] ((c :: t0t) :: T')) 1 1
      CHAR_FORWARD_SLASH 0 0 (-1) = ((0 : Nat), (-1 : Int)) from rfl]
  dsimp only
  rw [show ((0 : Nat) == 0) = true from rfl, if_pos rfl, if_pos h0]
  have hcode : codeAt ('/' :: List.intercalate ['/'] ((c :: t0t) :: T')) (1 + 0) =
      some c.toNat := by
    rw [hchead, codeAt_one_add, codeAt_cons_zero]
  rw [hcode]
  rw [show ((some c.toNat : Option Nat) == some CHAR_FORWARD_SLASH) = false from by
    have := (hT _ (List.mem_cons_self _ _)).2.2.2 c (List.mem_cons_self _ _)
    unfold isPosixPathSeparator at this
    exact someBeq_false this]
  rw [if_neg Bool.false_ne_true]
  rw [if_pos rfl]
  rfl

theorem posRel_A2 (cwd : List Char) (C T : List (List Char))
    (hC : ∀ s ∈ C, GoodSeg isPosixPathSeparator s)
    (hT : ∀ s ∈ T, GoodSeg isPosixPathSeparator s)
    (hCne : C ≠ []) (hTne : T ≠ []) :
    posRelative cwd ('/' :: List.intercalate ['/'] C)
        ('/' :: List.intercalate ['/'] (C ++ T)) =
      List.intercalate ['/'] T := by
  have hsplit : List.intercalate ['/'] (C ++ T) =
      List.intercalate ['/'] C ++ '/' :: List.intercalate ['/'] T :=
    intercalate_append₂ '/' C T hCne hTne
  have hPT : ¬ ('/' :: List.intercalate ['/'] C) =
      '/' :: List.intercalate ['/'] (C ++ T) := by
    intro h
    have := congrArg List.length h
    rw [hsplit] at this
    simp only [List.length_cons, List.length_append] at this
    omega
  unfold posRelative
  rw [if_neg hPT]
  dsimp only
  rw [posResolve_abs_clean cwd C hCne hC,
    posResolve_abs_clean cwd (C ++ T) (by simp [hCne]) (by
      intro s hs
      rcases List.mem_append.mp hs with h | h
      · exact hC s h
      · exact hT s h)]
  rw [if_neg hPT]
  rw [show ('/' :: List.intercalate ['/'] C).length - 1 =
      (List.intercalate ['/'] C).length from by simp,
    show ('/' :: List.intercalate ['/'] (C ++ T)).length - 1 =
      (List.intercalate ['/'] (C ++ T)).length from by simp]
  rw [if_pos (show (List.intercalate ['/'] C).length <
      (List.intercalate ['/'] (C ++ T)).length from by
    rw [hsplit]
    simp only [List.length_append, List.length_cons]
    omega)]
  obtain ⟨lcs', hscan⟩ := relScan_CEnd2 C (fun s hs => (hC s hs).2.2.2) hCne
    [] [] ('/' :: List.intercalate ['/'] T) (-1)
  rw [show ([] : List Char) ++ (List.intercalate ['/'] C ++ ([] : List Char)) =
      List.intercalate ['/'] C from by simp,
    show ([] : List Char) ++ (List.intercalate ['/'] C ++
        '/' :: List.intercalate ['/'] T) =
      List.intercalate ['/'] (C ++ T) from by rw [hsplit]; simp,
    show ([] : List Char).length = 0 from rfl, Nat.zero_add] at hscan
  rw [hscan]
  dsimp only
  rw [show (((List.intercalate ['/'] C).length : Nat) ==
      (List.intercalate ['/'] C).length) = true from beq_self_eq_true _, if_pos rfl]
  rw [if_pos (show (List.intercalate ['/'] (C ++ T)).length >
      (List.intercalate ['/'] C).length from by
    rw [hsplit]
    simp only [List.length_append, List.length_cons]
    omega)]
  have hcode : codeAt ('/' :: List.intercalate ['/'] (C ++ T))
      (1 + (List.intercalate ['/'] C).length) = some '/'.toNat := by
    rw [hsplit, codeAt_one_add]
    exact codeAt_mid _ _ _
  rw [hcode]
  rw [show ((some '/'.toNat : Option Nat) == some CHAR_FORWARD_SLASH) = true
    from by decide]
  rw [if_pos rfl]
  rw [show '/' :: List.intercalate ['/'] (C ++ T) =
      (('/' :: List.intercalate ['/'] C) ++ ['/']) ++ List.intercalate ['/'] T
      from by rw [hsplit]; simp]
  rw [show 1 + (List.intercalate ['/'] C).length + 1 =
      (('/' :: List.intercalate ['/'] C) ++ ['/']).length from by
    simp only [List.length_append, List.length_cons, List.length_nil]
    try omega]
  exact List.drop_left _ _

theorem posRel_B1 (cwd : List Char) (F : List (List Char))
    (hF : ∀ s ∈ F, GoodSeg isPosixPathSeparator s) (hFne : F ≠ []) :
    posRelative cwd ('/' :: List.intercalate ['/'] F) ['/'] =
      List.intercalate ['/'] (List.replicate F.length ['.', '.']) := by
  have hiF : List.intercalate ['/'] F ≠ [] :=
    intercalate_ne_nil '/' F hFne (fun s hs => (hF s hs).1)
  have hPT : ¬ ('/' :: List.intercalate ['/'] F) = (['/'] : List Char) := by
    intro h
    injection h with _ h2
    exact hiF h2
  obtain ⟨f0, F', rfl⟩ : ∃ f0 F', F = f0 :: F' := by
    cases F with
    | nil => exact absurd rfl hFne
    | cons a b => exact ⟨a, b, rfl⟩
  obtain ⟨c, f0t, rfl⟩ : ∃ c f0t, f0 = c :: f0t := by
    cases f0 with
    | nil => exact absurd rfl (hF _ (List.mem_cons_self _ _)).1
    | cons a b => exact ⟨a, b, rfl⟩
  have hchead : List.intercalate ['/'] ((c :: f0t) :: F') =
      c :: List.intercalate ['/'] (f0t :: F') := intercalate_head_cons '/' c f0t F'
  unfold posRelative
  rw [if_neg hPT]
  dsimp only
  rw [posResolve_root,
    posResolve_abs_clean cwd ((c :: f0t) :: F') (by simp) hF]
  rw [if_neg hPT]
  rw [show (['/'] : List Char).length - 1 = 0 from rfl,
    show ('/' :: List.intercalate ['/'] ((c :: f0t) :: F')).length - 1 =
      (List.intercalate ['/'] ((c :: f0t) :: F')).length from by simp]
  rw [if_neg (show ¬ (List.intercalate ['/'] ((c :: f0t) :: F')).length < 0 from by
    omega)]
  rw [show relScanLoop ('/' :: List.intercalate ['/'] ((c :: f0t) :: F')) ['/'] 1 1
      CHAR_FORWARD_SLASH 0 0 (-1) = ((0 : Nat), (-1 : Int)) from rfl]
  dsimp only
  rw [show ((0 : Nat) == 0) = true from rfl, if_pos rfl]
  rw [if_neg (show ¬ (0 : Nat) > 0 from by omega)]
  have h0 : 0 < (List.intercalate ['/'] ((c :: f0t) :: F')).length := by
    rw [hchead]
    simp
  rw [if_pos (show (List.intercalate ['/'] ((c :: f0t) :: F')).length > 0 from h0)]
  have hcode : codeAt ('/' :: List.intercalate ['/'] ((c :: f0t) :: F')) (1 + 0) =
      some c.toNat := by
    rw [hchead, codeAt_one_add, codeAt_cons_zero]
  rw [hcode]
  rw [show ((some c.toNat : Option Nat) == some CHAR_FORWARD_SLASH) = false from by
    have := (hF _ (List.mem_cons_self _ _)).2.2.2 c (List.mem_cons_self _ _)
    unfold isPosixPathSeparator at this
    exact someBeq_false this]
  rw [if_neg Bool.false_ne_true]
  rw [if_pos rfl]
  unfold posRelFinish
  dsimp only
  rw [show (((1 : Nat) : Int) + 0 + 1).toNat = 2 from by decide]
  rw [hchead]
  rw [show ('/' :: c :: List.intercalate ['/'] (f0t :: F')) =
      (['/', c] : List Char) ++ List.intercalate ['/'] (f0t :: F') from rfl]
  have hout := relOut_dots (f0t :: F')
    (fun s hs => by
      rcases List.mem_cons.mp hs with rfl | h
      · exact fun ch hch =>
          (hF _ (List.mem_cons_self _ _)).2.2.2 ch (List.mem_cons_of_mem _ hch)
      · exact (hF s (List.mem_cons_of_mem _ h)).2.2.2)
    (by simp) (['/', c] : List Char)
  rw [show ((['/', c] : List Char)).length = 2 from rfl] at hout
  rw [show ((['/', c] : List Char) ++ List.intercalate ['/'] (f0t :: F')).length + 1 - 2 =
      (List.intercalate ['/'] (f0t :: F')).length + 1 from by
    simp only [List.length_append, List.length_cons, List.length_nil]
    omega]
  rw [hout]
  rw [show (((1 : Nat) : Int) + 0).toNat = 1 from by decide]
  rw [show List.drop 1 (['/'] : List Char) = [] from rfl, List.append_nil]
  rw [show (f0t :: F').length = ((c :: f0t) :: F').length from by simp]

theorem posRel_B2 (cwd : List Char) (C F : List (List Char))
    (hC : ∀ s ∈ C, GoodSeg isPosixPathSeparator s)
    (hF : ∀ s ∈ F, GoodSeg isPosixPathSeparator s)
    (hCne : C ≠ []) (hFne : F ≠ []) :
    posRelative cwd ('/' :: List.intercalate ['/'] (C ++ F))
        ('/' :: List.intercalate ['/'] C) =
      List.intercalate ['/'] (List.replicate F.length ['.', '.']) := by
  have hsplit : List.intercalate ['/'] (C ++ F) =
      List.intercalate ['/'] C ++ '/' :: List.intercalate ['/'] F :=
    intercalate_append₂ '/' C F hCne hFne
  have hPT : ¬ ('/' :: List.intercalate ['/'] (C ++ F)) =
      '/' :: List.intercalate ['/'] C := by
    intro h
    have := congrArg List.length h
    rw [hsplit] at this
    simp only [List.length_cons, List.length_append] at this
    omega
  unfold posRelative
  rw [if_neg hPT]
  dsimp only
  rw [posResolve_abs_clean cwd (C ++ F) (by simp [hCne]) (by
      intro s hs
      rcases List.mem_append.mp hs with h | h
      · exact hC s h
      · exact hF s h),
    posResolve_abs_clean cwd C hCne hC]
  rw [if_neg hPT]
  rw [show ('/' :: List.intercalate ['/'] (C ++ F)).length - 1 =
      (List.intercalate ['/'] (C ++ F)).length from by simp,
    show ('/' :: List.intercalate ['/'] C).length - 1 =
      (List.intercalate ['/'] C).length from by simp]
  rw [if_neg (show ¬ (List.intercalate ['/'] (C ++ F)).length <
      (List.intercalate ['/'] C).length from by
    rw [hsplit]
    simp only [List.length_append, List.length_cons]
    omega)]
  obtain ⟨lcs', hscan⟩ := relScan_CEnd2 C (fun s hs => (hC s hs).2.2.2) hCne
    [] ('/' :: List.intercalate ['/'] F) [] (-1)
  rw [show ([] : List Char) ++ (List.intercalate ['/'] C ++
        '/' :: List.intercalate ['/'] F) =
      List.intercalate ['/'] (C ++ F) from by rw [hsplit]; simp,
    show ([] : List Char) ++ (List.intercalate ['/'] C ++ ([] : List Char)) =
      List.intercalate ['/'] C from by simp,
    show ([] : List Char).length = 0 from rfl, Nat.zero_add] at hscan
  rw [hscan]
  dsimp only
  rw [show (((List.intercalate ['/'] C).length : Nat) ==
      (List.intercalate ['/'] C).length) = true from beq_self_eq_true _, if_pos rfl]
  rw [if_neg (show ¬ (List.intercalate ['/'] C).length >
      (List.intercalate ['/'] C).length from by omega)]
  rw [if_pos (show (List.intercalate ['/'] (C ++ F)).length >
      (List.intercalate ['/'] C).length from by
    rw [hsplit]
    simp only [List.length_append, List.length_cons]
    omega)]
  have hcode : codeAt ('/' :: List.intercalate ['/'] (C ++ F))
      (1 + (List.intercalate ['/'] C).length) = some '/'.toNat := by
    rw [hsplit, codeAt_one_add]
    exact codeAt_mid _ _ _
  rw [hcode]
  rw [show ((some '/'.toNat : Option Nat) == some CHAR_FORWARD_SLASH) = true
    from by decide]
  rw [if_pos rfl]
  unfold posRelFinish
  dsimp only
  rw [show (((1 : Nat) : Int) +
      (((List.intercalate ['/'] C).length : Nat) : Int) + 1).toNat =
    (List.intercalate ['/'] C).length + 2 from by omega]
  rw [show '/' :: List.intercalate ['/'] (C ++ F) =
      ('/' :: List.intercalate ['/'] C ++ ['/']) ++ List.intercalate ['/'] F
      from by rw [hsplit]; simp]
  have hout := relOut_dots F (fun s hs => (hF s hs).2.2.2) hFne
    ('/' :: List.intercalate ['/'] C ++ ['/'])
  rw [show ('/' :: List.intercalate ['/'] C ++ ['/']).length =
      (List.intercalate ['/'] C).length + 2 from by
    simp only [List.length_cons, List.length_append, List.length_nil]
    try omega] at hout
  rw [show (('/' :: List.intercalate ['/'] C ++ ['/']) ++
        List.intercalate ['/'] F).length + 1 - ((List.intercalate ['/'] C).length + 2) =
      (List.intercalate ['/'] F).length + 1 from by
    simp only [List.length_append, List.length_cons, List.length_nil]
    omega]
  rw [hout]
  rw [show (((1 : Nat) : Int) +
      (((List.intercalate ['/'] C).length : Nat) : Int)).toNat =
    ('/' :: List.intercalate ['/'] C).length from by
      simp only [List.length_cons]
      omega]
  rw [List.drop_length, List.append_nil]

/-- Claim C8 counterexample: win32 `relative('C:\\a', 'D:\\b')` is `'D:\\b'` —
the resolved `to` verbatim, with no `..` segment even though the resolved
`from` still has a segment remaining after the (empty) common prefix: the
case-insensitive scan mismatches at the drive letters, before any common
separator has been seen. -/
theorem c8_counterexample :
    winRelative ('C' :: ':' :: '\\' :: 'x' :: []) (fun _ => none)
        ('C' :: ':' :: '\\' :: 'a' :: []) ('D' :: ':' :: '\\' :: 'b' :: []) =
      'D' :: ':' :: '\\' :: 'b' :: [] := rfl

theorem winResolve_single_abs (cwd : List Char)
    (env : List Char → Option (List Char)) (p dev tail : List Char)
    (h : winResolveArgs ⟨[], [], false⟩ [p] = (⟨dev, tail, true⟩, true)) :
    winResolve cwd env [p] =
      dev ++ '\\' :: normalizeString tail false '\\' isPathSeparator := by
  unfold winResolve
  dsimp only
  rw [show ([p] : List (List Char)).reverse = [p] from rfl, h]
  rfl

theorem winRelative_mismatch (cwd : List Char)
    (env : List Char → Option (List Char)) (fromP toP f t : List Char)
    (L i : Nat)
    (h1 : ¬ fromP = toP)
    (h2 : ¬ winResolve cwd env [fromP] = winResolve cwd env [toP])
    (hf : f = lowerL (winResolve cwd env [fromP]))
    (ht : t = lowerL (winResolve cwd env [toP]))
    (h3 : ¬ f = t)
    (hL : L = (if trimEndGo f (trimStartBS f) f.length f.length - trimStartBS f <
          trimEndGo t (trimStartBS t) t.length t.length - trimStartBS t then
        trimEndGo f (trimStartBS f) f.length f.length - trimStartBS f
      else trimEndGo t (trimStartBS t) t.length t.length - trimStartBS t))
    (hscan : relScanLoop f t (trimStartBS f) (trimStartBS t) CHAR_BACKWARD_SLASH
        L 0 (-1) = (i, -1))
    (hi : i ≠ L) :
    winRelative cwd env fromP toP = winResolve cwd env [toP] := by
  subst hf
  subst ht
  subst hL
  unfold winRelative
  rw [if_neg h1]
  dsimp only
  rw [if_neg h2, if_neg h3, hscan]
  dsimp only
  rw [if_pos (bne_iff_ne.mpr hi)]
  rw [if_pos (show ((-1 : Int) == (-1 : Int)) = true from by decide)]

set_option maxHeartbeats 4000000 in
/-- Claim C8 (amended): for POSIX, `relative` between absolute paths
`/C/F` and `/C/T` — clean segment lists with `C` their longest common
segment prefix (the heads of `F` and `T` differ when both are present) —
yields one `..` per segment of `F` followed by the segments of `T`; the
spec's two concrete examples hold for every cwd and environment:
`win32.relative('C:\\orandea\\test\\aaa', 'C:\\orandea\\impl\\bbb')` is
`'..\\..\\impl\\bbb'` and
`posix.relative('/data/orandea/test/aaa', '/data/orandea/impl/bbb')` is
`'../../impl/bbb'`; and win32 `relative` returns the resolved `to`
verbatim whenever the case-insensitive scan of the two resolved paths
stops on a mismatch (`i` short of `length`) before any common separator
has been seen (`lastCommonSep` still `-1`), as happens between paths on
different drive letters — see the counterexample. -/
theorem c8_relative_dotdot :
    (∀ (cwd : List Char) (C F T : List (List Char)),
        (∀ s ∈ C, GoodSeg isPosixPathSeparator s) →
        (∀ s ∈ F, GoodSeg isPosixPathSeparator s) →
        (∀ s ∈ T, GoodSeg isPosixPathSeparator s) →
        (∀ f0 F' t0 T', F = f0 :: F' → T = t0 :: T' → f0 ≠ t0) →
        posRelative cwd ('/' :: List.intercalate ['/'] (C ++ F))
            ('/' :: List.intercalate ['/'] (C ++ T)) =
          List.intercalate ['/'] (List.replicate F.length ['.', '.'] ++ T)) ∧
    (∀ (cwd : List Char) (env : List Char → Option (List Char)),
        winRelative cwd env
            ('C' :: ':' :: '\\' :: 'o' :: 'r' :: 'a' :: 'n' :: 'd' :: 'e' :: 'a' :: '\\' :: 't' :: 'e' :: 's' :: 't' :: '\\' :: 'a' :: 'a' :: 'a' :: [])
            ('C' :: ':' :: '\\' :: 'o' :: 'r' :: 'a' :: 'n' :: 'd' :: 'e' :: 'a' :: '\\' :: 'i' :: 'm' :: 'p' :: 'l' :: '\\' :: 'b' :: 'b' :: 'b' :: []) =
          ('.' :: '.' :: '\\' :: '.' :: '.' :: '\\' :: 'i' :: 'm' :: 'p' :: 'l' :: '\\' :: 'b' :: 'b' :: 'b' :: [])) ∧
    (∀ (cwd : List Char),
        posRelative cwd
            ('/' :: 'd' :: 'a' :: 't' :: 'a' :: '/' :: 'o' :: 'r' :: 'a' :: 'n' :: 'd' :: 'e' :: 'a' :: '/' :: 't' :: 'e' :: 's' :: 't' :: '/' :: 'a' :: 'a' :: 'a' :: [])
            ('/' :: 'd' :: 'a' :: 't' :: 'a' :: '/' :: 'o' :: 'r' :: 'a' :: 'n' :: 'd' :: 'e' :: 'a' :: '/' :: 'i' :: 'm' :: 'p' :: 'l' :: '/' :: 'b' :: 'b' :: 'b' :: []) =
          ('.' :: '.' :: '/' :: '.' :: '.' :: '/' :: 'i' :: 'm' :: 'p' :: 'l' :: '/' :: 'b' :: 'b' :: 'b' :: [])) ∧
    (∀ (cwd : List Char) (env : List Char → Option (List Char))
        (fromP toP f t : List Char) (L i : Nat),
        ¬ fromP = toP →
        ¬ winResolve cwd env [fromP] = winResolve cwd env [toP] →
        f = lowerL (winResolve cwd env [fromP]) →
        t = lowerL (winResolve cwd env [toP]) →
        ¬ f = t →
        L = (if trimEndGo f (trimStartBS f) f.length f.length - trimStartBS f <
              trimEndGo t (trimStartBS t) t.length t.length - trimStartBS t then
            trimEndGo f (trimStartBS f) f.length f.length - trimStartBS f
          else trimEndGo t (trimStartBS t) t.length t.length - trimStartBS t) →
        relScanLoop f t (trimStartBS f) (trimStartBS t) CHAR_BACKWARD_SLASH
            L 0 (-1) = (i, -1) →
        i ≠ L →
        winRelative cwd env fromP toP = winResolve cwd env [toP]) := by
  have hgen : ∀ (cwd : List Char) (C F T : List (List Char)),
      (∀ s ∈ C, GoodSeg isPosixPathSeparator s) →
      (∀ s ∈ F, GoodSeg isPosixPathSeparator s) →
      (∀ s ∈ T, GoodSeg isPosixPathSeparator s) →
      (∀ f0 F' t0 T', F = f0 :: F' → T = t0 :: T' → f0 ≠ t0) →
      posRelative cwd ('/' :: List.intercalate ['/'] (C ++ F))
          ('/' :: List.intercalate ['/'] (C ++ T)) =
        List.intercalate ['/'] (List.replicate F.length ['.', '.'] ++ T) := by
    intro cwd C F T hC hF hT hdiff
    cases F with
    | nil =>
      cases T with
      | nil =>
        unfold posRelative
        rw [if_pos rfl]
        rfl
      | cons t0 T'' =>
        rw [List.append_nil]
        by_cases hC0 : C = []
        · subst hC0
          exact posRel_A1 cwd (t0 :: T'') hT (by simp)
        · exact posRel_A2 cwd C (t0 :: T'') hC hT hC0 (by simp)
    | cons f0 F'' =>
      cases T with
      | nil =>
        rw [List.append_nil, List.append_nil]
        by_cases hC0 : C = []
        · subst hC0
          exact posRel_B1 cwd (f0 :: F'') hF (by simp)
        · exact posRel_B2 cwd C (f0 :: F'') hC hF hC0 (by simp)
      | cons t0 T'' =>
        have hft : f0 ≠ t0 := hdiff f0 F'' t0 T'' rfl rfl
        by_cases hC0 : C = []
        · subst hC0
          exact posRel_C_nil cwd f0 t0 F'' T'' hF hT hft
        · exact posRel_C_cons cwd C hC0 f0 t0 F'' T'' hC hF hT hft
  refine ⟨hgen, ?_, ?_, ?_⟩
  · intro cwd env
    unfold winRelative
    rw [if_neg (show ¬ ('C' :: ':' :: '\\' :: 'o' :: 'r' :: 'a' :: 'n' :: 'd' :: 'e' :: 'a' :: '\\' :: 't' :: 'e' :: 's' :: 't' :: '\\' :: 'a' :: 'a' :: 'a' :: []) = ('C' :: ':' :: '\\' :: 'o' :: 'r' :: 'a' :: 'n' :: 'd' :: 'e' :: 'a' :: '\\' :: 'i' :: 'm' :: 'p' :: 'l' :: '\\' :: 'b' :: 'b' :: 'b' :: []) from by decide)]
    dsimp only
    rw [winResolve_single_abs cwd env ('C' :: ':' :: '\\' :: 'o' :: 'r' :: 'a' :: 'n' :: 'd' :: 'e' :: 'a' :: '\\' :: 't' :: 'e' :: 's' :: 't' :: '\\' :: 'a' :: 'a' :: 'a' :: [])
        ('C' :: ':' :: []) ('o' :: 'r' :: 'a' :: 'n' :: 'd' :: 'e' :: 'a' :: '\\' :: 't' :: 'e' :: 's' :: 't' :: '\\' :: 'a' :: 'a' :: 'a' :: '\\' :: []) (by decide),
      winResolve_single_abs cwd env ('C' :: ':' :: '\\' :: 'o' :: 'r' :: 'a' :: 'n' :: 'd' :: 'e' :: 'a' :: '\\' :: 'i' :: 'm' :: 'p' :: 'l' :: '\\' :: 'b' :: 'b' :: 'b' :: [])
        ('C' :: ':' :: []) ('o' :: 'r' :: 'a' :: 'n' :: 'd' :: 'e' :: 'a' :: '\\' :: 'i' :: 'm' :: 'p' :: 'l' :: '\\' :: 'b' :: 'b' :: 'b' :: '\\' :: []) (by decide)]
    rw [show ('C' :: ':' :: ([] : List Char)) ++ '\\' :: normalizeString
        ('o' :: 'r' :: 'a' :: 'n' :: 'd' :: 'e' :: 'a' :: '\\' :: 't' :: 'e' :: 's' :: 't' :: '\\' :: 'a' :: 'a' :: 'a' :: '\\' :: []) false '\\' isPathSeparator = ('C' :: ':' :: '\\' :: 'o' :: 'r' :: 'a' :: 'n' :: 'd' :: 'e' :: 'a' :: '\\' :: 't' :: 'e' :: 's' :: 't' :: '\\' :: 'a' :: 'a' :: 'a' :: []) from by decide,
      show ('C' :: ':' :: ([] : List Char)) ++ '\\' :: normalizeString
        ('o' :: 'r' :: 'a' :: 'n' :: 'd' :: 'e' :: 'a' :: '\\' :: 'i' :: 'm' :: 'p' :: 'l' :: '\\' :: 'b' :: 'b' :: 'b' :: '\\' :: []) false '\\' isPathSeparator = ('C' :: ':' :: '\\' :: 'o' :: 'r' :: 'a' :: 'n' :: 'd' :: 'e' :: 'a' :: '\\' :: 'i' :: 'm' :: 'p' :: 'l' :: '\\' :: 'b' :: 'b' :: 'b' :: []) from by decide]
    decide
  · intro cwd
    have h := hgen cwd [('d' :: 'a' :: 't' :: 'a' :: []), ('o' :: 'r' :: 'a' :: 'n' :: 'd' :: 'e' :: 'a' :: [])] [('t' :: 'e' :: 's' :: 't' :: []), ('a' :: 'a' :: 'a' :: [])] [('i' :: 'm' :: 'p' :: 'l' :: []), ('b' :: 'b' :: 'b' :: [])]
      (by
        intro s hs
        fin_cases hs <;>
          exact ⟨by decide, by decide, by decide,
            by intro c hc; fin_cases hc <;> decide⟩)
      (by
        intro s hs
        fin_cases hs <;>
          exact ⟨by decide, by decide, by decide,
            by intro c hc; fin_cases hc <;> decide⟩)
      (by
        intro s hs
        fin_cases hs <;>
          exact ⟨by decide, by decide, by decide,
            by intro c hc; fin_cases hc <;> decide⟩)
      (by
        intro f0 F' t0 T' h1 h2
        injection h1 with h1a h1b
        injection h2 with h2a h2b
        subst h1a
        subst h2a
        decide)
    rw [show ('/' :: List.intercalate ['/'] ([('d' :: 'a' :: 't' :: 'a' :: []), ('o' :: 'r' :: 'a' :: 'n' :: 'd' :: 'e' :: 'a' :: [])] ++ [('t' :: 'e' :: 's' :: 't' :: []), ('a' :: 'a' :: 'a' :: [])])) =
        ('/' :: 'd' :: 'a' :: 't' :: 'a' :: '/' :: 'o' :: 'r' :: 'a' :: 'n' :: 'd' :: 'e' :: 'a' :: '/' :: 't' :: 'e' :: 's' :: 't' :: '/' :: 'a' :: 'a' :: 'a' :: []) from by decide,
      show ('/' :: List.intercalate ['/'] ([('d' :: 'a' :: 't' :: 'a' :: []), ('o' :: 'r' :: 'a' :: 'n' :: 'd' :: 'e' :: 'a' :: [])] ++ [('i' :: 'm' :: 'p' :: 'l' :: []), ('b' :: 'b' :: 'b' :: [])])) =
        ('/' :: 'd' :: 'a' :: 't' :: 'a' :: '/' :: 'o' :: 'r' :: 'a' :: 'n' :: 'd' :: 'e' :: 'a' :: '/' :: 'i' :: 'm' :: 'p' :: 'l' :: '/' :: 'b' :: 'b' :: 'b' :: []) from by decide,
      show List.intercalate ['/']
          (List.replicate ([('t' :: 'e' :: 's' :: 't' :: []), ('a' :: 'a' :: 'a' :: [])] : List (List Char)).length ['.', '.'] ++ [('i' :: 'm' :: 'p' :: 'l' :: []), ('b' :: 'b' :: 'b' :: [])]) =
        ('.' :: '.' :: '/' :: '.' :: '.' :: '/' :: 'i' :: 'm' :: 'p' :: 'l' :: '/' :: 'b' :: 'b' :: 'b' :: []) from by decide] at h
    exact h
  · exact fun cwd env fromP toP f t L i h1 h2 hf ht h3 hL hscan hi =>
      winRelative_mismatch cwd env fromP toP f t L i h1 h2 hf ht h3 hL hscan hi

/-- Witness for C8: the general POSIX clause instantiated at
`relative('/a/t/u', '/a/v') = '../../v'`, and the win32 mismatch clause
instantiated at `relative('C:\\a', 'D:\\b')` under cwd `'Z:\\q'` and an
empty environment. -/
theorem c8_witness :
    (posRelative ('/' :: 'x' :: [])
        ('/' :: List.intercalate ['/'] (([['a']] : List (List Char)) ++
          [['t'], ['u']]))
        ('/' :: List.intercalate ['/'] (([['a']] : List (List Char)) ++ [['v']])) =
      List.intercalate ['/']
        (List.replicate ([['t'], ['u']] : List (List Char)).length ['.', '.'] ++
          [['v']])) ∧
    winRelative ('Z' :: ':' :: '\\' :: 'q' :: []) (fun _ => none)
        ('C' :: ':' :: '\\' :: 'a' :: []) ('D' :: ':' :: '\\' :: 'b' :: []) =
      winResolve ('Z' :: ':' :: '\\' :: 'q' :: []) (fun _ => none)
        [('D' :: ':' :: '\\' :: 'b' :: [])] :=
  ⟨c8_relative_dotdot.1 ('/' :: 'x' :: []) [['a']] [['t'], ['u']] [['v']]
    (by
      intro s hs
      fin_cases hs
      exact ⟨by decide, by decide, by decide, by intro c hc; fin_cases hc <;> decide⟩)
    (by
      intro s hs
      fin_cases hs <;>
        exact ⟨by decide, by decide, by decide,
          by intro c hc; fin_cases hc <;> decide⟩)
    (by
      intro s hs
      fin_cases hs
      exact ⟨by decide, by decide, by decide, by intro c hc; fin_cases hc <;> decide⟩)
    (by
      intro f0 F' t0 T' h1 h2
      injection h1 with h1a h1b
      injection h2 with h2a h2b
      subst h1a
      subst h2a
      decide),
   c8_relative_dotdot.2.2.2 ('Z' :: ':' :: '\\' :: 'q' :: []) (fun _ => none)
    ('C' :: ':' :: '\\' :: 'a' :: []) ('D' :: ':' :: '\\' :: 'b' :: [])
    ('c' :: ':' :: '\\' :: 'a' :: []) ('d' :: ':' :: '\\' :: 'b' :: [])
    4 0 (by decide) (by decide) (by decide) (by decide) (by decide) (by decide)
    (by decide) (by decide)⟩

end PathUnified
